import Mathlib

/-!
# Command dispatch of the erhe editor

A shallow embedding of the input-command dispatcher
(`src/erhe/application/commands/commands.cpp`, `commands.hpp`,
`command_context.cpp`) together with the two commands of the hex-tile map
editor (`src/hextiles/map_editor/map_editor.cpp`).

* A `Command*` is an `Option Cmd`: `none` is `nullptr`, `some c` the command
  object at address `c`.
* The dispatcher object `g_commands` is the structure `Commands`; the command
  objects it points to live in `World.command_state`.
* `std::sort` and the raw click count are library matters; they are fields of
  `Env`, next to the bodies of the virtual methods `try_call` and `try_ready`.
* A virtual method is described by what it does to the command system: the
  state calls it makes on its own command (`Op`) and its return value.  What it
  does to the application (painting a map tile) is outside the model.
* `World.log` is a ghost trace of the calls made during dispatch; the code
  never reads it (a virtual method may, which lets it depend on history).
* The double precision vectors `glm::dvec2` are abstracted to pairs of
  integers.
-/

namespace Erhe

/-- The enum `State` of a command. -/
inductive State
  | Inactive
  | Ready
  | Active
  | Disabled
  deriving DecidableEq

/-- The address of a command object (a non-null `Command*`). -/
abbrev Cmd := Nat

/-- The type `erhe::toolkit::Keycode`. -/
abbrev Keycode := Int

/-- The type `erhe::toolkit::Mouse_button`. -/
abbrev Mouse_button := Int

/-- The vector type `glm::dvec2`, over the integers. -/
structure dvec2 where
  x : Int
  y : Int
  deriving DecidableEq

/-- Componentwise `operator-` of `glm::dvec2`. -/
def dvec2.sub (a b : dvec2) : dvec2 :=
  ⟨a.x - b.x, a.y - b.y⟩

/-- The values a `Command_context` carries (`command_context.cpp`, lines 9-33). -/
structure Command_context where
  m_vec2_absolute_value : dvec2
  m_vec2_relative_value : dvec2
  deriving DecidableEq

/-- Modelled from the spec: `Key_binding` (key_binding.cpp is not in src; the
fields are those of `command.hpp`, lines 92-93 and 116-118). -/
structure Key_binding where
  m_command : Option Cmd
  m_id : Nat
  m_code : Keycode
  m_pressed : Bool
  m_modifier_mask : Option Nat
  deriving DecidableEq

/-- The three classes derived from `Mouse_binding` (`command.hpp`, lines 136-188). -/
inductive Mouse_kind
  | click (m_button : Mouse_button)
  | motion
  | drag (m_button : Mouse_button)
  deriving DecidableEq

/-- An element of `m_mouse_bindings`: the `Command_binding` base fields and the
dynamic type. -/
structure Mouse_binding where
  m_command : Option Cmd
  m_id : Nat
  kind : Mouse_kind
  deriving DecidableEq

/-- An element of `m_mouse_wheel_bindings`. -/
structure Mouse_wheel_binding where
  m_command : Option Cmd
  m_id : Nat
  deriving DecidableEq

/-- The data members of `class Commands` (`commands.hpp`, lines 119-130). -/
structure Commands where
  m_active_mouse_command : Option Cmd
  m_mouse_input_sink : Option Nat
  m_last_mouse_position : dvec2
  m_last_mouse_position_delta : dvec2
  m_last_mouse_wheel_delta : dvec2
  m_commands : List Cmd
  m_key_bindings : List Key_binding
  m_mouse_bindings : List Mouse_binding
  m_mouse_wheel_bindings : List Mouse_wheel_binding

/-- One call observed during dispatch (ghost trace). -/
inductive Entry
  | on_key (binding_id : Nat)
  | on_button (binding_id : Nat)
  | on_motion (binding_id : Nat)
  | on_wheel (binding_id : Nat)
  | try_call (command : Cmd)
  | try_ready (command : Cmd)
  | on_inactive (command : Cmd)
  | set_ready (command : Cmd)
  | set_active (command : Cmd)
  | set_inactive (command : Cmd)
  | inactivate_ready_commands
  | update_active_mouse_command (command : Cmd)
  deriving DecidableEq

/-- The dispatcher, the `m_state` of every command object, the counter of
`Unique_id` and the ghost trace. -/
structure World where
  g_commands : Commands
  command_state : Cmd → State
  next_id : Nat
  log : List Entry

/-- The two ways a dispatch can abort, and the undefined behaviour of calling
through a null command. -/
inductive Failure
  | verify_command_not_null
  | verify_slot_empty
  | null_dereference
  deriving DecidableEq

/-- A state call a virtual method makes on its own command. -/
inductive Op
  | set_ready
  | set_active
  | set_inactive
  deriving DecidableEq

/-- What the dispatcher takes from outside: the virtual methods of the
commands, how a click count tells a press from a release, and `std::sort`
with the contract of the C++ standard (the result is a permutation in which no
element compares less than an earlier one). -/
structure Env where
  try_call : Cmd → Command_context → World → List Op × Bool
  try_ready : Cmd → Command_context → World → List Op
  pressed : Int → Bool
  std_sort : (Mouse_binding → Int) → List Mouse_binding → List Mouse_binding
  std_sort_perm : ∀ key l, List.Perm (std_sort key l) l
  std_sort_sorted : ∀ key l, List.Pairwise (fun a b => key a ≤ key b) (std_sort key l)

/-- Append one entry to the ghost trace. -/
def World.logged (w : World) (e : Entry) : World :=
  { w with log := w.log ++ [e] }

/-- Assignment to `m_state` of the command at `c`. -/
def World.set_state (w : World) (c : Cmd) (st : State) : World :=
  { w with command_state := fun x => if x = c then st else w.command_state x }

/-- Assignment to `m_active_mouse_command`. -/
def World.set_slot (w : World) (slot : Option Cmd) : World :=
  { w with g_commands := { w.g_commands with m_active_mouse_command := slot } }

/-- `Commands::accept_mouse_command` (`commands.hpp`, lines 86-91). -/
def Commands.accept_mouse_command (g : Commands) (command : Option Cmd) : Bool :=
  (g.m_active_mouse_command == none) || (g.m_active_mouse_command == command)

/-- `Command_context::accept_mouse_command` (`command_context.cpp`, lines 35-38):
forwards to the global dispatcher. -/
def Command_context.accept_mouse_command (_context : Command_context)
    (g_commands : Commands) (command : Option Cmd) : Bool :=
  g_commands.accept_mouse_command command

/-- `Commands::command_inactivated` (`commands.cpp`, lines 156-164). -/
def Commands.command_inactivated (g : Commands) (command : Option Cmd) : Commands :=
  if g.m_active_mouse_command = command then
    { g with m_active_mouse_command := none }
  else
    g

/-- Modelled from the spec: `Command::set_ready` (command.cpp is not in src):
the transition to Ready.  The spec gives it from Inactive; here the assignment
is made from every state, and the theorems say where they need the call to come
from Inactive. -/
def Command.set_ready (c : Cmd) (w : World) : World :=
  ((w.logged (Entry.set_ready c)).set_state c State.Ready)

/-- Modelled from the spec: `Command::set_active` (command.cpp is not in src):
the transition to Active.  The spec gives it from Ready and from Inactive; here
the assignment is made from every state, and what is proved of a Disabled
command assumes that no state call is made on it. -/
def Command.set_active (c : Cmd) (w : World) : World :=
  ((w.logged (Entry.set_active c)).set_state c State.Active)

/-- Modelled from the spec: `Command::set_inactive` (command.cpp is not in src):
any state to Inactive; the `on_inactive` hook runs and the dispatcher is
notified through `command_inactivated`.  The hook is application cleanup: it
is recorded in the trace and changes nothing of the command system. -/
def Command.set_inactive (c : Cmd) (w : World) : World :=
  let w1 := ((w.logged (Entry.set_inactive c)).logged (Entry.on_inactive c)).set_state c State.Inactive
  { w1 with g_commands := w1.g_commands.command_inactivated (some c) }

/-- Run one state call of a virtual method of the command at `c`. -/
def Command.call_op (c : Cmd) (w : World) : Op → World
  | Op.set_ready => Command.set_ready c w
  | Op.set_active => Command.set_active c w
  | Op.set_inactive => Command.set_inactive c w

/-- Run the state calls of a virtual method, in order. -/
def Command.call_ops (c : Cmd) (ops : List Op) (w : World) : World :=
  ops.foldl (Command.call_op c) w

/-- The virtual call `command->try_call(context)`. -/
def Command.try_call (env : Env) (c : Cmd) (context : Command_context) (w : World) :
    World × Bool :=
  let r := env.try_call c context w
  (Command.call_ops c r.1 (w.logged (Entry.try_call c)), r.2)

/-- The virtual call `command->try_ready(context)`. -/
def Command.try_ready (env : Env) (c : Cmd) (context : Command_context) (w : World) :
    World :=
  Command.call_ops c (env.try_ready c context w) (w.logged (Entry.try_ready c))

/-- `Commands::register_command` (`commands.cpp`, lines 45-50). -/
def World.register_command (w : World) (command : Cmd) : World :=
  { w with g_commands :=
      { w.g_commands with m_commands := w.g_commands.m_commands ++ [command] } }

/-- `Commands::bind_command_to_key` (`commands.cpp`, lines 52-63).
Modelled from the spec: `Unique_id` (unique_id.hpp is not in src) issues
process-wide unique, monotonic ids: the next value of one counter. -/
def World.bind_command_to_key (w : World) (command : Option Cmd) (code : Keycode)
    (pressed : Bool) (modifier_mask : Option Nat) : World × Nat :=
  ({ w with
      next_id := w.next_id + 1
      g_commands := { w.g_commands with
        m_key_bindings := w.g_commands.m_key_bindings ++
          [⟨command, w.next_id, code, pressed, modifier_mask⟩] } },
   w.next_id)

/-- Append a binding to `m_mouse_bindings` under a fresh id. -/
def World.push_mouse_binding (w : World) (command : Option Cmd) (kind : Mouse_kind) :
    World × Nat :=
  ({ w with
      next_id := w.next_id + 1
      g_commands := { w.g_commands with
        m_mouse_bindings := w.g_commands.m_mouse_bindings ++
          [⟨command, w.next_id, kind⟩] } },
   w.next_id)

/-- `Commands::bind_command_to_mouse_click` (`commands.cpp`, lines 65-76). -/
def World.bind_command_to_mouse_click (w : World) (command : Option Cmd)
    (button : Mouse_button) : World × Nat :=
  w.push_mouse_binding command (Mouse_kind.click button)

/-- `Commands::bind_command_to_mouse_wheel` (`commands.cpp`, lines 78-88). -/
def World.bind_command_to_mouse_wheel (w : World) (command : Option Cmd) : World × Nat :=
  ({ w with
      next_id := w.next_id + 1
      g_commands := { w.g_commands with
        m_mouse_wheel_bindings := w.g_commands.m_mouse_wheel_bindings ++
          [⟨command, w.next_id⟩] } },
   w.next_id)

/-- `Commands::bind_command_to_mouse_motion` (`commands.cpp`, lines 90-100). -/
def World.bind_command_to_mouse_motion (w : World) (command : Option Cmd) : World × Nat :=
  w.push_mouse_binding command Mouse_kind.motion

/-- `Commands::bind_command_to_mouse_drag` (`commands.cpp`, lines 102-113). -/
def World.bind_command_to_mouse_drag (w : World) (command : Option Cmd)
    (button : Mouse_button) : World × Nat :=
  w.push_mouse_binding command (Mouse_kind.drag button)

/-- `Commands::remove_command_binding` (`commands.cpp`, lines 115-154): the
erase-remove idiom on each of the three tables. -/
def World.remove_command_binding (w : World) (binding_id : Nat) : World :=
  { w with g_commands := { w.g_commands with
      m_key_bindings := w.g_commands.m_key_bindings.filter (fun b => !(b.m_id == binding_id))
      m_mouse_bindings := w.g_commands.m_mouse_bindings.filter (fun b => !(b.m_id == binding_id))
      m_mouse_wheel_bindings :=
        w.g_commands.m_mouse_wheel_bindings.filter (fun b => !(b.m_id == binding_id)) } }

/-- The free function `get_priority` (`commands.cpp`, lines 201-212); the
`return 999` after the switch is reached by none of the four enumerators. -/
def get_priority (state : State) : Int :=
  match state with
  | State.Active => 1
  | State.Ready => 2
  | State.Inactive => 3
  | State.Disabled => 4

/-- `Commands::get_command_priority` (`commands.cpp`, lines 216-223), for a
command the caller has verified to be non-null. -/
def World.get_command_priority (w : World) (command : Cmd) : Int :=
  if some command = w.g_commands.m_active_mouse_command then
    0
  else
    get_priority (w.command_state command)

/-- The key the comparator of `sort_mouse_bindings` sorts by. -/
def World.binding_priority (w : World) (b : Mouse_binding) : Int :=
  match b.m_command with
  | some c => w.get_command_priority c
  | none => 0

/-- `Commands::sort_mouse_bindings` (`commands.cpp`, lines 225-242).  With two
or more bindings `std::sort` passes every element to the comparator, whose
`ERHE_VERIFY` aborts on a null command; with fewer it calls nothing. -/
def World.sort_mouse_bindings (env : Env) (w : World) : Except Failure World :=
  if w.g_commands.m_mouse_bindings.length < 2 then
    Except.ok w
  else if w.g_commands.m_mouse_bindings.all (fun b => b.m_command.isSome) then
    Except.ok { w with g_commands := { w.g_commands with
      m_mouse_bindings := env.std_sort w.binding_priority w.g_commands.m_mouse_bindings } }
  else
    Except.error Failure.verify_command_not_null

/-- `Commands::inactivate_ready_commands` (`commands.cpp`, lines 244-259). -/
def World.inactivate_ready_commands (w : World) : World :=
  w.g_commands.m_commands.foldl
    (fun acc command =>
      if acc.command_state command = State.Ready then Command.set_inactive command acc else acc)
    (w.logged Entry.inactivate_ready_commands)

/-- `Commands::update_active_mouse_command` (`commands.cpp`, lines 299-319). -/
def World.update_active_mouse_command (w : World) (command : Cmd) :
    Except Failure World :=
  let w1 := (w.logged (Entry.update_active_mouse_command command)).inactivate_ready_commands
  if w1.command_state command = State.Active ∧
      w1.g_commands.m_active_mouse_command ≠ some command then
    if w1.g_commands.m_active_mouse_command = none then
      Except.ok (w1.set_slot (some command))
    else
      Except.error Failure.verify_slot_empty
  else if w1.command_state command ≠ State.Active ∧
      w1.g_commands.m_active_mouse_command = some command then
    Except.ok (w1.set_slot none)
  else
    Except.ok w1

/-- Modelled from the spec: the match test of `Key_binding::on_key`
(key_binding.cpp is not in src): code equal, pressed flag equal, and no
modifier filter or the observed mask equal to the filter. -/
def Key_binding.is_match (b : Key_binding) (pressed : Bool) (code : Keycode)
    (modifier_mask : Nat) : Bool :=
  (b.m_code == code) && (b.m_pressed == pressed) &&
    (match b.m_modifier_mask with
     | none => true
     | some filter => filter == modifier_mask)

/-- Modelled from the spec: `Key_binding::on_key` (key_binding.cpp is not in
src): on a match it calls the command's `try_call` and returns whether that
consumed the event. -/
def Key_binding.on_key (env : Env) (b : Key_binding) (context : Command_context)
    (pressed : Bool) (code : Keycode) (modifier_mask : Nat) (w : World) :
    Except Failure (World × Bool) :=
  let w1 := w.logged (Entry.on_key b.m_id)
  if b.is_match pressed code modifier_mask then
    match b.m_command with
    | none => Except.error Failure.null_dereference
    | some c => Except.ok (Command.try_call env c context w1)
  else
    Except.ok (w1, false)

/-- Modelled from the spec: `on_button` of the three mouse binding classes
(mouse_click_binding.cpp, mouse_drag_binding.cpp, mouse_motion_binding.cpp are
not in src), for a binding whose command `c` the caller verified.
Click: on the configured button, an Inactive command is promoted to Ready, then
`try_call`.  Drag: on a press of the configured button an Inactive command gets
`try_ready` and the event is not consumed; on a release an Active or Ready
command gets `set_inactive` and the event is consumed.  Motion: never. -/
def Mouse_binding.on_button (env : Env) (b : Mouse_binding) (c : Cmd)
    (context : Command_context) (button : Mouse_button) (count : Int) (w : World) :
    World × Bool :=
  let w1 := w.logged (Entry.on_button b.m_id)
  match b.kind with
  | Mouse_kind.click m_button =>
    if m_button = button then
      if w1.command_state c = State.Inactive then
        Command.try_call env c context (Command.set_ready c w1)
      else
        Command.try_call env c context w1
    else
      (w1, false)
  | Mouse_kind.motion => (w1, false)
  | Mouse_kind.drag m_button =>
    if m_button = button then
      if env.pressed count then
        if w1.command_state c = State.Inactive then
          (Command.try_ready env c context w1, false)
        else
          (w1, false)
      else if w1.command_state c = State.Active ∨ w1.command_state c = State.Ready then
        (Command.set_inactive c w1, true)
      else
        (w1, false)
    else
      (w1, false)

/-- Modelled from the spec: `on_motion` of the three mouse binding classes
(their .cpp files are not in src).  Click: always false.  Motion: forwards to
`try_call`.  Drag: forwards to `try_call` only when the command is Ready or
Active. -/
def Mouse_binding.on_motion (env : Env) (b : Mouse_binding) (c : Cmd)
    (context : Command_context) (w : World) : World × Bool :=
  let w1 := w.logged (Entry.on_motion b.m_id)
  match b.kind with
  | Mouse_kind.click _ => (w1, false)
  | Mouse_kind.motion => Command.try_call env c context w1
  | Mouse_kind.drag _ =>
    if w1.command_state c = State.Ready ∨ w1.command_state c = State.Active then
      Command.try_call env c context w1
    else
      (w1, false)

/-- Modelled from the spec: `Mouse_wheel_binding::on_wheel`
(mouse_wheel_binding.cpp is not in src): forwards to `try_call`. -/
def Mouse_wheel_binding.on_wheel (env : Env) (_b : Mouse_wheel_binding) (c : Cmd)
    (context : Command_context) (w : World) : World × Bool :=
  Command.try_call env c context (w.logged (Entry.on_wheel _b.m_id))

/-- The loop of `Commands::on_key` (`commands.cpp`, lines 184-190). -/
def on_key_loop (env : Env) (context : Command_context) (pressed : Bool) (code : Keycode)
    (modifier_mask : Nat) : List Key_binding → World → Except Failure World
  | [], w => Except.ok w
  | b :: rest, w =>
    match b.on_key env context pressed code modifier_mask w with
    | Except.error e => Except.error e
    | Except.ok (w1, consumed) =>
      if consumed then Except.ok w1
      else on_key_loop env context pressed code modifier_mask rest w1

/-- The context `on_key` builds (`commands.cpp`, lines 179-182): no pointer
values are passed, the vectors keep their defaults. -/
def key_context : Command_context :=
  ⟨⟨0, 0⟩, ⟨0, 0⟩⟩

/-- `Commands::on_key` (`commands.cpp`, lines 171-197). -/
def World.on_key (env : Env) (w : World) (code : Keycode) (modifier_mask : Nat)
    (pressed : Bool) : Except Failure World :=
  on_key_loop env key_context pressed code modifier_mask w.g_commands.m_key_bindings w

/-- The loop of `Commands::on_mouse_click` (`commands.cpp`, lines 340-349). -/
def on_mouse_click_loop (env : Env) (context : Command_context) (button : Mouse_button)
    (count : Int) : List Mouse_binding → World → Except Failure World
  | [], w => Except.ok w
  | b :: rest, w =>
    match b.m_command with
    | none => Except.error Failure.verify_command_not_null
    | some command =>
      let r := b.on_button env command context button count w
      if r.2 then r.1.update_active_mouse_command command
      else on_mouse_click_loop env context button count rest r.1

/-- `Commands::on_mouse_click` (`commands.cpp`, lines 321-350). -/
def World.on_mouse_click (env : Env) (w : World) (button : Mouse_button) (count : Int) :
    Except Failure World :=
  match w.sort_mouse_bindings env with
  | Except.error e => Except.error e
  | Except.ok w1 =>
    on_mouse_click_loop env ⟨w1.g_commands.m_last_mouse_position, ⟨0, 0⟩⟩ button count
      w1.g_commands.m_mouse_bindings w1

/-- The loop of `Commands::on_mouse_wheel` (`commands.cpp`, lines 372-377). -/
def on_mouse_wheel_loop (env : Env) (context : Command_context) :
    List Mouse_wheel_binding → World → Except Failure World
  | [], w => Except.ok w
  | b :: rest, w =>
    match b.m_command with
    | none => Except.error Failure.verify_command_not_null
    | some command =>
      on_mouse_wheel_loop env context rest (b.on_wheel env command context w).1

/-- `Commands::on_mouse_wheel` (`commands.cpp`, lines 352-378). -/
def World.on_mouse_wheel (env : Env) (w : World) (x y : Int) : Except Failure World :=
  match w.sort_mouse_bindings env with
  | Except.error e => Except.error e
  | Except.ok w1 =>
    let w2 : World := { w1 with g_commands := { w1.g_commands with
      m_last_mouse_wheel_delta := ⟨x, y⟩ } }
    on_mouse_wheel_loop env
      ⟨w2.g_commands.m_last_mouse_position, w2.g_commands.m_last_mouse_wheel_delta⟩
      w2.g_commands.m_mouse_wheel_bindings w2

/-- The loop of `Commands::on_mouse_move` (`commands.cpp`, lines 395-404). -/
def on_mouse_move_loop (env : Env) (context : Command_context) :
    List Mouse_binding → World → Except Failure World
  | [], w => Except.ok w
  | b :: rest, w =>
    match b.m_command with
    | none => Except.error Failure.verify_command_not_null
    | some command =>
      let r := b.on_motion env command context w
      if r.2 then r.1.update_active_mouse_command command
      else on_mouse_move_loop env context rest r.1

/-- `Commands::on_mouse_move` (`commands.cpp`, lines 380-405). -/
def World.on_mouse_move (env : Env) (w : World) (x y : Int) : Except Failure World :=
  let new_mouse_position : dvec2 := ⟨x, y⟩
  let w1 : World := { w with g_commands := { w.g_commands with
    m_last_mouse_position_delta := w.g_commands.m_last_mouse_position.sub new_mouse_position
    m_last_mouse_position := new_mouse_position } }
  on_mouse_move_loop env
    ⟨w1.g_commands.m_last_mouse_position, w1.g_commands.m_last_mouse_position_delta⟩
    w1.g_commands.m_mouse_bindings w1

/-- The public entry points of the dispatcher, as calls with their arguments. -/
inductive Call
  | register_command (command : Cmd)
  | bind_command_to_key (command : Option Cmd) (code : Keycode) (pressed : Bool)
      (modifier_mask : Option Nat)
  | bind_command_to_mouse_click (command : Option Cmd) (button : Mouse_button)
  | bind_command_to_mouse_wheel (command : Option Cmd)
  | bind_command_to_mouse_motion (command : Option Cmd)
  | bind_command_to_mouse_drag (command : Option Cmd) (button : Mouse_button)
  | remove_command_binding (binding_id : Nat)
  | on_key (code : Keycode) (modifier_mask : Nat) (pressed : Bool)
  | on_mouse_move (x y : Int)
  | on_mouse_click (button : Mouse_button) (count : Int)
  | on_mouse_wheel (x y : Int)

/-- Make one call on the dispatcher. -/
def World.call (env : Env) (w : World) : Call → Except Failure World
  | Call.register_command command => Except.ok (w.register_command command)
  | Call.bind_command_to_key command code pressed modifier_mask =>
    Except.ok (w.bind_command_to_key command code pressed modifier_mask).1
  | Call.bind_command_to_mouse_click command button =>
    Except.ok (w.bind_command_to_mouse_click command button).1
  | Call.bind_command_to_mouse_wheel command =>
    Except.ok (w.bind_command_to_mouse_wheel command).1
  | Call.bind_command_to_mouse_motion command =>
    Except.ok (w.bind_command_to_mouse_motion command).1
  | Call.bind_command_to_mouse_drag command button =>
    Except.ok (w.bind_command_to_mouse_drag command button).1
  | Call.remove_command_binding binding_id => Except.ok (w.remove_command_binding binding_id)
  | Call.on_key code modifier_mask pressed => w.on_key env code modifier_mask pressed
  | Call.on_mouse_move x y => w.on_mouse_move env x y
  | Call.on_mouse_click button count => w.on_mouse_click env button count
  | Call.on_mouse_wheel x y => w.on_mouse_wheel env x y

/-- Make a sequence of calls, stopping at the first that aborts. -/
def World.run (env : Env) : List Call → World → Except Failure World
  | [], w => Except.ok w
  | c :: rest, w =>
    match w.call env c with
    | Except.error e => Except.error e
    | Except.ok w1 => World.run env rest w1

/-- The dispatcher as constructed (`commands.hpp`, lines 119-130, and
`initialize_component`, which reads the cursor position): empty tables, empty
slot. -/
def World.initial (command_state : Cmd → State) (next_id : Nat) (cursor : dvec2) : World :=
  { g_commands :=
      { m_active_mouse_command := none
        m_mouse_input_sink := none
        m_last_mouse_position := cursor
        m_last_mouse_position_delta := ⟨0, 0⟩
        m_last_mouse_wheel_delta := ⟨0, 0⟩
        m_commands := []
        m_key_bindings := []
        m_mouse_bindings := []
        m_mouse_wheel_bindings := [] }
    command_state := command_state
    next_id := next_id
    log := [] }

/-- `Map_primary_brush_command::try_call` (`map_editor.cpp`, lines 18-32). -/
def Map_primary_brush_command.try_call (c : Cmd) (w : World) : List Op × Bool :=
  let ops := if w.command_state c = State.Ready then [Op.set_active] else []
  if (Command.call_ops c ops w).command_state c ≠ State.Active then
    (ops, false)
  else
    (ops, true)

/-- `Map_primary_brush_command::try_ready` (`map_editor.cpp`, lines 34-44). -/
def Map_primary_brush_command.try_ready (c : Cmd) (w : World) : List Op :=
  if w.command_state c ≠ State.Inactive then
    []
  else
    [Op.set_ready]

/-- `Map_hover_command::try_call` (`map_editor.cpp`, lines 46-50). -/
def Map_hover_command.try_call (_c : Cmd) (_w : World) : List Op × Bool :=
  ([], false)

/-- The address of `m_map_hover_command` in the examples. -/
def hover_command : Cmd := 0

/-- The address of `m_map_primary_brush_command` in the examples. -/
def brush_command : Cmd := 1

/-- An environment for the examples: the two commands of the map editor (any
other command does nothing and consumes nothing), a positive click count for a
press, and insertion sort for `std::sort`. -/
def map_editor_env : Env where
  try_call := fun c _ w =>
    if c = brush_command then Map_primary_brush_command.try_call c w
    else Map_hover_command.try_call c w
  try_ready := fun c _ w =>
    if c = brush_command then Map_primary_brush_command.try_ready c w else []
  pressed := fun count => decide (0 < count)
  std_sort := fun key l => List.insertionSort (fun a b => key a ≤ key b) l
  std_sort_perm := fun key l => List.perm_insertionSort (fun a b => key a ≤ key b) l
  std_sort_sorted := fun key l =>
    haveI : IsTotal Mouse_binding (fun a b => key a ≤ key b) := ⟨fun a b => le_total (key a) (key b)⟩
    haveI : IsTrans Mouse_binding (fun a b => key a ≤ key b) :=
      ⟨fun _ _ _ hab hbc => le_trans hab hbc⟩
    List.sorted_insertionSort (fun a b => key a ≤ key b) l

/-- The calls of `Map_editor::initialize_component` (`map_editor.cpp`, lines
81-85), with the left button as button 0. -/
def map_editor_setup : List Call :=
  [ Call.register_command hover_command,
    Call.register_command brush_command,
    Call.bind_command_to_mouse_motion (some hover_command),
    Call.bind_command_to_mouse_drag (some brush_command) 0 ]

/-- The members of the dispatcher that no state call and no virtual method
reaches: the input sink, the stored mouse values, the registered commands, the
three binding tables, and the id counter. -/
def World.frame (w : World) :
    Option Nat × dvec2 × dvec2 × dvec2 × List Cmd × List Key_binding ×
      List Mouse_binding × List Mouse_wheel_binding × Nat :=
  (w.g_commands.m_mouse_input_sink, w.g_commands.m_last_mouse_position,
    w.g_commands.m_last_mouse_position_delta, w.g_commands.m_last_mouse_wheel_delta,
    w.g_commands.m_commands, w.g_commands.m_key_bindings, w.g_commands.m_mouse_bindings,
    w.g_commands.m_mouse_wheel_bindings, w.next_id)

/-- What state calls and sweeps can do between two worlds: the frame stays, the
slot stays or is emptied, the trace grows. -/
def World.quiet_step (w w1 : World) : Prop :=
  w1.frame = w.frame ∧
  (w1.g_commands.m_active_mouse_command = w.g_commands.m_active_mouse_command ∨
    w1.g_commands.m_active_mouse_command = none) ∧
  ∃ added, w1.log = w.log ++ added

/-- The world a sequence of calls ends in; the starting world when a call
aborts. -/
def World.run_or (env : Env) (calls : List Call) (w : World) : World :=
  match World.run env calls w with
  | Except.ok w1 => w1
  | Except.error _ => w

/-- Every command's `try_call` returns true only when
`accept_mouse_command` of that command holds in the call. -/
def Env.consumes_only_accepted (env : Env) : Prop :=
  ∀ (c : Cmd) (context : Command_context) (w : World),
    (env.try_call c context w).2 = true →
      context.accept_mouse_command w.g_commands (some c) = true

/-- No command's `try_call` calls `set_inactive`. -/
def Env.try_call_keeps_active (env : Env) : Prop :=
  ∀ (c : Cmd) (context : Command_context) (w : World),
    Op.set_inactive ∉ (env.try_call c context w).1

/-- An environment for the examples in which every command is a toggle that
consults `accept_mouse_command`: when accepted, `try_call` deactivates an
Active command, activates any other, and consumes the event. -/
def toggle_env : Env :=
  { map_editor_env with
    try_call := fun c context w =>
      if context.accept_mouse_command w.g_commands (some c) then
        (if w.command_state c = State.Active then [Op.set_inactive] else [Op.set_active], true)
      else
        ([], false)
    try_ready := fun _ _ _ => [] }

/-- The dispatcher at start-up in the examples: every command Inactive, ids
from 1, cursor at the origin. -/
def start_world : World :=
  World.initial (fun _ => State.Inactive) 1 ⟨0, 0⟩

/-- Calls for the examples: command 7 registered, bound to a click of button 0
and to the wheel, then button 0 pressed. -/
def toggle_calls : List Call :=
  [ Call.register_command 7,
    Call.bind_command_to_mouse_click (some 7) 0,
    Call.bind_command_to_mouse_wheel (some 7),
    Call.on_mouse_click 0 1 ]

/-- What a whole dispatch pass can do between two worlds: the frame stays and
the trace grows (the slot may be claimed or released). -/
def World.dispatch_step (w w1 : World) : Prop :=
  w1.frame = w.frame ∧ ∃ added, w1.log = w.log ++ added

/-- Calls for the examples: the map editor set up with a wheel binding for the
brush command as well, the left button pressed, the mouse moved. -/
def brush_wheel_calls : List Call :=
  map_editor_setup ++
    [ Call.bind_command_to_mouse_wheel (some brush_command),
      Call.on_mouse_click 0 1,
      Call.on_mouse_move 1 1 ]

/-- Append several entries to the ghost trace. -/
def World.logged_all (w : World) (es : List Entry) : World :=
  { w with log := w.log ++ es }

/-- The trace entries of one state call of the command at `c`. -/
def Op.entries (c : Cmd) : Op → List Entry
  | Op.set_ready => [Entry.set_ready c]
  | Op.set_active => [Entry.set_active c]
  | Op.set_inactive => [Entry.set_inactive c, Entry.on_inactive c]

/-- The trace entries of the state calls of a virtual method. -/
def ops_entries (c : Cmd) : List Op → List Entry
  | [] => []
  | op :: rest => Op.entries c op ++ ops_entries c rest

/-- Is the entry the evaluation of a key binding? -/
def Entry.is_on_key : Entry → Bool
  | Entry.on_key _ => true
  | _ => false

/-- Is the entry a call of `try_call`? -/
def Entry.is_try_call : Entry → Bool
  | Entry.try_call _ => true
  | _ => false

/-- Calls for the examples: the hover command of the map editor and command 5
both bound to the press of key 65, then key 65 pressed. -/
def two_key_calls : List Call :=
  [ Call.bind_command_to_key (some hover_command) 65 true none,
    Call.bind_command_to_key (some 5) 65 true none,
    Call.on_key 65 0 true ]

/-- Calls for the examples: command 7 bound to key 66 and to key 65, command 8
bound to key 65. -/
def toggle_key_calls : List Call :=
  [ Call.bind_command_to_key (some 7) 66 true none,
    Call.bind_command_to_key (some 7) 65 true none,
    Call.bind_command_to_key (some 8) 65 true none ]

/-- Is the entry a step of the dispatcher itself: the Ready sweep or the slot
update? -/
def Entry.is_dispatcher : Entry → Bool
  | Entry.inactivate_ready_commands => true
  | Entry.update_active_mouse_command _ => true
  | _ => false

/-- The trace grows between two worlds by entries of bindings and commands
only. -/
def World.callback_step (w w1 : World) : Prop :=
  ∃ tail, w1.log = w.log ++ tail ∧ ∀ e ∈ tail, Entry.is_dispatcher e = false

/-- Calls for the examples: the map editor set up and the left button
pressed, which arms the drag of the brush command. -/
def armed_calls : List Call :=
  map_editor_setup ++ [Call.on_mouse_click 0 1]

/-- The ids of all bindings in the three tables. -/
def World.binding_ids (w : World) : List Nat :=
  w.g_commands.m_key_bindings.map (fun b => b.m_id) ++
    (w.g_commands.m_mouse_bindings.map (fun b => b.m_id) ++
      w.g_commands.m_mouse_wheel_bindings.map (fun b => b.m_id))

/-- No two bindings share an id, and every id in use was issued by the
counter. -/
def World.ids_fresh (w : World) : Prop :=
  w.binding_ids.Nodup ∧ ∀ i ∈ w.binding_ids, i < w.next_id

/-- The command at `c` implements `try_call` and `try_ready` as
`Map_primary_brush_command` does. -/
def Env.is_brush (env : Env) (c : Cmd) : Prop :=
  (∀ (context : Command_context) (w : World),
      env.try_call c context w = Map_primary_brush_command.try_call c w) ∧
    ∀ (context : Command_context) (w : World),
      env.try_ready c context w = Map_primary_brush_command.try_ready c w

/-- How often `set_active` was called on the command at `c`, by the trace. -/
def World.activations (w : World) (c : Cmd) : Nat :=
  w.log.count (Entry.set_active c)

/-- Calls for the examples: the map editor set up, the left button pressed and
the mouse moved, so that the brush command is dragging. -/
def dragging_calls : List Call :=
  armed_calls ++ [Call.on_mouse_move 1 1]

/-- Is the entry a call made on a command: a virtual method or a state call? -/
def Entry.is_command : Entry → Bool
  | Entry.try_call _ => true
  | Entry.try_ready _ => true
  | Entry.on_inactive _ => true
  | Entry.set_ready _ => true
  | Entry.set_active _ => true
  | Entry.set_inactive _ => true
  | _ => false

/-- Is the entry the evaluation of a mouse binding by `on_button`? -/
def Entry.is_on_button : Entry → Bool
  | Entry.on_button _ => true
  | _ => false

/-- Is the entry the evaluation of a mouse binding by `on_motion`? -/
def Entry.is_on_motion : Entry → Bool
  | Entry.on_motion _ => true
  | _ => false

/-- Is the entry the evaluation of a wheel binding by `on_wheel`? -/
def Entry.is_on_wheel : Entry → Bool
  | Entry.on_wheel _ => true
  | _ => false

/-- The trace grows between two worlds by calls on commands only. -/
def World.command_step (w w1 : World) : Prop :=
  ∃ tail, w1.log = w.log ++ tail ∧ ∀ e ∈ tail, Entry.is_command e = true

/-- Does the call pass a non-null command, when it makes a mouse or wheel
binding?  Every other call counts as true. -/
def Call.has_command : Call → Bool
  | Call.bind_command_to_mouse_click command _ => command.isSome
  | Call.bind_command_to_mouse_wheel command => command.isSome
  | Call.bind_command_to_mouse_motion command => command.isSome
  | Call.bind_command_to_mouse_drag command _ => command.isSome
  | _ => true

/-- Every binding in the mouse table and in the wheel table has a non-null
command. -/
def World.commands_bound (w : World) : Prop :=
  (∀ b ∈ w.g_commands.m_mouse_bindings, b.m_command.isSome = true) ∧
    ∀ b ∈ w.g_commands.m_mouse_wheel_bindings, b.m_command.isSome = true

/-- The wheel bindings are stored in the order in which they were registered:
ids, issued by one increasing counter, increase along the table. -/
def World.wheel_in_registration_order (w : World) : Prop :=
  (w.g_commands.m_mouse_wheel_bindings.map (fun b => b.m_id)).Pairwise (fun i j => i < j)

/-- Calls for the examples: hover command and command 5 bound to the wheel. -/
def two_wheel_calls : List Call :=
  [ Call.bind_command_to_mouse_wheel (some hover_command),
    Call.bind_command_to_mouse_wheel (some 5) ]

/-- Calls for the examples: the map editor set up, the left button pressed,
the mouse moved, the drag binding removed, the wheel turned. -/
def bound_calls : List Call :=
  dragging_calls ++ [Call.remove_command_binding 2, Call.on_mouse_wheel 0 1]

/-- Is the binding a motion binding of the command at `c`? -/
def Mouse_binding.is_motion_of (b : Mouse_binding) (c : Cmd) : Bool :=
  match b.kind with
  | Mouse_kind.motion => b.m_command == some c
  | _ => false

/-- Is the binding a motion or drag binding of the command at `c` (the two
kinds whose `on_motion` can forward to `try_call`)? -/
def Mouse_binding.may_forward_to (b : Mouse_binding) (c : Cmd) : Bool :=
  match b.kind with
  | Mouse_kind.click _ => false
  | _ => b.m_command == some c

/-- Calls for the examples: in the map editor a first drag (press, motion,
release), then the press that begins a second drag. -/
def second_drag_calls : List Call :=
  dragging_calls ++ [Call.on_mouse_click 0 0, Call.on_mouse_click 0 1]

/-- The mouse bindings are click bindings of `x` and drag bindings of `y`, all
on the one button. -/
def click_drag_table (x y : Cmd) (button : Mouse_button) (l : List Mouse_binding) : Prop :=
  ∀ b ∈ l, (b.m_command = some x ∧ b.kind = Mouse_kind.click button) ∨
    (b.m_command = some y ∧ b.kind = Mouse_kind.drag button)

/-- The `try_ready` of the command at `c` never calls `set_active`. -/
def Env.ready_only (env : Env) (c : Cmd) : Prop :=
  ∀ (context : Command_context) (w : World), Op.set_active ∉ env.try_ready c context w

/-- An environment for the examples in which every `try_ready` goes straight to
Active and no `try_call` does anything. -/
def eager_env : Env :=
  { map_editor_env with
    try_call := fun _ _ _ => ([], false)
    try_ready := fun _ _ _ => [Op.set_active] }

/-- Calls for the examples: command 3 bound to a click of button 0, command 4
to a drag on button 0. -/
def click_drag_calls : List Call :=
  [ Call.bind_command_to_mouse_click (some 3) 0,
    Call.bind_command_to_mouse_drag (some 4) 0 ]

/-- Calls for the examples: the hover command bound to a click of the left
button, the brush command to a drag on the left button. -/
def hover_click_calls : List Call :=
  [ Call.bind_command_to_mouse_click (some hover_command) 0,
    Call.bind_command_to_mouse_drag (some brush_command) 0 ]

/-- `Commands::last_mouse_position` (`commands.cpp`, lines 284-287). -/
def Commands.last_mouse_position (g : Commands) : dvec2 :=
  g.m_last_mouse_position

/-- `Commands::last_mouse_position_delta` (`commands.cpp`, lines 289-292). -/
def Commands.last_mouse_position_delta (g : Commands) : dvec2 :=
  g.m_last_mouse_position_delta

/-- `Commands::last_mouse_wheel_delta` (`commands.cpp`, lines 294-297). -/
def Commands.last_mouse_wheel_delta (g : Commands) : dvec2 :=
  g.m_last_mouse_wheel_delta

/-- The enum class `erhe::graphics::Image_format` with underlying type `int`
(`image_loader_wuffs.hpp`, lines 18-22), by its underlying value: an object of
the type can hold any `int`, of which two are enumerators. -/
abbrev Image_format := Int

/-- The enumerator `Image_format::srgb8 = 0`. -/
def Image_format.srgb8 : Image_format := 0

/-- The enumerator `Image_format::srgb8_alpha8`, the next value. -/
def Image_format.srgb8_alpha8 : Image_format := 1

/-- The class `erhe::graphics::Image_info` (`image_loader_wuffs.hpp`, lines
24-33); the `int` members are 32-bit values held in `Int`. -/
structure Image_info where
  width : Int
  height : Int
  depth : Int
  level_count : Int
  row_stride : Int
  format : Image_format

/-- The conversion `static_cast<size_t>(int)` with a 64-bit `size_t`: the value
modulo 2^64. -/
def size_t_cast (v : Int) : Nat :=
  (v % 2 ^ 64).toNat

/-- The function `pixel_size` (`texture_util.cpp`, lines 30-38). -/
def pixel_size (format : Image_format) : Nat :=
  if format = Image_format.srgb8 then 3
  else if format = Image_format.srgb8_alpha8 then 4
  else 0

/-- The function `get_buffer_size` (`texture_util.cpp`, lines 40-46): the two
`Expects` terminate the program when they fail (`none`); the product is taken
in `size_t`, modulo 2^64 at each multiplication. -/
def get_buffer_size (info : Image_info) : Option Nat :=
  if info.width ≥ 1 then
    if info.height ≥ 1 then
      some ((size_t_cast info.width * size_t_cast info.height % 2 ^ 64) *
        pixel_size info.format % 2 ^ 64)
    else
      none
  else
    none

/-- The commands a list of calls passes to `register_command`, in order. -/
def registered_by : List Call → List Cmd
  | [] => []
  | Call.register_command command :: rest => command :: registered_by rest
  | _ :: rest => registered_by rest

/-- Calls for the examples: the brush command of the map editor bound to a drag
on the left button but never registered, then the left button pressed. -/
def unregistered_calls : List Call :=
  [ Call.bind_command_to_mouse_drag (some brush_command) 0,
    Call.on_mouse_click 0 1 ]

/-- The world of `update_active_mouse_command(command)` right after its call of
`inactivate_ready_commands` (`commands.cpp`, line 302), before the slot is
looked at. -/
def World.after_sweep (w : World) (command : Cmd) : World :=
  (w.logged (Entry.update_active_mouse_command command)).inactivate_ready_commands

/-- Do the state calls of a virtual method, made in order on a command that
starts in the given state, call `set_ready` only while the command is
Inactive? -/
def ops_guarded : State → List Op → Bool
  | _, [] => true
  | state, Op.set_ready :: rest => decide (state = State.Inactive) && ops_guarded State.Ready rest
  | _, Op.set_active :: rest => ops_guarded State.Active rest
  | _, Op.set_inactive :: rest => ops_guarded State.Inactive rest

/-- Every command's `try_call` and `try_ready` call `set_ready` only from
Inactive. -/
def Env.ready_from_inactive (env : Env) : Prop :=
  ∀ (c : Cmd) (context : Command_context) (w : World),
    ops_guarded (w.command_state c) (env.try_call c context w).1 = true ∧
      ops_guarded (w.command_state c) (env.try_ready c context w) = true

/-- A non-empty slot holds a command whose state is Active. -/
def World.slot_owner_active (w : World) : Prop :=
  ∀ c, w.g_commands.m_active_mouse_command = some c → w.command_state c = State.Active

/-- Does the call sort the mouse bindings?  `on_mouse_click` and
`on_mouse_wheel` call `sort_mouse_bindings` (`commands.cpp`, lines 328 and
356); no other entry point does. -/
def Call.sorts : Call → Bool
  | Call.on_mouse_click _ _ => true
  | Call.on_mouse_wheel _ _ => true
  | _ => false

/-- Calls for the examples: in the map editor a whole drag (press, motion,
release); the release sorts the brush command's binding to the front. -/
def drag_done_calls : List Call :=
  dragging_calls ++ [Call.on_mouse_click 0 0]

/-- Is the entry a call of `update_active_mouse_command`? -/
def Entry.is_update : Entry → Bool
  | Entry.update_active_mouse_command _ => true
  | _ => false

/-- Does every binding of the list have a command and does its predicate,
evaluated in turn from the world, return false? -/
def declined (pred : Mouse_binding → Cmd → World → World × Bool) :
    List Mouse_binding → World → Bool
  | [], _ => true
  | b :: rest, w =>
    match b.m_command with
    | none => false
    | some c => !(pred b c w).2 && declined pred rest (pred b c w).1

/-- The world after the predicates of the bindings of the list were evaluated
in turn from the world. -/
def after_declined (pred : Mouse_binding → Cmd → World → World × Bool) :
    List Mouse_binding → World → World
  | [], w => w
  | b :: rest, w =>
    match b.m_command with
    | none => w
    | some c => after_declined pred rest (pred b c w).1

/-- What it is for a pass over the bindings `l` from the world `v`, ending in
`w1` with the trace grown by `added`, to stop at the first binding whose
predicate returns true.  Either every predicate returned false: all bindings
were evaluated, in order, and `update_active_mouse_command` was not called.
Or the predicates of `pre` returned false and that of the next binding `b`
returned true: exactly `pre` and `b` were evaluated, in order, nothing of
`post` was, and `update_active_mouse_command` was called once, with the command
of `b`, producing `w1`.  Here `mark` is the trace entry of an evaluation and
`is_mark` recognises such entries. -/
def stops_at_first_consumer (pred : Mouse_binding → Cmd → World → World × Bool)
    (mark : Mouse_binding → Entry) (is_mark : Entry → Bool)
    (l : List Mouse_binding) (v w1 : World) (added : List Entry) : Prop :=
  (declined pred l v = true ∧ w1 = after_declined pred l v ∧
    added.filter is_mark = l.map mark ∧ added.filter Entry.is_update = []) ∨
  ∃ pre b c post, l = pre ++ b :: post ∧ b.m_command = some c ∧
    declined pred pre v = true ∧
    (pred b c (after_declined pred pre v)).2 = true ∧
    (pred b c (after_declined pred pre v)).1.update_active_mouse_command c = Except.ok w1 ∧
    added.filter is_mark = (pre ++ [b]).map mark ∧
    added.filter Entry.is_update = [Entry.update_active_mouse_command c]

/-- The world in which `on_mouse_click` runs its loop: the mouse bindings as
`std::sort` left them. -/
def World.sorted_as (w : World) (sorted : List Mouse_binding) : World :=
  { w with g_commands := { w.g_commands with m_mouse_bindings := sorted } }

/-- The world in which `on_mouse_move(x, y)` runs its loop: the new position and
the delta stored (`commands.cpp`, lines 384-387). -/
def World.moved_to (w : World) (x y : Int) : World :=
  { w with g_commands := { w.g_commands with
    m_last_mouse_position_delta := w.g_commands.m_last_mouse_position.sub ⟨x, y⟩
    m_last_mouse_position := ⟨x, y⟩ } }

/-- The sort keeps bindings of equal key in the order they had: for every key
value, the bindings with that key are the same list before and after.  The
contract of `std::sort` does not include this; `std::stable_sort` has it. -/
def Env.sort_is_stable (env : Env) : Prop :=
  ∀ (key : Mouse_binding → Int) (l : List Mouse_binding) (k : Int),
    (env.std_sort key l).filter (fun b => decide (key b = k)) =
      l.filter (fun b => decide (key b = k))

/-- An environment for the examples that differs from `map_editor_env` in its
`std::sort` only: a sort that leaves bindings of equal key in the reverse of the
order they had, as the contract of `std::sort` allows. -/
def reversing_env : Env :=
  { map_editor_env with
    std_sort := fun key l => List.insertionSort (fun a b => key a ≤ key b) l.reverse
    std_sort_perm := fun key l =>
      (List.perm_insertionSort (fun a b => key a ≤ key b) l.reverse).trans
        (List.reverse_perm l)
    std_sort_sorted := fun key l =>
      haveI : IsTotal Mouse_binding (fun a b => key a ≤ key b) :=
        ⟨fun a b => le_total (key a) (key b)⟩
      haveI : IsTrans Mouse_binding (fun a b => key a ≤ key b) :=
        ⟨fun _ _ _ hab hbc => le_trans hab hbc⟩
      List.sorted_insertionSort (fun a b => key a ≤ key b) l.reverse }

/-- What the binding predicates, the state calls and the sweep can do to the
slot between two worlds: the trace grows, and the slot stays as it is or is
emptied with a `set_inactive` of its holder in the added trace. -/
def World.release_step (w w1 : World) : Prop :=
  ∃ added, w1.log = w.log ++ added ∧
    (w1.g_commands.m_active_mouse_command = w.g_commands.m_active_mouse_command ∨
      (w1.g_commands.m_active_mouse_command = none ∧
        ∀ a, w.g_commands.m_active_mouse_command = some a → Entry.set_inactive a ∈ added))

/-- What a whole call can do to the slot between two worlds: the trace grows,
and a command that holds the slot afterwards without having held it before is
Active, was passed to `update_active_mouse_command` in the added trace, and the
holder before, if there was one, got its `set_inactive` in the added trace. -/
def World.claim_step (w w1 : World) : Prop :=
  ∃ added, w1.log = w.log ++ added ∧
    ∀ b, w1.g_commands.m_active_mouse_command = some b →
      w.g_commands.m_active_mouse_command ≠ some b →
      w1.command_state b = State.Active ∧
      Entry.update_active_mouse_command b ∈ added ∧
      ∀ a, w.g_commands.m_active_mouse_command = some a → Entry.set_inactive a ∈ added

/-- The holder of the slot was passed to `update_active_mouse_command` at some
point of the trace. -/
def World.owner_consumed (w : World) : Prop :=
  ∀ c, w.g_commands.m_active_mouse_command = some c →
    Entry.update_active_mouse_command c ∈ w.log

/-! ## Effects of the state calls -/

theorem quiet_step_refl (w : World) : w.quiet_step w :=
  ⟨rfl, Or.inl rfl, [], by simp⟩

theorem quiet_step_trans {a b c : World} (h1 : a.quiet_step b) (h2 : b.quiet_step c) :
    a.quiet_step c := by
  obtain ⟨f1, s1, l1, hl1⟩ := h1
  obtain ⟨f2, s2, l2, hl2⟩ := h2
  refine ⟨f2.trans f1, ?_, l1 ++ l2, by rw [hl2, hl1, List.append_assoc]⟩
  rcases s2 with s2 | s2
  · rw [s2]; exact s1
  · exact Or.inr s2

theorem logged_quiet (w : World) (e : Entry) : w.quiet_step (w.logged e) :=
  ⟨rfl, Or.inl rfl, [e], rfl⟩

theorem set_ready_quiet (c : Cmd) (w : World) : w.quiet_step (Command.set_ready c w) :=
  ⟨rfl, Or.inl rfl, [Entry.set_ready c], rfl⟩

theorem set_active_quiet (c : Cmd) (w : World) : w.quiet_step (Command.set_active c w) :=
  ⟨rfl, Or.inl rfl, [Entry.set_active c], rfl⟩

theorem set_inactive_slot (c : Cmd) (w : World) :
    (Command.set_inactive c w).g_commands.m_active_mouse_command =
      if w.g_commands.m_active_mouse_command = some c then none
      else w.g_commands.m_active_mouse_command := by
  unfold Command.set_inactive Commands.command_inactivated
  by_cases h : w.g_commands.m_active_mouse_command = some c <;>
    simp [World.set_state, World.logged, h]

theorem set_inactive_quiet (c : Cmd) (w : World) : w.quiet_step (Command.set_inactive c w) := by
  refine ⟨?_, ?_, [Entry.set_inactive c, Entry.on_inactive c], ?_⟩
  · unfold Command.set_inactive Commands.command_inactivated
    by_cases h : w.g_commands.m_active_mouse_command = some c <;>
      simp [World.frame, World.set_state, World.logged, h]
  · rw [set_inactive_slot]
    by_cases h : w.g_commands.m_active_mouse_command = some c <;> simp [h]
  · simp [Command.set_inactive, World.set_state, World.logged]

theorem set_ready_state (c : Cmd) (w : World) (x : Cmd) :
    (Command.set_ready c w).command_state x =
      if x = c then State.Ready else w.command_state x := rfl

theorem set_active_state (c : Cmd) (w : World) (x : Cmd) :
    (Command.set_active c w).command_state x =
      if x = c then State.Active else w.command_state x := rfl

theorem set_inactive_state (c : Cmd) (w : World) (x : Cmd) :
    (Command.set_inactive c w).command_state x =
      if x = c then State.Inactive else w.command_state x := rfl

theorem call_op_quiet (c : Cmd) (w : World) (op : Op) : w.quiet_step (Command.call_op c w op) := by
  cases op
  · exact set_ready_quiet c w
  · exact set_active_quiet c w
  · exact set_inactive_quiet c w

theorem call_op_state_other (c : Cmd) (w : World) (op : Op) (x : Cmd) (hx : x ≠ c) :
    (Command.call_op c w op).command_state x = w.command_state x := by
  cases op <;> simp [Command.call_op, set_ready_state, set_active_state, set_inactive_state, hx]

theorem call_ops_quiet (c : Cmd) (ops : List Op) (w : World) :
    w.quiet_step (Command.call_ops c ops w) := by
  induction ops generalizing w with
  | nil => exact quiet_step_refl w
  | cons op rest ih =>
    exact quiet_step_trans (call_op_quiet c w op) (ih (Command.call_op c w op))

theorem call_ops_state_other (c : Cmd) (ops : List Op) (w : World) (x : Cmd) (hx : x ≠ c) :
    (Command.call_ops c ops w).command_state x = w.command_state x := by
  induction ops generalizing w with
  | nil => rfl
  | cons op rest ih =>
    show (Command.call_ops c rest (Command.call_op c w op)).command_state x = _
    rw [ih, call_op_state_other c w op x hx]

theorem try_call_quiet (env : Env) (c : Cmd) (context : Command_context) (w : World) :
    w.quiet_step (Command.try_call env c context w).1 :=
  quiet_step_trans (logged_quiet w _) (call_ops_quiet c _ _)

theorem try_ready_quiet (env : Env) (c : Cmd) (context : Command_context) (w : World) :
    w.quiet_step (Command.try_ready env c context w) :=
  quiet_step_trans (logged_quiet w _) (call_ops_quiet c _ _)

theorem try_call_state_other (env : Env) (c : Cmd) (context : Command_context) (w : World)
    (x : Cmd) (hx : x ≠ c) :
    (Command.try_call env c context w).1.command_state x = w.command_state x :=
  call_ops_state_other c _ _ x hx

theorem try_ready_state_other (env : Env) (c : Cmd) (context : Command_context) (w : World)
    (x : Cmd) (hx : x ≠ c) :
    (Command.try_ready env c context w).command_state x = w.command_state x :=
  call_ops_state_other c _ _ x hx

/-! ## The Ready sweep and the slot update -/

theorem sweep_fold_quiet (cs : List Cmd) (acc : World) :
    acc.quiet_step (cs.foldl
      (fun acc command =>
        if acc.command_state command = State.Ready then Command.set_inactive command acc else acc)
      acc) := by
  induction cs generalizing acc with
  | nil => exact quiet_step_refl acc
  | cons c rest ih =>
    simp only [List.foldl_cons]
    refine quiet_step_trans ?_ (ih _)
    split
    · exact set_inactive_quiet c acc
    · exact quiet_step_refl acc

theorem sweep_fold_state (cs : List Cmd) (acc : World) (x : Cmd) :
    (cs.foldl
      (fun acc command =>
        if acc.command_state command = State.Ready then Command.set_inactive command acc else acc)
      acc).command_state x =
      if x ∈ cs ∧ acc.command_state x = State.Ready then State.Inactive
      else acc.command_state x := by
  induction cs generalizing acc with
  | nil => simp
  | cons c rest ih =>
    simp only [List.foldl_cons]
    rw [ih]
    by_cases hc : acc.command_state c = State.Ready
    · simp only [hc, if_true, set_inactive_state]
      by_cases hxc : x = c
      · subst hxc
        simp [hc]
      · by_cases hxr : x ∈ rest <;> simp [hxc, hxr]
    · simp only [hc, if_false]
      by_cases hxc : x = c
      · subst hxc
        simp [hc]
      · simp [hxc]

theorem inactivate_ready_commands_quiet (w : World) :
    w.quiet_step w.inactivate_ready_commands :=
  quiet_step_trans (logged_quiet w _) (sweep_fold_quiet _ _)

theorem inactivate_ready_commands_state (w : World) (x : Cmd) :
    w.inactivate_ready_commands.command_state x =
      if x ∈ w.g_commands.m_commands ∧ w.command_state x = State.Ready then State.Inactive
      else w.command_state x := by
  unfold World.inactivate_ready_commands
  rw [sweep_fold_state]
  rfl

theorem inactivate_ready_commands_active (w : World) (x : Cmd) :
    w.inactivate_ready_commands.command_state x = State.Active ↔
      w.command_state x = State.Active := by
  rw [inactivate_ready_commands_state]
  by_cases h : x ∈ w.g_commands.m_commands ∧ w.command_state x = State.Ready
  · simp [h]
  · simp [h]

/-- The world in which `update_active_mouse_command` makes its test. -/
theorem update_active_mouse_command_cases (w : World) (c : Cmd) :
    let w1 := (w.logged (Entry.update_active_mouse_command c)).inactivate_ready_commands
    w.update_active_mouse_command c = Except.ok (w1.set_slot (some c)) ∨
    w.update_active_mouse_command c = Except.ok (w1.set_slot none) ∨
    w.update_active_mouse_command c = Except.ok w1 ∨
    (w.update_active_mouse_command c = Except.error Failure.verify_slot_empty ∧
      w1.command_state c = State.Active ∧
      w1.g_commands.m_active_mouse_command ≠ some c ∧
      w1.g_commands.m_active_mouse_command ≠ none) := by
  intro w1
  unfold World.update_active_mouse_command
  simp only []
  split
  · rename_i h
    split
    · exact Or.inl rfl
    · rename_i h2
      exact Or.inr (Or.inr (Or.inr ⟨rfl, h.1, h.2, h2⟩))
  · split
    · exact Or.inr (Or.inl rfl)
    · exact Or.inr (Or.inr (Or.inl rfl))

theorem update_active_mouse_command_frame (w w1 : World) (c : Cmd)
    (h : w.update_active_mouse_command c = Except.ok w1) :
    w1.frame = w.frame ∧ ∃ added, w1.log = w.log ++ added := by
  have hq := quiet_step_trans (logged_quiet w (Entry.update_active_mouse_command c))
    (inactivate_ready_commands_quiet (w.logged (Entry.update_active_mouse_command c)))
  obtain ⟨hf, -, hl⟩ := hq
  rcases update_active_mouse_command_cases w c with h1 | h1 | h1 | h1
  · rw [h1] at h
    cases h
    exact ⟨hf, hl⟩
  · rw [h1] at h
    cases h
    exact ⟨hf, hl⟩
  · rw [h1] at h
    cases h
    exact ⟨hf, hl⟩
  · rw [h1.1] at h
    cases h

theorem update_active_mouse_command_state (w w1 : World) (c : Cmd)
    (h : w.update_active_mouse_command c = Except.ok w1) (x : Cmd) :
    w1.command_state x =
      if x ∈ w.g_commands.m_commands ∧ w.command_state x = State.Ready then State.Inactive
      else w.command_state x := by
  have hs := inactivate_ready_commands_state (w.logged (Entry.update_active_mouse_command c)) x
  rcases update_active_mouse_command_cases w c with h1 | h1 | h1 | h1
  · rw [h1] at h
    cases h
    exact hs
  · rw [h1] at h
    cases h
    exact hs
  · rw [h1] at h
    cases h
    exact hs
  · rw [h1.1] at h
    cases h

/-- The assertion of `update_active_mouse_command` holds whenever the command
could accept the mouse, or is not Active. -/
theorem update_active_mouse_command_verified (w : World) (c : Cmd)
    (h : w.g_commands.m_active_mouse_command = none ∨
      w.g_commands.m_active_mouse_command = some c ∨ w.command_state c ≠ State.Active) :
    w.update_active_mouse_command c ≠ Except.error Failure.verify_slot_empty := by
  intro hfail
  rcases update_active_mouse_command_cases w c with h1 | h1 | h1 | h1
  · rw [h1] at hfail
    cases hfail
  · rw [h1] at hfail
    cases hfail
  · rw [h1] at hfail
    cases hfail
  · obtain ⟨-, hact, hne, hnn⟩ := h1
    have hq := inactivate_ready_commands_quiet (w.logged (Entry.update_active_mouse_command c))
    have hact2 := (inactivate_ready_commands_active _ c).mp hact
    rcases hq.2.1 with hs | hs
    · rcases h with h | h | h
      · exact hnn (hs.trans h)
      · exact hne (hs.trans h)
      · exact h hact2
    · exact hnn hs

/-! ## The binding predicates -/

theorem accept_mouse_command_iff (g : Commands) (command : Option Cmd) :
    g.accept_mouse_command command = true ↔
      (g.m_active_mouse_command = none ∨ g.m_active_mouse_command = command) := by
  unfold Commands.accept_mouse_command
  simp

theorem on_button_quiet (env : Env) (b : Mouse_binding) (c : Cmd) (context : Command_context)
    (button : Mouse_button) (count : Int) (w : World) :
    w.quiet_step (b.on_button env c context button count w).1 := by
  have hl := logged_quiet w (Entry.on_button b.m_id)
  unfold Mouse_binding.on_button
  simp only []
  split
  · split
    · split
      · exact quiet_step_trans hl
          (quiet_step_trans (set_ready_quiet c _) (try_call_quiet env c context _))
      · exact quiet_step_trans hl (try_call_quiet env c context _)
    · exact hl
  · exact hl
  · split
    · split
      · split
        · exact quiet_step_trans hl (try_ready_quiet env c context _)
        · exact hl
      · split
        · exact quiet_step_trans hl (set_inactive_quiet c _)
        · exact hl
    · exact hl

theorem on_motion_quiet (env : Env) (b : Mouse_binding) (c : Cmd) (context : Command_context)
    (w : World) : w.quiet_step (b.on_motion env c context w).1 := by
  have hl := logged_quiet w (Entry.on_motion b.m_id)
  unfold Mouse_binding.on_motion
  simp only []
  split
  · exact hl
  · exact quiet_step_trans hl (try_call_quiet env c context _)
  · split
    · exact quiet_step_trans hl (try_call_quiet env c context _)
    · exact hl

theorem on_wheel_quiet (env : Env) (b : Mouse_wheel_binding) (c : Cmd)
    (context : Command_context) (w : World) :
    w.quiet_step (b.on_wheel env c context w).1 :=
  quiet_step_trans (logged_quiet w _) (try_call_quiet env c context _)

theorem on_key_quiet (env : Env) (b : Key_binding) (context : Command_context)
    (pressed : Bool) (code : Keycode) (modifier_mask : Nat) (w w1 : World) (consumed : Bool)
    (h : b.on_key env context pressed code modifier_mask w = Except.ok (w1, consumed)) :
    w.quiet_step w1 := by
  have hl := logged_quiet w (Entry.on_key b.m_id)
  unfold Key_binding.on_key at h
  simp only [] at h
  split at h
  · split at h
    · cases h
    · cases h
      exact quiet_step_trans hl (try_call_quiet env _ context _)
  · cases h
    exact hl

/-- A consuming `try_call` that consulted `accept_mouse_command` leaves the
slot empty or with its own command. -/
theorem try_call_accepted (env : Env) (haccept : env.consumes_only_accepted) (c : Cmd)
    (context : Command_context) (w : World)
    (h : (Command.try_call env c context w).2 = true) :
    (Command.try_call env c context w).1.g_commands.m_active_mouse_command = none ∨
      (Command.try_call env c context w).1.g_commands.m_active_mouse_command = some c := by
  have hacc := haccept c context w h
  unfold Command_context.accept_mouse_command at hacc
  rw [accept_mouse_command_iff] at hacc
  rcases (try_call_quiet env c context w).2.1 with hs | hs
  · rw [hs]
    exact hacc
  · exact Or.inl hs

theorem on_button_accepted (env : Env) (haccept : env.consumes_only_accepted)
    (b : Mouse_binding) (c : Cmd) (context : Command_context) (button : Mouse_button)
    (count : Int) (w : World) (h : (b.on_button env c context button count w).2 = true) :
    (b.on_button env c context button count w).1.g_commands.m_active_mouse_command = none ∨
      (b.on_button env c context button count w).1.g_commands.m_active_mouse_command = some c ∨
      (b.on_button env c context button count w).1.command_state c ≠ State.Active := by
  cases hk : b.kind with
  | click m =>
    simp only [Mouse_binding.on_button, hk] at h ⊢
    split_ifs at h ⊢ with h1 h2
    · rcases try_call_accepted env haccept c context _ h with h3 | h3
      · exact Or.inl h3
      · exact Or.inr (Or.inl h3)
    · rcases try_call_accepted env haccept c context _ h with h3 | h3
      · exact Or.inl h3
      · exact Or.inr (Or.inl h3)
  | motion =>
    simp [Mouse_binding.on_button, hk] at h
  | drag m =>
    simp only [Mouse_binding.on_button, hk] at h ⊢
    split_ifs at h ⊢
    all_goals first
      | (simp at h; done)
      | (refine Or.inr (Or.inr ?_); rw [set_inactive_state]; simp)

theorem on_motion_accepted (env : Env) (haccept : env.consumes_only_accepted)
    (b : Mouse_binding) (c : Cmd) (context : Command_context) (w : World)
    (h : (b.on_motion env c context w).2 = true) :
    (b.on_motion env c context w).1.g_commands.m_active_mouse_command = none ∨
      (b.on_motion env c context w).1.g_commands.m_active_mouse_command = some c ∨
      (b.on_motion env c context w).1.command_state c ≠ State.Active := by
  cases hk : b.kind with
  | click m =>
    simp [Mouse_binding.on_motion, hk] at h
  | motion =>
    simp only [Mouse_binding.on_motion, hk] at h ⊢
    rcases try_call_accepted env haccept c context _ h with h3 | h3
    · exact Or.inl h3
    · exact Or.inr (Or.inl h3)
  | drag m =>
    simp only [Mouse_binding.on_motion, hk] at h ⊢
    split_ifs at h ⊢
    · rcases try_call_accepted env haccept c context _ h with h3 | h3
      · exact Or.inl h3
      · exact Or.inr (Or.inl h3)

/-! ## The dispatch loops -/

theorem dispatch_step_of_quiet {a b : World} (h : a.quiet_step b) : a.dispatch_step b :=
  ⟨h.1, h.2.2⟩

theorem dispatch_step_trans {a b c : World} (h1 : a.dispatch_step b) (h2 : b.dispatch_step c) :
    a.dispatch_step c := by
  obtain ⟨f1, l1, hl1⟩ := h1
  obtain ⟨f2, l2, hl2⟩ := h2
  exact ⟨f2.trans f1, l1 ++ l2, by rw [hl2, hl1, List.append_assoc]⟩

theorem update_active_mouse_command_step (w w1 : World) (c : Cmd)
    (h : w.update_active_mouse_command c = Except.ok w1) : w.dispatch_step w1 :=
  update_active_mouse_command_frame w w1 c h

theorem on_mouse_click_loop_step (env : Env) (context : Command_context)
    (button : Mouse_button) (count : Int) (l : List Mouse_binding) (w w1 : World)
    (h : on_mouse_click_loop env context button count l w = Except.ok w1) :
    w.dispatch_step w1 := by
  induction l generalizing w with
  | nil =>
    simp only [on_mouse_click_loop] at h
    cases h
    exact dispatch_step_of_quiet (quiet_step_refl _)
  | cons b rest ih =>
    cases hc : b.m_command with
    | none => simp [on_mouse_click_loop, hc] at h
    | some c =>
      simp only [on_mouse_click_loop, hc] at h
      have hq := dispatch_step_of_quiet (on_button_quiet env b c context button count w)
      split_ifs at h
      · exact dispatch_step_trans hq (update_active_mouse_command_step _ _ c h)
      · exact dispatch_step_trans hq (ih _ h)

theorem on_mouse_move_loop_step (env : Env) (context : Command_context)
    (l : List Mouse_binding) (w w1 : World)
    (h : on_mouse_move_loop env context l w = Except.ok w1) :
    w.dispatch_step w1 := by
  induction l generalizing w with
  | nil =>
    simp only [on_mouse_move_loop] at h
    cases h
    exact dispatch_step_of_quiet (quiet_step_refl _)
  | cons b rest ih =>
    cases hc : b.m_command with
    | none => simp [on_mouse_move_loop, hc] at h
    | some c =>
      simp only [on_mouse_move_loop, hc] at h
      have hq := dispatch_step_of_quiet (on_motion_quiet env b c context w)
      split_ifs at h
      · exact dispatch_step_trans hq (update_active_mouse_command_step _ _ c h)
      · exact dispatch_step_trans hq (ih _ h)

theorem on_mouse_wheel_loop_quiet (env : Env) (context : Command_context)
    (l : List Mouse_wheel_binding) (w w1 : World)
    (h : on_mouse_wheel_loop env context l w = Except.ok w1) :
    w.quiet_step w1 := by
  induction l generalizing w with
  | nil =>
    simp only [on_mouse_wheel_loop] at h
    cases h
    exact quiet_step_refl _
  | cons b rest ih =>
    cases hc : b.m_command with
    | none => simp [on_mouse_wheel_loop, hc] at h
    | some c =>
      simp only [on_mouse_wheel_loop, hc] at h
      exact quiet_step_trans (on_wheel_quiet env b c context w) (ih _ h)

theorem on_key_loop_quiet (env : Env) (context : Command_context) (pressed : Bool)
    (code : Keycode) (modifier_mask : Nat) (l : List Key_binding) (w w1 : World)
    (h : on_key_loop env context pressed code modifier_mask l w = Except.ok w1) :
    w.quiet_step w1 := by
  induction l generalizing w with
  | nil =>
    simp only [on_key_loop] at h
    cases h
    exact quiet_step_refl _
  | cons b rest ih =>
    simp only [on_key_loop] at h
    cases hb : b.on_key env context pressed code modifier_mask w with
    | error e => simp [hb] at h
    | ok r =>
      obtain ⟨w2, consumed⟩ := r
      simp only [hb] at h
      have hq := on_key_quiet env b context pressed code modifier_mask w w2 consumed hb
      split_ifs at h
      · cases h
        exact hq
      · exact quiet_step_trans hq (ih _ h)

theorem sort_mouse_bindings_cases (env : Env) (w : World) :
    w.sort_mouse_bindings env = Except.error Failure.verify_command_not_null ∨
    ∃ sorted, sorted.Perm w.g_commands.m_mouse_bindings ∧
      w.sort_mouse_bindings env = Except.ok { w with g_commands := { w.g_commands with
        m_mouse_bindings := sorted } } := by
  unfold World.sort_mouse_bindings
  split_ifs
  · exact Or.inr ⟨w.g_commands.m_mouse_bindings, List.Perm.refl _, rfl⟩
  · exact Or.inr ⟨_, env.std_sort_perm _ _, rfl⟩
  · exact Or.inl rfl

/-! ## No dispatch trips the slot assertion when commands consult the slot -/

theorem on_mouse_click_loop_verified (env : Env) (haccept : env.consumes_only_accepted)
    (context : Command_context) (button : Mouse_button) (count : Int)
    (l : List Mouse_binding) (w : World) :
    on_mouse_click_loop env context button count l w ≠
      Except.error Failure.verify_slot_empty := by
  induction l generalizing w with
  | nil => simp [on_mouse_click_loop]
  | cons b rest ih =>
    cases hc : b.m_command with
    | none => simp [on_mouse_click_loop, hc]
    | some c =>
      simp only [on_mouse_click_loop, hc]
      split_ifs with hcons
      · exact update_active_mouse_command_verified _ c
          (on_button_accepted env haccept b c context button count w hcons)
      · exact ih _

theorem on_mouse_move_loop_verified (env : Env) (haccept : env.consumes_only_accepted)
    (context : Command_context) (l : List Mouse_binding) (w : World) :
    on_mouse_move_loop env context l w ≠ Except.error Failure.verify_slot_empty := by
  induction l generalizing w with
  | nil => simp [on_mouse_move_loop]
  | cons b rest ih =>
    cases hc : b.m_command with
    | none => simp [on_mouse_move_loop, hc]
    | some c =>
      simp only [on_mouse_move_loop, hc]
      split_ifs with hcons
      · exact update_active_mouse_command_verified _ c
          (on_motion_accepted env haccept b c context w hcons)
      · exact ih _

theorem on_mouse_wheel_loop_verified (env : Env) (context : Command_context)
    (l : List Mouse_wheel_binding) (w : World) :
    on_mouse_wheel_loop env context l w ≠ Except.error Failure.verify_slot_empty := by
  induction l generalizing w with
  | nil => simp [on_mouse_wheel_loop]
  | cons b rest ih =>
    cases hc : b.m_command with
    | none => simp [on_mouse_wheel_loop, hc]
    | some c =>
      simp only [on_mouse_wheel_loop, hc]
      exact ih _

theorem on_key_loop_verified (env : Env) (context : Command_context) (pressed : Bool)
    (code : Keycode) (modifier_mask : Nat) (l : List Key_binding) (w : World) :
    on_key_loop env context pressed code modifier_mask l w ≠
      Except.error Failure.verify_slot_empty := by
  induction l generalizing w with
  | nil => simp [on_key_loop]
  | cons b rest ih =>
    simp only [on_key_loop]
    cases hb : b.on_key env context pressed code modifier_mask w with
    | error e =>
      simp only []
      unfold Key_binding.on_key at hb
      simp only [] at hb
      split_ifs at hb
      · split at hb
        · cases hb
          simp
        · cases hb
    | ok r =>
      obtain ⟨w2, consumed⟩ := r
      simp only []
      split_ifs
      · simp
      · exact ih _

theorem call_verified (env : Env) (haccept : env.consumes_only_accepted) (w : World)
    (call : Call) : w.call env call ≠ Except.error Failure.verify_slot_empty := by
  cases call with
  | on_key code modifier_mask pressed =>
    exact on_key_loop_verified env _ pressed code modifier_mask _ w
  | on_mouse_move x y =>
    exact on_mouse_move_loop_verified env haccept _ _ _
  | on_mouse_click button count =>
    simp only [World.call, World.on_mouse_click]
    rcases sort_mouse_bindings_cases env w with hs | ⟨sorted, -, hs⟩
    · rw [hs]
      simp
    · rw [hs]
      exact on_mouse_click_loop_verified env haccept _ button count _ _
  | on_mouse_wheel x y =>
    simp only [World.call, World.on_mouse_wheel]
    rcases sort_mouse_bindings_cases env w with hs | ⟨sorted, -, hs⟩
    · rw [hs]
      simp
    · rw [hs]
      exact on_mouse_wheel_loop_verified env _ _ _
  | _ => simp [World.call]

theorem run_verified (env : Env) (haccept : env.consumes_only_accepted)
    (calls : List Call) (w : World) :
    World.run env calls w ≠ Except.error Failure.verify_slot_empty := by
  induction calls generalizing w with
  | nil => simp [World.run]
  | cons call rest ih =>
    simp only [World.run]
    cases hc : w.call env call with
    | error e =>
      simp only []
      intro he
      cases he
      exact call_verified env haccept w call hc
    | ok w1 =>
      simp only []
      exact ih w1

/-! ## C1: the gating predicate -/

/-- C1: `accept_mouse_command(c)` is true exactly when the active mouse command
slot is empty or already holds `c`, and `Command_context::accept_mouse_command`
returns the same value. -/
theorem C1_accept_mouse_command (g : Commands) (context : Command_context)
    (c : Option Cmd) :
    (g.accept_mouse_command c = true ↔
      (g.m_active_mouse_command = none ∨ g.m_active_mouse_command = c)) ∧
    context.accept_mouse_command g c = g.accept_mouse_command c :=
  ⟨accept_mouse_command_iff g c, rfl⟩

/-! ## C4: the slot assertion -/

theorem toggle_env_consumes_only_accepted : toggle_env.consumes_only_accepted := by
  intro c context w h
  by_cases hacc : context.accept_mouse_command w.g_commands (some c) = true
  · exact hacc
  · simp [toggle_env, hacc] at h

/-- C4: when every command's `try_call` consumes only while
`accept_mouse_command` of that command holds (the `on_inactive` hooks change
nothing of the command system in this model), no sequence of calls, from any
world, fails the assertion of `update_active_mouse_command` that the slot is
empty before it is claimed. -/
theorem C4_slot_assertion_never_fails (env : Env) (haccept : env.consumes_only_accepted)
    (calls : List Call) (w : World) :
    World.run env calls w ≠ Except.error Failure.verify_slot_empty :=
  run_verified env haccept calls w

/-- Witness of C4: the toggle commands consult `accept_mouse_command`. -/
theorem C4_slot_assertion_never_fails_witness :
    toggle_env.consumes_only_accepted ∧
      World.run toggle_env (toggle_calls ++ [Call.on_mouse_move 1 1, Call.on_mouse_click 0 0])
        start_world ≠ Except.error Failure.verify_slot_empty :=
  ⟨toggle_env_consumes_only_accepted,
    C4_slot_assertion_never_fails toggle_env toggle_env_consumes_only_accepted _ _⟩

/-! ## C7: removal is idempotent -/

/-- C7: `remove_command_binding` applied twice gives the world of applying it
once; for an id that names no binding in any table it leaves the world as it
is; the call returns for every world and id (it cannot abort). -/
theorem C7_remove_command_binding_idempotent (env : Env) (w : World) (binding_id : Nat) :
    (w.remove_command_binding binding_id).remove_command_binding binding_id =
        w.remove_command_binding binding_id ∧
      ((∀ b ∈ w.g_commands.m_key_bindings, b.m_id ≠ binding_id) →
        (∀ b ∈ w.g_commands.m_mouse_bindings, b.m_id ≠ binding_id) →
        (∀ b ∈ w.g_commands.m_mouse_wheel_bindings, b.m_id ≠ binding_id) →
        w.remove_command_binding binding_id = w) ∧
      World.run env
          [Call.remove_command_binding binding_id, Call.remove_command_binding binding_id] w =
        Except.ok (w.remove_command_binding binding_id) := by
  have hidem : (w.remove_command_binding binding_id).remove_command_binding binding_id =
      w.remove_command_binding binding_id := by
    simp [World.remove_command_binding, List.filter_filter]
  refine ⟨hidem, ?_, ?_⟩
  · intro hk hm hw
    have h1 : w.g_commands.m_key_bindings.filter (fun b => !(b.m_id == binding_id)) =
        w.g_commands.m_key_bindings :=
      List.filter_eq_self.mpr (fun b hb => by simpa using hk b hb)
    have h2 : w.g_commands.m_mouse_bindings.filter (fun b => !(b.m_id == binding_id)) =
        w.g_commands.m_mouse_bindings :=
      List.filter_eq_self.mpr (fun b hb => by simpa using hm b hb)
    have h3 : w.g_commands.m_mouse_wheel_bindings.filter (fun b => !(b.m_id == binding_id)) =
        w.g_commands.m_mouse_wheel_bindings :=
      List.filter_eq_self.mpr (fun b hb => by simpa using hw b hb)
    unfold World.remove_command_binding
    rw [h1, h2, h3]
  · simp only [World.run, World.call]
    rw [hidem]

/-- Witness of C7: in the map editor no binding has id 9, and removing id 9
changes nothing. -/
theorem C7_remove_command_binding_idempotent_witness :
    (World.run_or map_editor_env map_editor_setup start_world).remove_command_binding 9 =
      World.run_or map_editor_env map_editor_setup start_world :=
  (C7_remove_command_binding_idempotent map_editor_env
    (World.run_or map_editor_env map_editor_setup start_world) 9).2.1
    (by decide) (by decide) (by decide)

/-! ## C9: the wheel and the slot -/

theorem call_ops_slot_kept (c : Cmd) (ops : List Op) (w : World)
    (h : Op.set_inactive ∉ ops) :
    (Command.call_ops c ops w).g_commands.m_active_mouse_command =
      w.g_commands.m_active_mouse_command := by
  induction ops generalizing w with
  | nil => rfl
  | cons op rest ih =>
    show (Command.call_ops c rest (Command.call_op c w op)).g_commands.m_active_mouse_command = _
    rw [ih _ (fun hmem => h (List.mem_cons_of_mem _ hmem))]
    cases op with
    | set_ready => rfl
    | set_active => rfl
    | set_inactive => exact absurd (List.mem_cons_self _ _) h

theorem on_mouse_wheel_loop_slot_kept (env : Env) (hkeep : env.try_call_keeps_active)
    (context : Command_context) (l : List Mouse_wheel_binding) (w w1 : World)
    (h : on_mouse_wheel_loop env context l w = Except.ok w1) :
    w1.g_commands.m_active_mouse_command = w.g_commands.m_active_mouse_command := by
  induction l generalizing w with
  | nil =>
    simp only [on_mouse_wheel_loop] at h
    cases h
    rfl
  | cons b rest ih =>
    cases hc : b.m_command with
    | none => simp [on_mouse_wheel_loop, hc] at h
    | some c =>
      simp only [on_mouse_wheel_loop, hc] at h
      rw [ih _ h]
      exact call_ops_slot_kept c _ _ (hkeep c context _)

theorem map_editor_env_try_call_keeps_active : map_editor_env.try_call_keeps_active := by
  intro c context w
  simp only [map_editor_env, Map_primary_brush_command.try_call, Map_hover_command.try_call]
  split_ifs <;> simp

/-- Counterexample to C9: command 7 of the toggle environment owns the slot
after a click; the wheel event that follows runs its `try_call`, which calls
`set_inactive`, and the slot is empty after `on_mouse_wheel`. -/
theorem C9_wheel_changes_slot :
    (World.run_or toggle_env toggle_calls start_world).g_commands.m_active_mouse_command =
        some 7 ∧
      ∃ w1, (World.run_or toggle_env toggle_calls start_world).on_mouse_wheel toggle_env 0 1 =
          Except.ok w1 ∧
        w1.g_commands.m_active_mouse_command = none :=
  ⟨rfl, _, rfl, rfl⟩

/-! ## C6: key events -/

theorem call_ops_log (c : Cmd) (ops : List Op) (w : World) :
    (Command.call_ops c ops w).log = w.log ++ ops_entries c ops := by
  induction ops generalizing w with
  | nil => simp [Command.call_ops, ops_entries]
  | cons op rest ih =>
    show (Command.call_ops c rest (Command.call_op c w op)).log = _
    rw [ih]
    cases op <;>
      simp [Command.call_op, Command.set_ready, Command.set_active, Command.set_inactive,
        World.set_state, World.logged, ops_entries, Op.entries]

theorem try_call_log (env : Env) (c : Cmd) (context : Command_context) (w : World) :
    (Command.try_call env c context w).1.log =
      w.log ++ Entry.try_call c :: ops_entries c (env.try_call c context w).1 := by
  unfold Command.try_call
  simp [call_ops_log, World.logged]

theorem ops_entries_no_on_key (c : Cmd) (ops : List Op) :
    (ops_entries c ops).filter Entry.is_on_key = [] := by
  induction ops with
  | nil => rfl
  | cons op rest ih =>
    cases op <;> simp [ops_entries, Op.entries, Entry.is_on_key, ih]

theorem ops_entries_no_try_call (c : Cmd) (ops : List Op) :
    (ops_entries c ops).filter Entry.is_try_call = [] := by
  induction ops with
  | nil => rfl
  | cons op rest ih =>
    cases op <;> simp [ops_entries, Op.entries, Entry.is_try_call, ih]

theorem logged_all_nil (w : World) : w.logged_all [] = w := by
  simp [World.logged_all]

theorem logged_all_logged (w : World) (es : List Entry) (e : Entry) :
    (w.logged_all es).logged e = w.logged_all (es ++ [e]) := by
  simp [World.logged_all, World.logged]

theorem logged_logged_all (w : World) (es : List Entry) (e : Entry) :
    (w.logged e).logged_all es = w.logged_all (e :: es) := by
  simp [World.logged_all, World.logged]

/-- Key bindings that do not match are evaluated and change nothing but the
trace. -/
theorem on_key_loop_skip (env : Env) (context : Command_context) (pressed : Bool)
    (code : Keycode) (modifier_mask : Nat) (pre rest : List Key_binding) (w : World)
    (hpre : ∀ k ∈ pre, k.is_match pressed code modifier_mask = false) :
    on_key_loop env context pressed code modifier_mask (pre ++ rest) w =
      on_key_loop env context pressed code modifier_mask rest
        (w.logged_all (pre.map (fun k => Entry.on_key k.m_id))) := by
  induction pre generalizing w with
  | nil => simp [logged_all_nil]
  | cons k more ih =>
    have hk : k.is_match pressed code modifier_mask = false := hpre k (List.mem_cons_self _ _)
    have hmore : ∀ j ∈ more, j.is_match pressed code modifier_mask = false :=
      fun j hj => hpre j (List.mem_cons_of_mem _ hj)
    have hstep : on_key_loop env context pressed code modifier_mask (k :: (more ++ rest)) w =
        on_key_loop env context pressed code modifier_mask (more ++ rest)
          (w.logged (Entry.on_key k.m_id)) := by
      simp [on_key_loop, Key_binding.on_key, hk]
    rw [List.cons_append, hstep, ih _ hmore, logged_logged_all, List.map_cons]

/-- Counterexample to C6: two bindings match key 65; the first belongs to the
hover command of the map editor, whose `try_call` returns false, so the second
binding is evaluated and its command's `try_call` is invoked as well. -/
theorem C6_second_match_evaluated :
    ∃ w1, World.run map_editor_env two_key_calls start_world = Except.ok w1 ∧
      w1.log = [Entry.on_key 1, Entry.try_call hover_command, Entry.on_key 2,
        Entry.try_call 5] :=
  ⟨_, rfl, rfl⟩

/-- C6 (amended): when the `try_call` of the earliest-registered matching key
binding's command returns true, that `try_call` is the only one invoked and the
key bindings evaluated are exactly those registered up to and including that
binding: none registered after it is evaluated. -/
theorem C6_on_key_first_consumer (env : Env) (w : World) (code : Keycode)
    (modifier_mask : Nat) (pressed : Bool) (pre post : List Key_binding) (b : Key_binding)
    (c : Cmd)
    (htable : w.g_commands.m_key_bindings = pre ++ b :: post)
    (hpre : ∀ k ∈ pre, k.is_match pressed code modifier_mask = false)
    (hmatch : b.is_match pressed code modifier_mask = true)
    (hcommand : b.m_command = some c)
    (hconsumed : (env.try_call c key_context
      (w.logged_all (pre.map (fun k => Entry.on_key k.m_id) ++ [Entry.on_key b.m_id]))).2
        = true) :
    ∃ w1 added, w.on_key env code modifier_mask pressed = Except.ok w1 ∧
      w1.log = w.log ++ added ∧
      added.filter Entry.is_on_key = (pre ++ [b]).map (fun k => Entry.on_key k.m_id) ∧
      added.filter Entry.is_try_call = [Entry.try_call c] := by
  unfold World.on_key
  rw [htable, on_key_loop_skip env key_context pressed code modifier_mask pre (b :: post) w hpre]
  simp only [on_key_loop, Key_binding.on_key, hmatch, if_true, hcommand, logged_all_logged]
  have hsnd : (Command.try_call env c key_context
      (w.logged_all (pre.map (fun k => Entry.on_key k.m_id) ++ [Entry.on_key b.m_id]))).2
        = true := hconsumed
  simp only [hsnd, if_true]
  refine ⟨_, pre.map (fun k => Entry.on_key k.m_id) ++ [Entry.on_key b.m_id] ++
    Entry.try_call c :: ops_entries c (env.try_call c key_context
      (w.logged_all (pre.map (fun k => Entry.on_key k.m_id) ++ [Entry.on_key b.m_id]))).1,
    rfl, ?_, ?_, ?_⟩
  · rw [try_call_log]
    simp [World.logged_all, List.append_assoc]
  · have h1 : (pre.map (fun k => Entry.on_key k.m_id)).filter Entry.is_on_key =
        pre.map (fun k => Entry.on_key k.m_id) := by
      rw [List.filter_eq_self]
      intro e he
      obtain ⟨k, -, rfl⟩ := List.mem_map.mp he
      rfl
    simp [List.filter_append, h1, ops_entries_no_on_key, Entry.is_on_key, List.filter_cons]
  · have h1 : (pre.map (fun k => Entry.on_key k.m_id)).filter Entry.is_try_call = [] := by
      rw [List.filter_eq_nil_iff]
      intro e he
      obtain ⟨k, -, rfl⟩ := List.mem_map.mp he
      simp [Entry.is_try_call]
    simp [List.filter_append, h1, ops_entries_no_try_call, Entry.is_try_call, List.filter_cons]

/-- Witness of C6 (amended): with command 7 bound to keys 66 and 65 and command
8 to key 65, a press of key 65 runs the `try_call` of command 7 alone and the
third binding is not evaluated. -/
theorem C6_on_key_first_consumer_witness :
    ∃ w1 added, (World.run_or toggle_env toggle_key_calls start_world).on_key toggle_env 65 0
        true = Except.ok w1 ∧
      w1.log = (World.run_or toggle_env toggle_key_calls start_world).log ++ added ∧
      added.filter Entry.is_on_key = [Entry.on_key 1, Entry.on_key 2] ∧
      added.filter Entry.is_try_call = [Entry.try_call 7] :=
  C6_on_key_first_consumer toggle_env (World.run_or toggle_env toggle_key_calls start_world)
    65 0 true [⟨some 7, 1, 66, true, none⟩] [⟨some 8, 3, 65, true, none⟩]
    ⟨some 7, 2, 65, true, none⟩ 7 rfl (by decide) rfl rfl rfl

/-! ## C5: the Ready sweep -/

theorem callback_step_refl (w : World) : w.callback_step w :=
  ⟨[], by simp, by simp⟩

theorem callback_step_trans {a b c : World} (h1 : a.callback_step b)
    (h2 : b.callback_step c) : a.callback_step c := by
  obtain ⟨t1, hl1, ht1⟩ := h1
  obtain ⟨t2, hl2, ht2⟩ := h2
  refine ⟨t1 ++ t2, by rw [hl2, hl1, List.append_assoc], ?_⟩
  intro e he
  rcases List.mem_append.mp he with h | h
  · exact ht1 e h
  · exact ht2 e h

theorem callback_step_of_log (w w1 : World) (tail : List Entry)
    (hlog : w1.log = w.log ++ tail) (htail : ∀ e ∈ tail, Entry.is_dispatcher e = false) :
    w.callback_step w1 :=
  ⟨tail, hlog, htail⟩

theorem set_ready_callback (c : Cmd) (w : World) : w.callback_step (Command.set_ready c w) :=
  ⟨[Entry.set_ready c], rfl, by simp [Entry.is_dispatcher]⟩

theorem set_active_callback (c : Cmd) (w : World) : w.callback_step (Command.set_active c w) :=
  ⟨[Entry.set_active c], rfl, by simp [Entry.is_dispatcher]⟩

theorem set_inactive_callback (c : Cmd) (w : World) :
    w.callback_step (Command.set_inactive c w) :=
  ⟨[Entry.set_inactive c, Entry.on_inactive c],
    by simp [Command.set_inactive, World.set_state, World.logged],
    by simp [Entry.is_dispatcher]⟩

theorem call_ops_callback (c : Cmd) (ops : List Op) (w : World) :
    w.callback_step (Command.call_ops c ops w) := by
  induction ops generalizing w with
  | nil => exact callback_step_refl w
  | cons op rest ih =>
    refine callback_step_trans ?_ (ih (Command.call_op c w op))
    cases op
    · exact set_ready_callback c w
    · exact set_active_callback c w
    · exact set_inactive_callback c w

theorem try_call_callback (env : Env) (c : Cmd) (context : Command_context) (w : World) :
    w.callback_step (Command.try_call env c context w).1 :=
  callback_step_trans ⟨[Entry.try_call c], rfl, by simp [Entry.is_dispatcher]⟩
    (call_ops_callback c _ _)

theorem try_ready_callback (env : Env) (c : Cmd) (context : Command_context) (w : World) :
    w.callback_step (Command.try_ready env c context w) :=
  callback_step_trans ⟨[Entry.try_ready c], rfl, by simp [Entry.is_dispatcher]⟩
    (call_ops_callback c _ _)

theorem sweep_fold_callback (cs : List Cmd) (acc : World) :
    acc.callback_step (cs.foldl
      (fun acc command =>
        if acc.command_state command = State.Ready then Command.set_inactive command acc else acc)
      acc) := by
  induction cs generalizing acc with
  | nil => exact callback_step_refl acc
  | cons c rest ih =>
    simp only [List.foldl_cons]
    refine callback_step_trans ?_ (ih _)
    split
    · exact set_inactive_callback c acc
    · exact callback_step_refl acc

/-- The trace of `on_button`: the evaluation of the binding, then entries of
its command only. -/
theorem on_button_log (env : Env) (b : Mouse_binding) (c : Cmd) (context : Command_context)
    (button : Mouse_button) (count : Int) (w : World) :
    ∃ tail, (b.on_button env c context button count w).1.log =
        w.log ++ Entry.on_button b.m_id :: tail ∧
      ∀ e ∈ tail, Entry.is_dispatcher e = false := by
  have key : (w.logged (Entry.on_button b.m_id)).callback_step
      (b.on_button env c context button count w).1 := by
    unfold Mouse_binding.on_button
    simp only []
    split
    · split
      · split
        · exact callback_step_trans (set_ready_callback c _) (try_call_callback env c context _)
        · exact try_call_callback env c context _
      · exact callback_step_refl _
    · exact callback_step_refl _
    · split
      · split
        · split
          · exact try_ready_callback env c context _
          · exact callback_step_refl _
        · split
          · exact set_inactive_callback c _
          · exact callback_step_refl _
      · exact callback_step_refl _
  obtain ⟨tail, hlog, htail⟩ := key
  refine ⟨tail, ?_, htail⟩
  rw [hlog]
  simp [World.logged]

/-- The trace of `update_active_mouse_command`: the call, the sweep, then the
`set_inactive` calls of the sweep. -/
theorem update_active_mouse_command_log (w w1 : World) (c : Cmd)
    (h : w.update_active_mouse_command c = Except.ok w1) :
    ∃ swept, w1.log = w.log ++ Entry.update_active_mouse_command c ::
        Entry.inactivate_ready_commands :: swept ∧
      ∀ e ∈ swept, Entry.is_dispatcher e = false := by
  have key : ∃ swept, ((w.logged (Entry.update_active_mouse_command c)).inactivate_ready_commands).log
      = w.log ++ Entry.update_active_mouse_command c :: Entry.inactivate_ready_commands :: swept ∧
      ∀ e ∈ swept, Entry.is_dispatcher e = false := by
    obtain ⟨tail, hlog, htail⟩ := sweep_fold_callback
      (w.logged (Entry.update_active_mouse_command c)).g_commands.m_commands
      ((w.logged (Entry.update_active_mouse_command c)).logged Entry.inactivate_ready_commands)
    refine ⟨tail, ?_, htail⟩
    unfold World.inactivate_ready_commands
    rw [hlog]
    simp [World.logged]
  rcases update_active_mouse_command_cases w c with h1 | h1 | h1 | h1
  · rw [h1] at h
    cases h
    exact key
  · rw [h1] at h
    cases h
    exact key
  · rw [h1] at h
    cases h
    exact key
  · rw [h1.1] at h
    cases h

theorem on_button_state_other (env : Env) (b : Mouse_binding) (c : Cmd)
    (context : Command_context) (button : Mouse_button) (count : Int) (w : World) (x : Cmd)
    (hx : x ≠ c) :
    (b.on_button env c context button count w).1.command_state x = w.command_state x := by
  unfold Mouse_binding.on_button
  simp only []
  split
  · split
    · split
      · rw [try_call_state_other env c context _ x hx, set_ready_state]
        simp [hx, World.logged]
      · rw [try_call_state_other env c context _ x hx]
        rfl
    · rfl
  · rfl
  · split
    · split
      · split
        · rw [try_ready_state_other env c context _ x hx]
          rfl
        · rfl
      · split
        · rw [set_inactive_state]
          simp [hx, World.logged]
        · rfl
    · rfl

/-- A binding that is neither a click nor a drag binding on the button leaves
every command as it is and does not consume. -/
theorem on_button_unrelated (env : Env) (b : Mouse_binding) (c : Cmd)
    (context : Command_context) (button : Mouse_button) (count : Int) (w : World)
    (h1 : b.kind ≠ Mouse_kind.click button) (h2 : b.kind ≠ Mouse_kind.drag button) :
    b.on_button env c context button count w = (w.logged (Entry.on_button b.m_id), false) := by
  cases hk : b.kind with
  | click m =>
    have hm : ¬ m = button := fun h => h1 (by rw [hk, h])
    simp [Mouse_binding.on_button, hk, hm]
  | motion => simp [Mouse_binding.on_button, hk]
  | drag m =>
    have hm : ¬ m = button := fun h => h2 (by rw [hk, h])
    simp [Mouse_binding.on_button, hk, hm]

theorem frame_m_commands {w w1 : World} (h : w1.frame = w.frame) :
    w1.g_commands.m_commands = w.g_commands.m_commands :=
  congrArg (fun f => f.2.2.2.2.1) h

theorem frame_m_key_bindings {w w1 : World} (h : w1.frame = w.frame) :
    w1.g_commands.m_key_bindings = w.g_commands.m_key_bindings :=
  congrArg (fun f => f.2.2.2.2.2.1) h

theorem frame_m_mouse_bindings {w w1 : World} (h : w1.frame = w.frame) :
    w1.g_commands.m_mouse_bindings = w.g_commands.m_mouse_bindings :=
  congrArg (fun f => f.2.2.2.2.2.2.1) h

theorem frame_m_mouse_wheel_bindings {w w1 : World} (h : w1.frame = w.frame) :
    w1.g_commands.m_mouse_wheel_bindings = w.g_commands.m_mouse_wheel_bindings :=
  congrArg (fun f => f.2.2.2.2.2.2.2.1) h

theorem frame_next_id {w w1 : World} (h : w1.frame = w.frame) : w1.next_id = w.next_id :=
  congrArg (fun f => f.2.2.2.2.2.2.2.2) h

/-- The click loop and a registered Ready command none of whose bindings is on
the button: without a consuming binding the command stays Ready and no sweep
runs; with one, the sweep runs after the bindings up to the consuming one were
evaluated, and the command ends Inactive. -/
theorem on_mouse_click_loop_sweep (env : Env) (context : Command_context)
    (button : Mouse_button) (count : Int) (d : Cmd) (l : List Mouse_binding) (v w1 : World)
    (hunrelated : ∀ b ∈ l, b.m_command = some d →
      b.kind ≠ Mouse_kind.click button ∧ b.kind ≠ Mouse_kind.drag button)
    (hreg : d ∈ v.g_commands.m_commands) (hready : v.command_state d = State.Ready)
    (h : on_mouse_click_loop env context button count l v = Except.ok w1) :
    ∃ added, w1.log = v.log ++ added ∧
      ((w1.command_state d = State.Ready ∧ ∀ e ∈ added, Entry.is_dispatcher e = false) ∨
        (w1.command_state d = State.Inactive ∧
          ∃ evaluated c swept,
            added = evaluated ++ Entry.update_active_mouse_command c ::
              Entry.inactivate_ready_commands :: swept ∧
            (∃ id, Entry.on_button id ∈ evaluated) ∧
            (∀ e ∈ evaluated, Entry.is_dispatcher e = false) ∧
            (∀ e ∈ swept, Entry.is_dispatcher e = false))) := by
  induction l generalizing v with
  | nil =>
    simp only [on_mouse_click_loop] at h
    cases h
    exact ⟨[], by simp, Or.inl ⟨hready, by simp⟩⟩
  | cons b rest ih =>
    cases hc : b.m_command with
    | none => simp [on_mouse_click_loop, hc] at h
    | some c =>
      simp only [on_mouse_click_loop, hc] at h
      obtain ⟨tail, hlog, htail⟩ := on_button_log env b c context button count v
      have hq := on_button_quiet env b c context button count v
      have hreg1 : d ∈ (b.on_button env c context button count v).1.g_commands.m_commands := by
        rw [frame_m_commands hq.1]
        exact hreg
      have hrest : ∀ k ∈ rest, k.m_command = some d →
          k.kind ≠ Mouse_kind.click button ∧ k.kind ≠ Mouse_kind.drag button :=
        fun k hk => hunrelated k (List.mem_cons_of_mem _ hk)
      have hfacts : (b.on_button env c context button count v).1.command_state d = State.Ready ∧
          ((b.on_button env c context button count v).2 = true → c ≠ d) := by
        by_cases hcd : c = d
        · subst hcd
          have hun := hunrelated b (List.mem_cons_self _ _) hc
          rw [on_button_unrelated env b c context button count v hun.1 hun.2]
          exact ⟨hready, by simp⟩
        · refine ⟨?_, fun _ => hcd⟩
          rw [on_button_state_other env b c context button count v d (fun hdc => hcd hdc.symm)]
          exact hready
      obtain ⟨hready1, -⟩ := hfacts
      have hhead : ∀ e ∈ Entry.on_button b.m_id :: tail, Entry.is_dispatcher e = false := by
        intro e he
        rcases List.mem_cons.mp he with he | he
        · rw [he]
          rfl
        · exact htail e he
      split_ifs at h with hcons
      · obtain ⟨swept, hlog2, hswept⟩ := update_active_mouse_command_log _ w1 c h
        have hstate := update_active_mouse_command_state _ w1 c h d
        rw [if_pos ⟨hreg1, hready1⟩] at hstate
        refine ⟨(Entry.on_button b.m_id :: tail) ++ Entry.update_active_mouse_command c ::
          Entry.inactivate_ready_commands :: swept, ?_, Or.inr ⟨hstate, _, c, swept, rfl,
            ⟨b.m_id, List.mem_cons_self _ _⟩, hhead, hswept⟩⟩
        rw [hlog2, hlog]
        simp
      · obtain ⟨added, hlog2, hcase⟩ := ih _ hrest hreg1 hready1 h
        refine ⟨(Entry.on_button b.m_id :: tail) ++ added, ?_, ?_⟩
        · rw [hlog2, hlog]
          simp
        · rcases hcase with ⟨hst, hnone⟩ | ⟨hst, evaluated, c2, swept, hadded, -, hev, hsw⟩
          · refine Or.inl ⟨hst, ?_⟩
            intro e he
            rcases List.mem_append.mp he with he | he
            · exact hhead e he
            · exact hnone e he
          · refine Or.inr ⟨hst, (Entry.on_button b.m_id :: tail) ++ evaluated, c2, swept, ?_,
              ⟨b.m_id, by simp⟩, ?_, hsw⟩
            · rw [hadded]
              simp
            · intro e he
              rcases List.mem_append.mp he with he | he
              · exact hhead e he
              · exact hev e he

/-- Counterexample to C5: in the map editor the press of the left button arms
the drag of the registered brush command (Ready); a click of button 1, which no
binding consumes, evaluates both bindings, runs no sweep, and leaves the brush
command Ready. -/
theorem C5_ready_command_survives_click :
    (World.run_or map_editor_env armed_calls start_world).command_state brush_command =
        State.Ready ∧
      brush_command ∈ (World.run_or map_editor_env armed_calls start_world).g_commands.m_commands ∧
      ∃ w1, (World.run_or map_editor_env armed_calls start_world).on_mouse_click
          map_editor_env 1 1 = Except.ok w1 ∧
        w1.command_state brush_command = State.Ready ∧
        w1.log = (World.run_or map_editor_env armed_calls start_world).log ++
          [Entry.on_button 2, Entry.on_button 1] :=
  ⟨rfl, by decide, _, rfl, rfl, rfl⟩

/-- C5 (amended): for a registered command that is Ready and has no click or
drag binding on button C, an `on_mouse_click` for C that returns either
evaluates bindings without consuming, runs no sweep and leaves the command
Ready, or has a consuming binding, after whose evaluation
`update_active_mouse_command` runs the sweep that demotes the command to
Inactive: the sweep is never at the start of the pass. -/
theorem C5_ready_sweep_after_consumption (env : Env) (w w1 : World) (d : Cmd)
    (button : Mouse_button) (count : Int)
    (hreg : d ∈ w.g_commands.m_commands) (hready : w.command_state d = State.Ready)
    (hunrelated : ∀ b ∈ w.g_commands.m_mouse_bindings, b.m_command = some d →
      b.kind ≠ Mouse_kind.click button ∧ b.kind ≠ Mouse_kind.drag button)
    (h : w.on_mouse_click env button count = Except.ok w1) :
    ∃ added, w1.log = w.log ++ added ∧
      ((w1.command_state d = State.Ready ∧ ∀ e ∈ added, Entry.is_dispatcher e = false) ∨
        (w1.command_state d = State.Inactive ∧
          ∃ evaluated c swept,
            added = evaluated ++ Entry.update_active_mouse_command c ::
              Entry.inactivate_ready_commands :: swept ∧
            (∃ id, Entry.on_button id ∈ evaluated) ∧
            (∀ e ∈ evaluated, Entry.is_dispatcher e = false) ∧
            (∀ e ∈ swept, Entry.is_dispatcher e = false))) := by
  unfold World.on_mouse_click at h
  rcases sort_mouse_bindings_cases env w with hs | ⟨sorted, hperm, hs⟩
  · rw [hs] at h
    cases h
  · rw [hs] at h
    simp only [] at h
    exact on_mouse_click_loop_sweep env _ button count d sorted
      { w with g_commands := { w.g_commands with m_mouse_bindings := sorted } } w1
      (fun b hb => hunrelated b (hperm.mem_iff.mp hb)) hreg hready h

/-- Witness of C5 (amended): the armed brush command of the map editor and a
click of button 1. -/
theorem C5_ready_sweep_after_consumption_witness :
    ∃ added, (World.run_or map_editor_env (armed_calls ++ [Call.on_mouse_click 1 1])
        start_world).log =
        (World.run_or map_editor_env armed_calls start_world).log ++ added ∧
      (((World.run_or map_editor_env (armed_calls ++ [Call.on_mouse_click 1 1])
          start_world).command_state brush_command = State.Ready ∧
          ∀ e ∈ added, Entry.is_dispatcher e = false) ∨
        ((World.run_or map_editor_env (armed_calls ++ [Call.on_mouse_click 1 1])
          start_world).command_state brush_command = State.Inactive ∧
          ∃ evaluated c swept,
            added = evaluated ++ Entry.update_active_mouse_command c ::
              Entry.inactivate_ready_commands :: swept ∧
            (∃ id, Entry.on_button id ∈ evaluated) ∧
            (∀ e ∈ evaluated, Entry.is_dispatcher e = false) ∧
            (∀ e ∈ swept, Entry.is_dispatcher e = false))) :=
  C5_ready_sweep_after_consumption map_editor_env
    (World.run_or map_editor_env armed_calls start_world)
    (World.run_or map_editor_env (armed_calls ++ [Call.on_mouse_click 1 1]) start_world)
    brush_command 1 1 (by decide) rfl (by decide) rfl

/-! ## C8: removal takes out exactly one binding -/

theorem ids_fresh_of_perm (w w1 : World)
    (hk : w1.g_commands.m_key_bindings = w.g_commands.m_key_bindings)
    (hm : w1.g_commands.m_mouse_bindings.Perm w.g_commands.m_mouse_bindings)
    (hw : w1.g_commands.m_mouse_wheel_bindings = w.g_commands.m_mouse_wheel_bindings)
    (hn : w1.next_id = w.next_id) (h : w.ids_fresh) : w1.ids_fresh := by
  have hperm : w1.binding_ids.Perm w.binding_ids := by
    unfold World.binding_ids
    rw [hk, hw]
    exact List.Perm.append_left _ (List.Perm.append_right _ (hm.map _))
  refine ⟨hperm.nodup_iff.mpr h.1, fun i hi => ?_⟩
  rw [hn]
  exact h.2 i (hperm.mem_iff.mp hi)

theorem ids_fresh_of_frame (w w1 : World) (hf : w1.frame = w.frame) (h : w.ids_fresh) :
    w1.ids_fresh :=
  ids_fresh_of_perm w w1 (frame_m_key_bindings hf)
    (by rw [frame_m_mouse_bindings hf]) (frame_m_mouse_wheel_bindings hf) (frame_next_id hf) h

theorem ids_fresh_of_issued (w w1 : World)
    (hperm : w1.binding_ids.Perm (w.next_id :: w.binding_ids))
    (hn : w1.next_id = w.next_id + 1) (h : w.ids_fresh) : w1.ids_fresh := by
  refine ⟨hperm.nodup_iff.mpr (List.nodup_cons.mpr ⟨?_, h.1⟩), fun i hi => ?_⟩
  · intro hmem
    exact Nat.lt_irrefl _ (h.2 _ hmem)
  · rw [hn]
    rcases List.mem_cons.mp (hperm.mem_iff.mp hi) with hi | hi
    · rw [hi]
      exact Nat.lt_succ_self _
    · exact Nat.lt_succ_of_lt (h.2 i hi)

theorem push_mouse_binding_ids_fresh (w : World) (command : Option Cmd) (kind : Mouse_kind)
    (h : w.ids_fresh) : (w.push_mouse_binding command kind).1.ids_fresh := by
  refine ids_fresh_of_issued w _ ?_ rfl h
  have hlist : (w.push_mouse_binding command kind).1.binding_ids =
      (w.g_commands.m_key_bindings.map (fun b => b.m_id) ++
        w.g_commands.m_mouse_bindings.map (fun b => b.m_id)) ++
        w.next_id :: w.g_commands.m_mouse_wheel_bindings.map (fun b => b.m_id) := by
    simp [World.push_mouse_binding, World.binding_ids]
  rw [hlist]
  refine List.perm_middle.trans (List.Perm.of_eq ?_)
  simp [World.binding_ids]

theorem remove_command_binding_ids (w : World) (binding_id : Nat) :
    (w.remove_command_binding binding_id).binding_ids =
      w.binding_ids.filter (fun i => !(i == binding_id)) := by
  simp only [World.remove_command_binding, World.binding_ids, List.filter_append,
    List.filter_map]
  rfl

theorem call_ids_fresh (env : Env) (w w1 : World) (call : Call)
    (hcall : w.call env call = Except.ok w1) (h : w.ids_fresh) : w1.ids_fresh := by
  cases call with
  | register_command command =>
    simp only [World.call, Except.ok.injEq] at hcall
    subst hcall
    exact ids_fresh_of_perm w _ rfl (List.Perm.refl _) rfl rfl h
  | bind_command_to_key command code pressed modifier_mask =>
    simp only [World.call, Except.ok.injEq] at hcall
    subst hcall
    refine ids_fresh_of_issued w _ ?_ rfl h
    simp only [World.bind_command_to_key, World.binding_ids, List.map_append, List.map_cons,
      List.map_nil]
    rw [List.append_assoc]
    exact List.perm_middle
  | bind_command_to_mouse_click command button =>
    simp only [World.call, Except.ok.injEq] at hcall
    subst hcall
    exact push_mouse_binding_ids_fresh w command _ h
  | bind_command_to_mouse_wheel command =>
    simp only [World.call, Except.ok.injEq] at hcall
    subst hcall
    refine ids_fresh_of_issued w _ ?_ rfl h
    have hlist : (w.bind_command_to_mouse_wheel command).1.binding_ids =
        w.binding_ids ++ w.next_id :: [] := by
      simp [World.bind_command_to_mouse_wheel, World.binding_ids]
    rw [hlist]
    refine List.perm_middle.trans (List.Perm.of_eq ?_)
    simp
  | bind_command_to_mouse_motion command =>
    simp only [World.call, Except.ok.injEq] at hcall
    subst hcall
    exact push_mouse_binding_ids_fresh w command _ h
  | bind_command_to_mouse_drag command button =>
    simp only [World.call, Except.ok.injEq] at hcall
    subst hcall
    exact push_mouse_binding_ids_fresh w command _ h
  | remove_command_binding binding_id =>
    simp only [World.call, Except.ok.injEq] at hcall
    subst hcall
    refine ⟨?_, fun i hi => ?_⟩
    · rw [remove_command_binding_ids]
      exact h.1.filter _
    · rw [remove_command_binding_ids] at hi
      exact h.2 i (List.mem_of_mem_filter hi)
  | on_key code modifier_mask pressed =>
    exact ids_fresh_of_frame w w1 (on_key_loop_quiet env _ _ _ _ _ _ _ hcall).1 h
  | on_mouse_move x y =>
    have hs := on_mouse_move_loop_step env _ _ _ _ hcall
    have hk := frame_m_key_bindings hs.1
    have hm := frame_m_mouse_bindings hs.1
    have hw := frame_m_mouse_wheel_bindings hs.1
    have hn := frame_next_id hs.1
    exact ids_fresh_of_perm w w1 hk (List.Perm.of_eq hm) hw hn h
  | on_mouse_click button count =>
    simp only [World.call, World.on_mouse_click] at hcall
    rcases sort_mouse_bindings_cases env w with hs | ⟨sorted, hperm, hs⟩
    · rw [hs] at hcall
      cases hcall
    · rw [hs] at hcall
      simp only [] at hcall
      have hstep := on_mouse_click_loop_step env _ _ _ _ _ _ hcall
      have hk := frame_m_key_bindings hstep.1
      have hm := frame_m_mouse_bindings hstep.1
      have hw := frame_m_mouse_wheel_bindings hstep.1
      have hn := frame_next_id hstep.1
      exact ids_fresh_of_perm w w1 hk ((List.Perm.of_eq hm).trans hperm) hw hn h
  | on_mouse_wheel x y =>
    simp only [World.call, World.on_mouse_wheel] at hcall
    rcases sort_mouse_bindings_cases env w with hs | ⟨sorted, hperm, hs⟩
    · rw [hs] at hcall
      cases hcall
    · rw [hs] at hcall
      simp only [] at hcall
      have hstep := on_mouse_wheel_loop_quiet env _ _ _ _ hcall
      have hk := frame_m_key_bindings hstep.1
      have hm := frame_m_mouse_bindings hstep.1
      have hw := frame_m_mouse_wheel_bindings hstep.1
      have hn := frame_next_id hstep.1
      exact ids_fresh_of_perm w w1 hk ((List.Perm.of_eq hm).trans hperm) hw hn h

theorem run_ids_fresh (env : Env) (calls : List Call) (w w1 : World)
    (hrun : World.run env calls w = Except.ok w1) (h : w.ids_fresh) : w1.ids_fresh := by
  induction calls generalizing w with
  | nil =>
    simp only [World.run, Except.ok.injEq] at hrun
    subst hrun
    exact h
  | cons call rest ih =>
    simp only [World.run] at hrun
    cases hc : w.call env call with
    | error e => simp [hc] at hrun
    | ok w2 =>
      simp only [hc] at hrun
      exact ih w2 hrun (call_ids_fresh env w w2 call hc h)

theorem initial_ids_fresh (command_state : Cmd → State) (next_id : Nat) (cursor : dvec2) :
    (World.initial command_state next_id cursor).ids_fresh :=
  ⟨List.nodup_nil, fun i hi => by simp [World.initial, World.binding_ids] at hi⟩

theorem remove_command_binding_length (w : World) (binding_id : Nat) (h : w.ids_fresh)
    (hpresent : binding_id ∈ w.binding_ids) :
    (w.remove_command_binding binding_id).binding_ids.length + 1 = w.binding_ids.length := by
  rw [remove_command_binding_ids]
  have hsplit := List.length_eq_length_filter_add (l := w.binding_ids)
    (fun i => !(i == binding_id))
  have hcount : (w.binding_ids.filter (fun i => i == binding_id)).length = 1 := by
    rw [← List.countP_eq_length_filter]
    exact List.count_eq_one_of_mem h.1 hpresent
  simp only [Bool.not_not] at hsplit
  rw [hcount] at hsplit
  exact hsplit.symm

/-- C8: in a world reached from the constructed dispatcher by any calls, for an
id that is still in a table (every such id was returned by the `bind` call that
made the binding), `remove_command_binding(id)` removes exactly one binding,
the one with that id: every other binding stays in its table in the same
relative order, and the registered commands, the slot, the stored mouse values
and the command states are unchanged. -/
theorem C8_remove_command_binding_exactly_one (env : Env) (command_state : Cmd → State)
    (first_id : Nat) (cursor : dvec2) (calls : List Call) (w : World) (binding_id : Nat)
    (hrun : World.run env calls (World.initial command_state first_id cursor) = Except.ok w)
    (hpresent : binding_id ∈ w.binding_ids) :
    (w.remove_command_binding binding_id).g_commands.m_key_bindings.length +
        (w.remove_command_binding binding_id).g_commands.m_mouse_bindings.length +
        (w.remove_command_binding binding_id).g_commands.m_mouse_wheel_bindings.length + 1 =
      w.g_commands.m_key_bindings.length + w.g_commands.m_mouse_bindings.length +
        w.g_commands.m_mouse_wheel_bindings.length ∧
    binding_id ∉ (w.remove_command_binding binding_id).binding_ids ∧
    ((w.remove_command_binding binding_id).g_commands.m_key_bindings.Sublist
        w.g_commands.m_key_bindings ∧
      (w.remove_command_binding binding_id).g_commands.m_mouse_bindings.Sublist
        w.g_commands.m_mouse_bindings ∧
      (w.remove_command_binding binding_id).g_commands.m_mouse_wheel_bindings.Sublist
        w.g_commands.m_mouse_wheel_bindings) ∧
    ((∀ b ∈ w.g_commands.m_key_bindings, b.m_id ≠ binding_id →
        b ∈ (w.remove_command_binding binding_id).g_commands.m_key_bindings) ∧
      (∀ b ∈ w.g_commands.m_mouse_bindings, b.m_id ≠ binding_id →
        b ∈ (w.remove_command_binding binding_id).g_commands.m_mouse_bindings) ∧
      (∀ b ∈ w.g_commands.m_mouse_wheel_bindings, b.m_id ≠ binding_id →
        b ∈ (w.remove_command_binding binding_id).g_commands.m_mouse_wheel_bindings)) ∧
    ((w.remove_command_binding binding_id).g_commands.m_commands = w.g_commands.m_commands ∧
      (w.remove_command_binding binding_id).g_commands.m_active_mouse_command =
        w.g_commands.m_active_mouse_command ∧
      (w.remove_command_binding binding_id).g_commands.m_last_mouse_position =
        w.g_commands.m_last_mouse_position ∧
      (w.remove_command_binding binding_id).g_commands.m_last_mouse_position_delta =
        w.g_commands.m_last_mouse_position_delta ∧
      (w.remove_command_binding binding_id).g_commands.m_last_mouse_wheel_delta =
        w.g_commands.m_last_mouse_wheel_delta ∧
      (w.remove_command_binding binding_id).command_state = w.command_state) := by
  have hfresh := run_ids_fresh env calls _ w hrun
    (initial_ids_fresh command_state first_id cursor)
  have hlen := remove_command_binding_length w binding_id hfresh hpresent
  refine ⟨?_, ?_, ⟨List.filter_sublist _, List.filter_sublist _, List.filter_sublist _⟩,
    ⟨?_, ?_, ?_⟩, ⟨rfl, rfl, rfl, rfl, rfl, rfl⟩⟩
  · simp only [World.binding_ids, List.length_append, List.length_map] at hlen
    omega
  · rw [remove_command_binding_ids]
    simp
  · intro b hb hne
    exact List.mem_filter.mpr ⟨hb, by simpa using hne⟩
  · intro b hb hne
    exact List.mem_filter.mpr ⟨hb, by simpa using hne⟩
  · intro b hb hne
    exact List.mem_filter.mpr ⟨hb, by simpa using hne⟩

/-- Witness of C8: after the set-up of the map editor, removing id 2 (the drag
binding of the brush command) leaves one binding out of two. -/
theorem C8_remove_command_binding_exactly_one_witness :
    World.run map_editor_env map_editor_setup (World.initial (fun _ => State.Inactive) 1 ⟨0, 0⟩)
        = Except.ok (World.run_or map_editor_env map_editor_setup start_world) ∧
      2 ∈ (World.run_or map_editor_env map_editor_setup start_world).binding_ids ∧
      ((World.run_or map_editor_env map_editor_setup start_world).remove_command_binding
          2).g_commands.m_mouse_bindings = [⟨some hover_command, 1, Mouse_kind.motion⟩] ∧
      2 ∉ ((World.run_or map_editor_env map_editor_setup start_world).remove_command_binding
          2).binding_ids :=
  ⟨rfl, by decide, rfl,
    (C8_remove_command_binding_exactly_one map_editor_env (fun _ => State.Inactive) 1 ⟨0, 0⟩
      map_editor_setup (World.run_or map_editor_env map_editor_setup start_world) 2 rfl
      (by decide)).2.1⟩

/-! ## C10: one drag of the brush command -/

theorem sweep_fold_entries (cs : List Cmd) (acc : World) :
    ∃ tail, (cs.foldl
      (fun acc command =>
        if acc.command_state command = State.Ready then Command.set_inactive command acc else acc)
      acc).log = acc.log ++ tail ∧
      ∀ e ∈ tail, ∃ x, e = Entry.set_inactive x ∨ e = Entry.on_inactive x := by
  induction cs generalizing acc with
  | nil => exact ⟨[], by simp, by simp⟩
  | cons c rest ih =>
    simp only [List.foldl_cons]
    by_cases hc : acc.command_state c = State.Ready
    · simp only [hc, if_true]
      obtain ⟨tail, hlog, htail⟩ := ih (Command.set_inactive c acc)
      refine ⟨[Entry.set_inactive c, Entry.on_inactive c] ++ tail, ?_, ?_⟩
      · rw [hlog]
        simp [Command.set_inactive, World.set_state, World.logged]
      · intro e he
        rcases List.mem_append.mp he with he | he
        · simp only [List.mem_cons, List.mem_singleton, List.not_mem_nil, or_false] at he
          rcases he with he | he
          · exact ⟨c, Or.inl he⟩
          · exact ⟨c, Or.inr he⟩
        · exact htail e he
    · simp only [hc, if_false]
      exact ih acc

theorem activations_of_log (w w1 : World) (c : Cmd) (tail : List Entry)
    (hlog : w1.log = w.log ++ tail) (htail : Entry.set_active c ∉ tail) :
    w1.activations c = w.activations c := by
  unfold World.activations
  rw [hlog, List.count_append, List.count_eq_zero_of_not_mem htail]
  rfl

theorem activations_logged (w : World) (c : Cmd) (e : Entry) (he : e ≠ Entry.set_active c) :
    (w.logged e).activations c = w.activations c :=
  activations_of_log w _ c [e] rfl (by simpa using Ne.symm he)

theorem activations_set_ready (w : World) (c : Cmd) :
    (Command.set_ready c w).activations c = w.activations c :=
  activations_of_log w _ c [Entry.set_ready c] rfl (by simp)

theorem activations_set_inactive (w : World) (c : Cmd) :
    (Command.set_inactive c w).activations c = w.activations c :=
  activations_of_log w _ c [Entry.set_inactive c, Entry.on_inactive c]
    (by simp [Command.set_inactive, World.set_state, World.logged]) (by simp)

theorem update_active_mouse_command_activations (w w1 : World) (c x : Cmd)
    (h : w.update_active_mouse_command c = Except.ok w1) :
    w1.activations x = w.activations x := by
  obtain ⟨tail, hlog, htail⟩ := sweep_fold_entries
    (w.logged (Entry.update_active_mouse_command c)).g_commands.m_commands
    ((w.logged (Entry.update_active_mouse_command c)).logged Entry.inactivate_ready_commands)
  have hlog1 : ((w.logged (Entry.update_active_mouse_command c)).inactivate_ready_commands).log
      = w.log ++ (Entry.update_active_mouse_command c :: Entry.inactivate_ready_commands ::
        tail) := by
    unfold World.inactivate_ready_commands
    rw [hlog]
    simp [World.logged]
  have hnot : Entry.set_active x ∉
      Entry.update_active_mouse_command c :: Entry.inactivate_ready_commands :: tail := by
    intro hmem
    simp only [List.mem_cons] at hmem
    rcases hmem with hmem | hmem | hmem
    · cases hmem
    · cases hmem
    · obtain ⟨y, hy | hy⟩ := htail _ hmem
      · cases hy
      · cases hy
  rcases update_active_mouse_command_cases w c with h1 | h1 | h1 | h1
  · rw [h1] at h
    cases h
    exact activations_of_log w _ x _ hlog1 hnot
  · rw [h1] at h
    cases h
    exact activations_of_log w _ x _ hlog1 hnot
  · rw [h1] at h
    cases h
    exact activations_of_log w _ x _ hlog1 hnot
  · rw [h1.1] at h
    cases h

theorem sort_mouse_bindings_ok (env : Env) (w : World)
    (hsome : ∀ b ∈ w.g_commands.m_mouse_bindings, b.m_command.isSome = true) :
    ∃ sorted, sorted.Perm w.g_commands.m_mouse_bindings ∧
      w.sort_mouse_bindings env = Except.ok { w with g_commands := { w.g_commands with
        m_mouse_bindings := sorted } } := by
  rcases sort_mouse_bindings_cases env w with hs | hs
  · exfalso
    unfold World.sort_mouse_bindings at hs
    split_ifs at hs with h1 h2
    exact h2 (List.all_eq_true.mpr hsome)
  · exact hs

theorem map_editor_env_is_brush : map_editor_env.is_brush brush_command :=
  ⟨fun _ _ => by simp [map_editor_env], fun _ _ => by simp [map_editor_env]⟩

/-- C2 (the code at the failing input): in the map editor, once the brush
command is Active and owns the slot, the next `on_mouse_move` evaluates the
motion binding of the hover command (registered first) before the drag binding
of the brush command: `on_mouse_move` walks `m_mouse_bindings` as stored, without
`sort_mouse_bindings`.  In the same world `on_mouse_click`, which sorts, does
evaluate the binding of the brush command first. -/
theorem C2_on_mouse_move_evaluates_hover_first :
    (World.run_or map_editor_env dragging_calls start_world).g_commands.m_active_mouse_command
        = some brush_command ∧
      (World.run_or map_editor_env dragging_calls start_world).command_state brush_command
        = State.Active ∧
      (World.run_or map_editor_env dragging_calls start_world).g_commands.m_mouse_bindings =
        [⟨some hover_command, 1, Mouse_kind.motion⟩,
          ⟨some brush_command, 2, Mouse_kind.drag 0⟩] ∧
      (∃ w1, (World.run_or map_editor_env dragging_calls start_world).on_mouse_move
          map_editor_env 2 2 = Except.ok w1 ∧
        w1.log = (World.run_or map_editor_env dragging_calls start_world).log ++
          [Entry.on_motion 1, Entry.try_call hover_command, Entry.on_motion 2,
            Entry.try_call brush_command, Entry.update_active_mouse_command brush_command,
            Entry.inactivate_ready_commands] ∧
        w1.command_state brush_command = State.Active ∧
        w1.g_commands.m_active_mouse_command = some brush_command) ∧
      ∃ w2, (World.run_or map_editor_env dragging_calls start_world).on_mouse_click
          map_editor_env 1 1 = Except.ok w2 ∧
        w2.log = (World.run_or map_editor_env dragging_calls start_world).log ++
          [Entry.on_button 2, Entry.on_button 1] :=
  ⟨rfl, rfl, rfl, ⟨_, rfl, rfl, rfl, rfl⟩, ⟨_, rfl, rfl⟩⟩

/-! ## C19: the priority key -/

/-- C19: `get_command_priority(c)` is 0 when `c` is the active mouse command and
otherwise the rank of the state of `c`, with rank 1 for Active, 2 for Ready, 3
for Inactive and 4 for Disabled; hence the active mouse command has a strictly
smaller priority than every other command. -/
theorem C19_get_command_priority (w : World) (c : Cmd) :
    (w.g_commands.m_active_mouse_command = some c → w.get_command_priority c = 0) ∧
      (w.g_commands.m_active_mouse_command ≠ some c →
        w.get_command_priority c = get_priority (w.command_state c)) ∧
      (get_priority State.Active = 1 ∧ get_priority State.Ready = 2 ∧
        get_priority State.Inactive = 3 ∧ get_priority State.Disabled = 4) ∧
      (w.g_commands.m_active_mouse_command = some c →
        ∀ other, other ≠ c → w.get_command_priority c < w.get_command_priority other) := by
  refine ⟨fun h => ?_, fun h => ?_, ⟨rfl, rfl, rfl, rfl⟩, fun h other hne => ?_⟩
  · simp [World.get_command_priority, h]
  · have hne : ¬ some c = w.g_commands.m_active_mouse_command := fun h2 => h h2.symm
    simp [World.get_command_priority, hne]
  · have hne2 : ¬ (some other : Option Cmd) = some c := fun h2 => hne (Option.some.inj h2)
    simp only [World.get_command_priority, h, if_true]
    rw [if_neg hne2]
    cases w.command_state other <;> decide

/-- Witness of C19: in the map editor, while the brush command drags, its
priority is 0 and that of the Inactive hover command is 3. -/
theorem C19_get_command_priority_witness :
    (World.run_or map_editor_env dragging_calls start_world).get_command_priority
        brush_command = 0 ∧
      (World.run_or map_editor_env dragging_calls start_world).get_command_priority
        hover_command = 3 ∧
      (World.run_or map_editor_env dragging_calls start_world).get_command_priority
          brush_command <
        (World.run_or map_editor_env dragging_calls start_world).get_command_priority
          hover_command :=
  ⟨(C19_get_command_priority (World.run_or map_editor_env dragging_calls start_world)
      brush_command).1 rfl,
    rfl,
    (C19_get_command_priority (World.run_or map_editor_env dragging_calls start_world)
      brush_command).2.2.2 rfl hover_command (by decide)⟩

/-! ## C13: the match of a key binding -/

theorem is_match_iff (b : Key_binding) (pressed : Bool) (code : Keycode)
    (modifier_mask : Nat) :
    b.is_match pressed code modifier_mask = true ↔
      (b.m_code = code ∧ b.m_pressed = pressed ∧
        (b.m_modifier_mask = none ∨ b.m_modifier_mask = some modifier_mask)) := by
  unfold Key_binding.is_match
  cases hm : b.m_modifier_mask with
  | none => simp
  | some filter => simp [and_assoc]

/-- C13: a key binding matches an event exactly when the code equals the
configured code, the pressed flag equals the configured flag, and either no
modifier filter is configured or the observed mask equals the filter; `on_key`
of a binding that does not match returns false without a call of `try_call`,
and on a match it is the `try_call` of the command.  In particular a binding
with filter Shift does not fire when the observed mask is Shift|Ctrl, for any
Ctrl bit outside Shift. -/
theorem C13_key_modifier_exact_match (env : Env) (b : Key_binding)
    (context : Command_context) (pressed : Bool) (code : Keycode) (modifier_mask : Nat)
    (w : World) :
    (b.is_match pressed code modifier_mask = true ↔
      (b.m_code = code ∧ b.m_pressed = pressed ∧
        (b.m_modifier_mask = none ∨ b.m_modifier_mask = some modifier_mask))) ∧
      (b.is_match pressed code modifier_mask = false →
        b.on_key env context pressed code modifier_mask w =
          Except.ok (w.logged (Entry.on_key b.m_id), false)) ∧
      (∀ c, b.is_match pressed code modifier_mask = true → b.m_command = some c →
        b.on_key env context pressed code modifier_mask w =
          Except.ok (Command.try_call env c context (w.logged (Entry.on_key b.m_id)))) ∧
      (∀ shift ctrl : Nat, shift ||| ctrl ≠ shift → b.m_modifier_mask = some shift →
        b.on_key env context pressed code (shift ||| ctrl) w =
          Except.ok (w.logged (Entry.on_key b.m_id), false)) := by
  refine ⟨is_match_iff b pressed code modifier_mask, fun h => ?_, fun c h hc => ?_,
    fun shift ctrl hne hfilter => ?_⟩
  · simp [Key_binding.on_key, h]
  · simp [Key_binding.on_key, h, hc]
  · have hno : b.is_match pressed code (shift ||| ctrl) = false := by
      cases hmatch : b.is_match pressed code (shift ||| ctrl) with
      | false => rfl
      | true =>
        exfalso
        rcases ((is_match_iff b pressed code (shift ||| ctrl)).mp hmatch).2.2 with h1 | h1
        · rw [hfilter] at h1
          cases h1
        · rw [hfilter] at h1
          exact hne (Option.some.inj h1).symm
    simp [Key_binding.on_key, hno]

/-- Witness of C13: a binding of key 65 with filter 1 (Shift) and the observed
mask 3 (Shift|Ctrl). -/
theorem C13_key_modifier_exact_match_witness :
    Key_binding.on_key map_editor_env ⟨some hover_command, 1, 65, true, some 1⟩ key_context
        true 65 (1 ||| 2) start_world =
      Except.ok (start_world.logged (Entry.on_key 1), false) :=
  (C13_key_modifier_exact_match map_editor_env ⟨some hover_command, 1, 65, true, some 1⟩
    key_context true 65 0 start_world).2.2.2 1 2 (by decide) rfl

/-! ## C11: drag gating -/

/-- C11: `on_motion` of a drag binding whose command is Inactive returns false
and does nothing but be evaluated: no `try_call`, no change of any command
state or of the dispatcher, and the motion loop goes on to the next binding
without `update_active_mouse_command`.  It forwards to `try_call` exactly when
the command is Ready or Active. -/
theorem C11_drag_gating (env : Env) (b : Mouse_binding) (c : Cmd) (button : Mouse_button)
    (context : Command_context) (w : World) (rest : List Mouse_binding)
    (hkind : b.kind = Mouse_kind.drag button) (hcommand : b.m_command = some c) :
    (w.command_state c = State.Inactive →
      (b.on_motion env c context w).2 = false ∧
      (b.on_motion env c context w).1.command_state = w.command_state ∧
      (b.on_motion env c context w).1.g_commands = w.g_commands ∧
      (b.on_motion env c context w).1.log = w.log ++ [Entry.on_motion b.m_id] ∧
      on_mouse_move_loop env context (b :: rest) w =
        on_mouse_move_loop env context rest (w.logged (Entry.on_motion b.m_id))) ∧
    ((w.command_state c = State.Ready ∨ w.command_state c = State.Active) →
      b.on_motion env c context w =
        Command.try_call env c context (w.logged (Entry.on_motion b.m_id))) ∧
    (¬ (w.command_state c = State.Ready ∨ w.command_state c = State.Active) →
      b.on_motion env c context w = (w.logged (Entry.on_motion b.m_id), false)) := by
  have hyes : (w.command_state c = State.Ready ∨ w.command_state c = State.Active) →
      b.on_motion env c context w =
        Command.try_call env c context (w.logged (Entry.on_motion b.m_id)) := by
    intro h
    have h1 : (w.logged (Entry.on_motion b.m_id)).command_state c = State.Ready ∨
        (w.logged (Entry.on_motion b.m_id)).command_state c = State.Active := h
    simp only [Mouse_binding.on_motion, hkind]
    rw [if_pos h1]
  have hno : ¬ (w.command_state c = State.Ready ∨ w.command_state c = State.Active) →
      b.on_motion env c context w = (w.logged (Entry.on_motion b.m_id), false) := by
    intro h
    have h1 : ¬ ((w.logged (Entry.on_motion b.m_id)).command_state c = State.Ready ∨
        (w.logged (Entry.on_motion b.m_id)).command_state c = State.Active) := h
    simp only [Mouse_binding.on_motion, hkind]
    rw [if_neg h1]
  refine ⟨fun hin => ?_, hyes, hno⟩
  have hgate : ¬ (w.command_state c = State.Ready ∨ w.command_state c = State.Active) := by
    rw [hin]
    decide
  have heq := hno hgate
  refine ⟨by rw [heq], by rw [heq]; rfl, by rw [heq]; rfl, by rw [heq]; rfl, ?_⟩
  simp only [on_mouse_move_loop, hcommand]
  rw [heq]
  simp

/-- Witness of C11: the drag binding of the brush command in the map editor as
set up, the brush command Inactive. -/
theorem C11_drag_gating_witness :
    (Mouse_binding.on_motion map_editor_env ⟨some brush_command, 2, Mouse_kind.drag 0⟩
        brush_command key_context
        (World.run_or map_editor_env map_editor_setup start_world)).2 = false ∧
      (Mouse_binding.on_motion map_editor_env ⟨some brush_command, 2, Mouse_kind.drag 0⟩
        brush_command key_context
        (World.run_or map_editor_env map_editor_setup start_world)).1.log = [Entry.on_motion 2] :=
  ⟨((C11_drag_gating map_editor_env ⟨some brush_command, 2, Mouse_kind.drag 0⟩ brush_command 0
      key_context (World.run_or map_editor_env map_editor_setup start_world) [] rfl rfl).1
      rfl).1,
    rfl⟩

/-! ## Traces of the binding predicates -/

theorem command_step_refl (w : World) : w.command_step w :=
  ⟨[], by simp, by simp⟩

theorem command_step_trans {a b c : World} (h1 : a.command_step b)
    (h2 : b.command_step c) : a.command_step c := by
  obtain ⟨t1, hl1, ht1⟩ := h1
  obtain ⟨t2, hl2, ht2⟩ := h2
  refine ⟨t1 ++ t2, by rw [hl2, hl1, List.append_assoc], ?_⟩
  intro e he
  rcases List.mem_append.mp he with h | h
  · exact ht1 e h
  · exact ht2 e h

theorem set_ready_command_step (c : Cmd) (w : World) :
    w.command_step (Command.set_ready c w) :=
  ⟨[Entry.set_ready c], rfl, by simp [Entry.is_command]⟩

theorem set_active_command_step (c : Cmd) (w : World) :
    w.command_step (Command.set_active c w) :=
  ⟨[Entry.set_active c], rfl, by simp [Entry.is_command]⟩

theorem set_inactive_command_step (c : Cmd) (w : World) :
    w.command_step (Command.set_inactive c w) :=
  ⟨[Entry.set_inactive c, Entry.on_inactive c],
    by simp [Command.set_inactive, World.set_state, World.logged],
    by simp [Entry.is_command]⟩

theorem call_ops_command_step (c : Cmd) (ops : List Op) (w : World) :
    w.command_step (Command.call_ops c ops w) := by
  induction ops generalizing w with
  | nil => exact command_step_refl w
  | cons op rest ih =>
    refine command_step_trans ?_ (ih (Command.call_op c w op))
    cases op
    · exact set_ready_command_step c w
    · exact set_active_command_step c w
    · exact set_inactive_command_step c w

theorem try_call_command_step (env : Env) (c : Cmd) (context : Command_context) (w : World) :
    w.command_step (Command.try_call env c context w).1 :=
  command_step_trans ⟨[Entry.try_call c], rfl, by simp [Entry.is_command]⟩
    (call_ops_command_step c _ _)

theorem try_ready_command_step (env : Env) (c : Cmd) (context : Command_context)
    (w : World) : w.command_step (Command.try_ready env c context w) :=
  command_step_trans ⟨[Entry.try_ready c], rfl, by simp [Entry.is_command]⟩
    (call_ops_command_step c _ _)

/-- The trace of `on_button`: the evaluation of the binding, then calls on its
command only. -/
theorem on_button_trace (env : Env) (b : Mouse_binding) (c : Cmd) (context : Command_context)
    (button : Mouse_button) (count : Int) (w : World) :
    ∃ tail, (b.on_button env c context button count w).1.log =
        w.log ++ Entry.on_button b.m_id :: tail ∧
      ∀ e ∈ tail, Entry.is_command e = true := by
  have key : (w.logged (Entry.on_button b.m_id)).command_step
      (b.on_button env c context button count w).1 := by
    unfold Mouse_binding.on_button
    simp only []
    split
    · split
      · split
        · exact command_step_trans (set_ready_command_step c _)
            (try_call_command_step env c context _)
        · exact try_call_command_step env c context _
      · exact command_step_refl _
    · exact command_step_refl _
    · split
      · split
        · split
          · exact try_ready_command_step env c context _
          · exact command_step_refl _
        · split
          · exact set_inactive_command_step c _
          · exact command_step_refl _
      · exact command_step_refl _
  obtain ⟨tail, hlog, htail⟩ := key
  refine ⟨tail, ?_, htail⟩
  rw [hlog]
  simp [World.logged]

/-- The trace of `update_active_mouse_command`: the call, the sweep, then the
`set_inactive` calls of the sweep. -/
theorem update_active_mouse_command_trace (w w1 : World) (c : Cmd)
    (h : w.update_active_mouse_command c = Except.ok w1) :
    ∃ swept, w1.log = w.log ++ Entry.update_active_mouse_command c ::
        Entry.inactivate_ready_commands :: swept ∧
      ∀ e ∈ swept, ∃ x, e = Entry.set_inactive x ∨ e = Entry.on_inactive x := by
  obtain ⟨tail, hlog, htail⟩ := sweep_fold_entries
    (w.logged (Entry.update_active_mouse_command c)).g_commands.m_commands
    ((w.logged (Entry.update_active_mouse_command c)).logged Entry.inactivate_ready_commands)
  have key : ((w.logged (Entry.update_active_mouse_command c)).inactivate_ready_commands).log
      = w.log ++ Entry.update_active_mouse_command c :: Entry.inactivate_ready_commands ::
        tail := by
    unfold World.inactivate_ready_commands
    rw [hlog]
    simp [World.logged]
  rcases update_active_mouse_command_cases w c with h1 | h1 | h1 | h1
  · rw [h1] at h
    cases h
    exact ⟨tail, key, htail⟩
  · rw [h1] at h
    cases h
    exact ⟨tail, key, htail⟩
  · rw [h1] at h
    cases h
    exact ⟨tail, key, htail⟩
  · rw [h1.1] at h
    cases h

theorem filter_on_button_of_command (tail : List Entry)
    (h : ∀ e ∈ tail, Entry.is_command e = true) : tail.filter Entry.is_on_button = [] := by
  rw [List.filter_eq_nil_iff]
  intro e he
  have hc := h e he
  cases e <;> simp [Entry.is_command, Entry.is_on_button] at hc ⊢

theorem filter_on_button_of_swept (swept : List Entry)
    (h : ∀ e ∈ swept, ∃ x, e = Entry.set_inactive x ∨ e = Entry.on_inactive x) :
    swept.filter Entry.is_on_button = [] := by
  rw [List.filter_eq_nil_iff]
  intro e he
  obtain ⟨x, hx | hx⟩ := h e he <;> simp [hx, Entry.is_on_button]

/-- The trace of the click loop: the bindings evaluated are a front part of the
list, each evaluated once, in the order of the list. -/
theorem on_mouse_click_loop_trace (env : Env) (context : Command_context)
    (button : Mouse_button) (count : Int) (l : List Mouse_binding) (w w1 : World)
    (h : on_mouse_click_loop env context button count l w = Except.ok w1) :
    ∃ evaluated rest added, l = evaluated ++ rest ∧ w1.log = w.log ++ added ∧
      added.filter Entry.is_on_button = evaluated.map (fun b => Entry.on_button b.m_id) ∧
      ∀ b ∈ evaluated, b.m_command.isSome = true := by
  induction l generalizing w with
  | nil =>
    simp only [on_mouse_click_loop] at h
    cases h
    exact ⟨[], [], [], rfl, by simp, rfl, by simp⟩
  | cons b more ih =>
    cases hc : b.m_command with
    | none => simp [on_mouse_click_loop, hc] at h
    | some c =>
      simp only [on_mouse_click_loop, hc] at h
      obtain ⟨tail, hlog, htail⟩ := on_button_trace env b c context button count w
      have hsome : ∀ k ∈ [b], k.m_command.isSome = true := by
        intro k hk
        rw [List.mem_singleton.mp hk, hc]
        rfl
      split_ifs at h with hcons
      · obtain ⟨swept, hlog2, hswept⟩ := update_active_mouse_command_trace _ w1 c h
        refine ⟨[b], more, Entry.on_button b.m_id :: tail ++
          Entry.update_active_mouse_command c :: Entry.inactivate_ready_commands :: swept,
          rfl, ?_, ?_, hsome⟩
        · rw [hlog2, hlog]
          simp
        · simp [List.filter_cons, Entry.is_on_button, filter_on_button_of_command tail htail,
            filter_on_button_of_swept swept hswept]
      · obtain ⟨evaluated, rest, added, hl, hlog2, hfilter, hall⟩ := ih _ h
        refine ⟨b :: evaluated, rest, Entry.on_button b.m_id :: tail ++ added, ?_, ?_, ?_, ?_⟩
        · rw [hl]
          rfl
        · rw [hlog2, hlog]
          simp
        · simp [List.filter_cons, Entry.is_on_button, filter_on_button_of_command tail htail,
            hfilter]
        · intro k hk
          rcases List.mem_cons.mp hk with hk | hk
          · rw [hk, hc]
            rfl
          · exact hall k hk

theorem sort_mouse_bindings_sorted (env : Env) (w : World) :
    w.sort_mouse_bindings env = Except.error Failure.verify_command_not_null ∨
    ∃ sorted, sorted.Perm w.g_commands.m_mouse_bindings ∧
      sorted.Pairwise (fun a b => w.binding_priority a ≤ w.binding_priority b) ∧
      w.sort_mouse_bindings env = Except.ok { w with g_commands := { w.g_commands with
        m_mouse_bindings := sorted } } := by
  unfold World.sort_mouse_bindings
  split_ifs with h1 h2
  · refine Or.inr ⟨w.g_commands.m_mouse_bindings, List.Perm.refl _, ?_, rfl⟩
    cases hl : w.g_commands.m_mouse_bindings with
    | nil => exact List.Pairwise.nil
    | cons a t =>
      cases t with
      | nil => exact List.pairwise_singleton _ _
      | cons b t2 =>
        rw [hl] at h1
        simp only [List.length_cons] at h1
        omega
  · exact Or.inr ⟨_, env.std_sort_perm _ _, env.std_sort_sorted _ _, rfl⟩
  · exact Or.inl rfl

/-! ## C20: clicks are evaluated in priority order -/

/-- C20: an `on_mouse_click` that returns has put the mouse bindings into an
order that is a permutation of the list before the call with non-decreasing
priority, the priority taken from the slot and the command states at the start
of the call; the bindings it evaluates are a front part of that order, each
evaluated once and in that order. -/
theorem C20_click_priority_order (env : Env) (w w1 : World) (button : Mouse_button)
    (count : Int) (h : w.on_mouse_click env button count = Except.ok w1) :
    ∃ sorted evaluated rest added,
      sorted.Perm w.g_commands.m_mouse_bindings ∧
      sorted.Pairwise (fun a b => w.binding_priority a ≤ w.binding_priority b) ∧
      w1.g_commands.m_mouse_bindings = sorted ∧
      sorted = evaluated ++ rest ∧
      w1.log = w.log ++ added ∧
      added.filter Entry.is_on_button = evaluated.map (fun b => Entry.on_button b.m_id) ∧
      ∀ b ∈ evaluated, b.m_command.isSome = true := by
  unfold World.on_mouse_click at h
  rcases sort_mouse_bindings_sorted env w with hs | ⟨sorted, hperm, hsorted, hs⟩
  · rw [hs] at h
    cases h
  · rw [hs] at h
    simp only [] at h
    obtain ⟨evaluated, rest, added, hl, hlog, hfilter, hall⟩ :=
      on_mouse_click_loop_trace env _ button count sorted _ w1 h
    have hframe := (on_mouse_click_loop_step env _ button count sorted _ w1 h).1
    have hb := frame_m_mouse_bindings hframe
    exact ⟨sorted, evaluated, rest, added, hperm, hsorted, hb, hl, hlog, hfilter, hall⟩

/-- Witness of C20: in the map editor, while the brush command drags, a click
of button 1 evaluates the binding of the brush command (priority 0) before that
of the hover command (priority 3). -/
theorem C20_click_priority_order_witness :
    ∃ sorted evaluated rest added,
      sorted.Perm (World.run_or map_editor_env dragging_calls start_world
        ).g_commands.m_mouse_bindings ∧
      sorted.Pairwise (fun a b =>
        (World.run_or map_editor_env dragging_calls start_world).binding_priority a ≤
          (World.run_or map_editor_env dragging_calls start_world).binding_priority b) ∧
      (World.run_or map_editor_env (dragging_calls ++ [Call.on_mouse_click 1 1]) start_world
        ).g_commands.m_mouse_bindings = sorted ∧
      sorted = evaluated ++ rest ∧
      (World.run_or map_editor_env (dragging_calls ++ [Call.on_mouse_click 1 1]) start_world
        ).log = (World.run_or map_editor_env dragging_calls start_world).log ++ added ∧
      added.filter Entry.is_on_button = evaluated.map (fun b => Entry.on_button b.m_id) ∧
      ∀ b ∈ evaluated, b.m_command.isSome = true :=
  C20_click_priority_order map_editor_env
    (World.run_or map_editor_env dragging_calls start_world)
    (World.run_or map_editor_env (dragging_calls ++ [Call.on_mouse_click 1 1]) start_world)
    1 1 rfl

/-! ## C15: every wheel binding is invoked -/

theorem on_wheel_trace (env : Env) (b : Mouse_wheel_binding) (c : Cmd)
    (context : Command_context) (w : World) :
    ∃ tail, (b.on_wheel env c context w).1.log = w.log ++ Entry.on_wheel b.m_id :: tail ∧
      ∀ e ∈ tail, Entry.is_command e = true := by
  obtain ⟨tail, hlog, htail⟩ :=
    try_call_command_step env c context (w.logged (Entry.on_wheel b.m_id))
  refine ⟨tail, ?_, htail⟩
  unfold Mouse_wheel_binding.on_wheel
  rw [hlog]
  simp [World.logged]

theorem filter_on_wheel_of_command (tail : List Entry)
    (h : ∀ e ∈ tail, Entry.is_command e = true) : tail.filter Entry.is_on_wheel = [] := by
  rw [List.filter_eq_nil_iff]
  intro e he
  have hc := h e he
  cases e <;> simp [Entry.is_command, Entry.is_on_wheel] at hc ⊢

theorem on_mouse_wheel_loop_trace (env : Env) (context : Command_context)
    (l : List Mouse_wheel_binding) (w w1 : World)
    (h : on_mouse_wheel_loop env context l w = Except.ok w1) :
    ∃ added, w1.log = w.log ++ added ∧
      added.filter Entry.is_on_wheel = l.map (fun b => Entry.on_wheel b.m_id) := by
  induction l generalizing w with
  | nil =>
    simp only [on_mouse_wheel_loop] at h
    cases h
    exact ⟨[], by simp, rfl⟩
  | cons b more ih =>
    cases hc : b.m_command with
    | none => simp [on_mouse_wheel_loop, hc] at h
    | some c =>
      simp only [on_mouse_wheel_loop, hc] at h
      obtain ⟨tail, hlog, htail⟩ := on_wheel_trace env b c context w
      obtain ⟨added, hlog2, hfilter⟩ := ih _ h
      refine ⟨Entry.on_wheel b.m_id :: tail ++ added, ?_, ?_⟩
      · rw [hlog2, hlog]
        simp
      · simp [List.filter_cons, Entry.is_on_wheel, filter_on_wheel_of_command tail htail,
          hfilter]

theorem on_mouse_wheel_loop_total (env : Env) (context : Command_context)
    (l : List Mouse_wheel_binding) (w : World)
    (hsome : ∀ b ∈ l, b.m_command.isSome = true) :
    ∃ w1, on_mouse_wheel_loop env context l w = Except.ok w1 := by
  induction l generalizing w with
  | nil => exact ⟨w, rfl⟩
  | cons b more ih =>
    cases hc : b.m_command with
    | none =>
      have := hsome b (List.mem_cons_self _ _)
      rw [hc] at this
      cases this
    | some c =>
      simp only [on_mouse_wheel_loop, hc]
      exact ih _ (fun k hk => hsome k (List.mem_cons_of_mem _ hk))

theorem call_wheel_order (env : Env) (w w1 : World) (call : Call)
    (hcall : w.call env call = Except.ok w1) (hfresh : w.ids_fresh)
    (h : w.wheel_in_registration_order) : w1.wheel_in_registration_order := by
  have hsame : w1.g_commands.m_mouse_wheel_bindings = w.g_commands.m_mouse_wheel_bindings →
      w1.wheel_in_registration_order := by
    intro heq
    unfold World.wheel_in_registration_order
    rw [heq]
    exact h
  cases call with
  | register_command command =>
    simp only [World.call, Except.ok.injEq] at hcall
    subst hcall
    exact hsame rfl
  | bind_command_to_key command code pressed modifier_mask =>
    simp only [World.call, Except.ok.injEq] at hcall
    subst hcall
    exact hsame rfl
  | bind_command_to_mouse_click command button =>
    simp only [World.call, Except.ok.injEq] at hcall
    subst hcall
    exact hsame rfl
  | bind_command_to_mouse_wheel command =>
    simp only [World.call, Except.ok.injEq] at hcall
    subst hcall
    unfold World.wheel_in_registration_order
    simp only [World.bind_command_to_mouse_wheel, List.map_append, List.map_cons,
      List.map_nil]
    rw [List.pairwise_append]
    refine ⟨h, List.pairwise_singleton _ _, ?_⟩
    intro i hi j hj
    rw [List.mem_singleton.mp hj]
    apply hfresh.2
    unfold World.binding_ids
    exact List.mem_append_right _ (List.mem_append_right _ hi)
  | bind_command_to_mouse_motion command =>
    simp only [World.call, Except.ok.injEq] at hcall
    subst hcall
    exact hsame rfl
  | bind_command_to_mouse_drag command button =>
    simp only [World.call, Except.ok.injEq] at hcall
    subst hcall
    exact hsame rfl
  | remove_command_binding binding_id =>
    simp only [World.call, Except.ok.injEq] at hcall
    subst hcall
    unfold World.wheel_in_registration_order
    exact List.Pairwise.sublist ((List.filter_sublist _).map _) h
  | on_key code modifier_mask pressed =>
    exact hsame (frame_m_mouse_wheel_bindings (on_key_loop_quiet env _ _ _ _ _ _ _ hcall).1)
  | on_mouse_move x y =>
    have hs := on_mouse_move_loop_step env _ _ _ _ hcall
    have hw := frame_m_mouse_wheel_bindings hs.1
    exact hsame hw
  | on_mouse_click button count =>
    simp only [World.call, World.on_mouse_click] at hcall
    rcases sort_mouse_bindings_cases env w with hs | ⟨sorted, hperm, hs⟩
    · rw [hs] at hcall
      cases hcall
    · rw [hs] at hcall
      simp only [] at hcall
      have hstep := on_mouse_click_loop_step env _ _ _ _ _ _ hcall
      have hw := frame_m_mouse_wheel_bindings hstep.1
      exact hsame hw
  | on_mouse_wheel x y =>
    simp only [World.call, World.on_mouse_wheel] at hcall
    rcases sort_mouse_bindings_cases env w with hs | ⟨sorted, hperm, hs⟩
    · rw [hs] at hcall
      cases hcall
    · rw [hs] at hcall
      simp only [] at hcall
      have hstep := on_mouse_wheel_loop_quiet env _ _ _ _ hcall
      have hw := frame_m_mouse_wheel_bindings hstep.1
      exact hsame hw

theorem run_wheel_order (env : Env) (calls : List Call) (w w1 : World)
    (hrun : World.run env calls w = Except.ok w1) (hfresh : w.ids_fresh)
    (h : w.wheel_in_registration_order) : w1.wheel_in_registration_order := by
  induction calls generalizing w with
  | nil =>
    simp only [World.run, Except.ok.injEq] at hrun
    subst hrun
    exact h
  | cons call rest ih =>
    simp only [World.run] at hrun
    cases hc : w.call env call with
    | error e => simp [hc] at hrun
    | ok w2 =>
      simp only [hc] at hrun
      exact ih w2 hrun (call_ids_fresh env w w2 call hc hfresh)
        (call_wheel_order env w w2 call hc hfresh h)

/-- C15: in a world reached from the constructed dispatcher the wheel bindings
are stored in registration order, and an `on_mouse_wheel` that returns has
invoked `on_wheel` of every wheel binding exactly once, in that order, whatever
the commands returned; it returns whenever no mouse or wheel binding has a null
command. -/
theorem C15_on_mouse_wheel_invokes_all (env : Env) (command_state : Cmd → State)
    (first_id : Nat) (cursor : dvec2) (calls : List Call) (w : World) (x y : Int)
    (hrun : World.run env calls (World.initial command_state first_id cursor) = Except.ok w) :
    w.wheel_in_registration_order ∧
      (∀ w1, w.on_mouse_wheel env x y = Except.ok w1 →
        w1.g_commands.m_mouse_wheel_bindings = w.g_commands.m_mouse_wheel_bindings ∧
        ∃ added, w1.log = w.log ++ added ∧
          added.filter Entry.is_on_wheel =
            w.g_commands.m_mouse_wheel_bindings.map (fun b => Entry.on_wheel b.m_id)) ∧
      (w.commands_bound → ∃ w1, w.on_mouse_wheel env x y = Except.ok w1) := by
  refine ⟨?_, ?_, ?_⟩
  · exact run_wheel_order env calls _ w hrun (initial_ids_fresh command_state first_id cursor)
      List.Pairwise.nil
  · intro w1 h
    unfold World.on_mouse_wheel at h
    rcases sort_mouse_bindings_cases env w with hs | ⟨sorted, -, hs⟩
    · rw [hs] at h
      cases h
    · rw [hs] at h
      simp only [] at h
      have hq := on_mouse_wheel_loop_quiet env _ _ _ _ h
      have hw := frame_m_mouse_wheel_bindings hq.1
      have ht := on_mouse_wheel_loop_trace env _ _ _ w1 h
      exact ⟨hw, ht⟩
  · intro hbound
    obtain ⟨sorted, -, hs⟩ := sort_mouse_bindings_ok env w hbound.1
    unfold World.on_mouse_wheel
    rw [hs]
    exact on_mouse_wheel_loop_total env _ _ _ hbound.2

/-- Witness of C15: two wheel bindings; the wheel event calls `on_wheel` of
binding 1, then of binding 2. -/
theorem C15_on_mouse_wheel_invokes_all_witness :
    World.run map_editor_env two_wheel_calls (World.initial (fun _ => State.Inactive) 1 ⟨0, 0⟩)
        = Except.ok (World.run_or map_editor_env two_wheel_calls start_world) ∧
      ∃ added, (World.run_or map_editor_env (two_wheel_calls ++ [Call.on_mouse_wheel 0 1])
          start_world).log =
          (World.run_or map_editor_env two_wheel_calls start_world).log ++ added ∧
        added.filter Entry.is_on_wheel = [Entry.on_wheel 1, Entry.on_wheel 2] :=
  ⟨rfl,
    ((C15_on_mouse_wheel_invokes_all map_editor_env (fun _ => State.Inactive) 1 ⟨0, 0⟩
      two_wheel_calls (World.run_or map_editor_env two_wheel_calls start_world) 0 1 rfl).2.1
      (World.run_or map_editor_env (two_wheel_calls ++ [Call.on_mouse_wheel 0 1]) start_world)
      rfl).2⟩

/-! ## C17: no binding has a null command -/

theorem update_active_mouse_command_not_null (w : World) (c : Cmd) :
    w.update_active_mouse_command c ≠ Except.error Failure.verify_command_not_null := by
  intro hfail
  rcases update_active_mouse_command_cases w c with h1 | h1 | h1 | h1
  · rw [h1] at hfail
    cases hfail
  · rw [h1] at hfail
    cases hfail
  · rw [h1] at hfail
    cases hfail
  · rw [h1.1] at hfail
    cases hfail

theorem on_mouse_click_loop_not_null (env : Env) (context : Command_context)
    (button : Mouse_button) (count : Int) (l : List Mouse_binding) (w : World)
    (hsome : ∀ b ∈ l, b.m_command.isSome = true) :
    on_mouse_click_loop env context button count l w ≠
      Except.error Failure.verify_command_not_null := by
  induction l generalizing w with
  | nil => simp [on_mouse_click_loop]
  | cons b rest ih =>
    cases hc : b.m_command with
    | none =>
      have := hsome b (List.mem_cons_self _ _)
      rw [hc] at this
      cases this
    | some c =>
      simp only [on_mouse_click_loop, hc]
      split_ifs
      · exact update_active_mouse_command_not_null _ c
      · exact ih _ (fun k hk => hsome k (List.mem_cons_of_mem _ hk))

theorem on_mouse_move_loop_not_null (env : Env) (context : Command_context)
    (l : List Mouse_binding) (w : World)
    (hsome : ∀ b ∈ l, b.m_command.isSome = true) :
    on_mouse_move_loop env context l w ≠ Except.error Failure.verify_command_not_null := by
  induction l generalizing w with
  | nil => simp [on_mouse_move_loop]
  | cons b rest ih =>
    cases hc : b.m_command with
    | none =>
      have := hsome b (List.mem_cons_self _ _)
      rw [hc] at this
      cases this
    | some c =>
      simp only [on_mouse_move_loop, hc]
      split_ifs
      · exact update_active_mouse_command_not_null _ c
      · exact ih _ (fun k hk => hsome k (List.mem_cons_of_mem _ hk))

theorem on_key_loop_not_null (env : Env) (context : Command_context) (pressed : Bool)
    (code : Keycode) (modifier_mask : Nat) (l : List Key_binding) (w : World) :
    on_key_loop env context pressed code modifier_mask l w ≠
      Except.error Failure.verify_command_not_null := by
  induction l generalizing w with
  | nil => simp [on_key_loop]
  | cons b rest ih =>
    simp only [on_key_loop]
    cases hb : b.on_key env context pressed code modifier_mask w with
    | error e =>
      simp only []
      unfold Key_binding.on_key at hb
      simp only [] at hb
      split_ifs at hb
      · split at hb
        · cases hb
          simp
        · cases hb
    | ok r =>
      obtain ⟨w2, consumed⟩ := r
      simp only []
      split_ifs
      · simp
      · exact ih _

theorem call_not_null (env : Env) (w : World) (call : Call) (hbound : w.commands_bound) :
    w.call env call ≠ Except.error Failure.verify_command_not_null := by
  cases call with
  | on_key code modifier_mask pressed =>
    exact on_key_loop_not_null env _ pressed code modifier_mask _ w
  | on_mouse_move x y =>
    exact on_mouse_move_loop_not_null env _ _ _ hbound.1
  | on_mouse_click button count =>
    simp only [World.call, World.on_mouse_click]
    obtain ⟨sorted, hperm, hs⟩ := sort_mouse_bindings_ok env w hbound.1
    rw [hs]
    exact on_mouse_click_loop_not_null env _ button count sorted _
      (fun b hb => hbound.1 b (hperm.mem_iff.mp hb))
  | on_mouse_wheel x y =>
    simp only [World.call, World.on_mouse_wheel]
    obtain ⟨sorted, hperm, hs⟩ := sort_mouse_bindings_ok env w hbound.1
    rw [hs]
    obtain ⟨w1, hw1⟩ := on_mouse_wheel_loop_total env
      ⟨w.g_commands.m_last_mouse_position, ⟨x, y⟩⟩ w.g_commands.m_mouse_wheel_bindings
      { w with g_commands := { w.g_commands with
          m_mouse_bindings := sorted, m_last_mouse_wheel_delta := ⟨x, y⟩ } } hbound.2
    intro hfail
    have := hw1.symm.trans hfail
    cases this
  | _ => simp [World.call]

theorem commands_bound_of_perm (w w1 : World)
    (hm : w1.g_commands.m_mouse_bindings.Perm w.g_commands.m_mouse_bindings)
    (hw : w1.g_commands.m_mouse_wheel_bindings = w.g_commands.m_mouse_wheel_bindings)
    (h : w.commands_bound) : w1.commands_bound := by
  refine ⟨fun b hb => h.1 b (hm.mem_iff.mp hb), fun b hb => ?_⟩
  rw [hw] at hb
  exact h.2 b hb

theorem push_mouse_binding_bound (w : World) (command : Option Cmd) (kind : Mouse_kind)
    (hsome : command.isSome = true) (h : w.commands_bound) :
    (w.push_mouse_binding command kind).1.commands_bound := by
  refine ⟨fun b hb => ?_, h.2⟩
  simp only [World.push_mouse_binding] at hb
  rcases List.mem_append.mp hb with hb | hb
  · exact h.1 b hb
  · rw [List.mem_singleton.mp hb]
    exact hsome

theorem call_commands_bound (env : Env) (w w1 : World) (call : Call)
    (hcommand : call.has_command = true) (hcall : w.call env call = Except.ok w1)
    (h : w.commands_bound) : w1.commands_bound := by
  cases call with
  | register_command command =>
    simp only [World.call, Except.ok.injEq] at hcall
    subst hcall
    exact h
  | bind_command_to_key command code pressed modifier_mask =>
    simp only [World.call, Except.ok.injEq] at hcall
    subst hcall
    exact h
  | bind_command_to_mouse_click command button =>
    simp only [World.call, Except.ok.injEq] at hcall
    subst hcall
    exact push_mouse_binding_bound w command _ hcommand h
  | bind_command_to_mouse_wheel command =>
    simp only [World.call, Except.ok.injEq] at hcall
    subst hcall
    refine ⟨h.1, fun b hb => ?_⟩
    simp only [World.bind_command_to_mouse_wheel] at hb
    rcases List.mem_append.mp hb with hb | hb
    · exact h.2 b hb
    · rw [List.mem_singleton.mp hb]
      exact hcommand
  | bind_command_to_mouse_motion command =>
    simp only [World.call, Except.ok.injEq] at hcall
    subst hcall
    exact push_mouse_binding_bound w command _ hcommand h
  | bind_command_to_mouse_drag command button =>
    simp only [World.call, Except.ok.injEq] at hcall
    subst hcall
    exact push_mouse_binding_bound w command _ hcommand h
  | remove_command_binding binding_id =>
    simp only [World.call, Except.ok.injEq] at hcall
    subst hcall
    exact ⟨fun b hb => h.1 b (List.mem_of_mem_filter hb),
      fun b hb => h.2 b (List.mem_of_mem_filter hb)⟩
  | on_key code modifier_mask pressed =>
    have hf := (on_key_loop_quiet env _ _ _ _ _ _ _ hcall).1
    have hm := frame_m_mouse_bindings hf
    have hw := frame_m_mouse_wheel_bindings hf
    exact commands_bound_of_perm w w1 (List.Perm.of_eq hm) hw h
  | on_mouse_move x y =>
    have hs := on_mouse_move_loop_step env _ _ _ _ hcall
    have hm := frame_m_mouse_bindings hs.1
    have hw := frame_m_mouse_wheel_bindings hs.1
    exact commands_bound_of_perm w w1 (List.Perm.of_eq hm) hw h
  | on_mouse_click button count =>
    simp only [World.call, World.on_mouse_click] at hcall
    rcases sort_mouse_bindings_cases env w with hs | ⟨sorted, hperm, hs⟩
    · rw [hs] at hcall
      cases hcall
    · rw [hs] at hcall
      simp only [] at hcall
      have hstep := on_mouse_click_loop_step env _ _ _ _ _ _ hcall
      have hm := frame_m_mouse_bindings hstep.1
      have hw := frame_m_mouse_wheel_bindings hstep.1
      exact commands_bound_of_perm w w1 ((List.Perm.of_eq hm).trans hperm) hw h
  | on_mouse_wheel x y =>
    simp only [World.call, World.on_mouse_wheel] at hcall
    rcases sort_mouse_bindings_cases env w with hs | ⟨sorted, hperm, hs⟩
    · rw [hs] at hcall
      cases hcall
    · rw [hs] at hcall
      simp only [] at hcall
      have hstep := on_mouse_wheel_loop_quiet env _ _ _ _ hcall
      have hm := frame_m_mouse_bindings hstep.1
      have hw := frame_m_mouse_wheel_bindings hstep.1
      exact commands_bound_of_perm w w1 ((List.Perm.of_eq hm).trans hperm) hw h

theorem run_commands_bound (env : Env) (calls : List Call) (w : World)
    (hcommands : ∀ call ∈ calls, call.has_command = true) (h : w.commands_bound) :
    World.run env calls w ≠ Except.error Failure.verify_command_not_null ∧
      ∀ w1, World.run env calls w = Except.ok w1 → w1.commands_bound := by
  induction calls generalizing w with
  | nil =>
    refine ⟨by simp [World.run], fun w1 h1 => ?_⟩
    simp only [World.run, Except.ok.injEq] at h1
    subst h1
    exact h
  | cons call rest ih =>
    have hrest : ∀ k ∈ rest, k.has_command = true :=
      fun k hk => hcommands k (List.mem_cons_of_mem _ hk)
    simp only [World.run]
    cases hc : w.call env call with
    | error e =>
      simp only []
      refine ⟨fun he => ?_, fun w1 h1 => by cases h1⟩
      cases he
      exact call_not_null env w call h hc
    | ok w2 =>
      simp only []
      exact ih w2 hrest
        (call_commands_bound env w w2 call (hcommands call (List.mem_cons_self _ _)) hc h)

/-- C17: when every call that makes a mouse or wheel binding passes a non-null
command, no sequence of calls on the constructed dispatcher fails a
`command != nullptr` assertion, and in every world it reaches every mouse and
wheel binding has a non-null command.  A dispatch loop that comes to a binding
with a null command aborts there, before that binding is invoked. -/
theorem C17_commands_never_null (env : Env) (command_state : Cmd → State) (first_id : Nat)
    (cursor : dvec2) (calls : List Call)
    (hcommands : ∀ call ∈ calls, call.has_command = true) :
    World.run env calls (World.initial command_state first_id cursor) ≠
        Except.error Failure.verify_command_not_null ∧
      (∀ w, World.run env calls (World.initial command_state first_id cursor) = Except.ok w →
        w.commands_bound) ∧
      (∀ (b : Mouse_binding) (rest : List Mouse_binding) (context : Command_context)
          (button : Mouse_button) (count : Int) (v : World), b.m_command = none →
        on_mouse_click_loop env context button count (b :: rest) v =
            Except.error Failure.verify_command_not_null ∧
          on_mouse_move_loop env context (b :: rest) v =
            Except.error Failure.verify_command_not_null) ∧
      (∀ (b : Mouse_wheel_binding) (rest : List Mouse_wheel_binding)
          (context : Command_context) (v : World), b.m_command = none →
        on_mouse_wheel_loop env context (b :: rest) v =
          Except.error Failure.verify_command_not_null) := by
  have hinit : (World.initial command_state first_id cursor).commands_bound :=
    ⟨fun b hb => by simp [World.initial] at hb, fun b hb => by simp [World.initial] at hb⟩
  obtain ⟨h1, h2⟩ := run_commands_bound env calls _ hcommands hinit
  refine ⟨h1, h2, ?_, ?_⟩
  · intro b rest context button count v hnull
    exact ⟨by simp [on_mouse_click_loop, hnull], by simp [on_mouse_move_loop, hnull]⟩
  · intro b rest context v hnull
    simp [on_mouse_wheel_loop, hnull]

/-- Witness of C17: the calls of the map editor with a drag, a removal and a
wheel event all pass non-null commands. -/
theorem C17_commands_never_null_witness :
    (∀ call ∈ bound_calls, call.has_command = true) ∧
      World.run map_editor_env bound_calls (World.initial (fun _ => State.Inactive) 1 ⟨0, 0⟩) ≠
        Except.error Failure.verify_command_not_null :=
  ⟨by decide,
    (C17_commands_never_null map_editor_env (fun _ => State.Inactive) 1 ⟨0, 0⟩ bound_calls
      (by decide)).1⟩

/-! ## C14: motion bindings and consumption -/

theorem count_try_call_of_ops (c c1 : Cmd) (ops : List Op) :
    (ops_entries c ops).count (Entry.try_call c1) = 0 := by
  apply List.count_eq_zero_of_not_mem
  intro hmem
  have hfilter := ops_entries_no_try_call c ops
  have : Entry.try_call c1 ∈ (ops_entries c ops).filter Entry.is_try_call :=
    List.mem_filter.mpr ⟨hmem, rfl⟩
  rw [hfilter] at this
  cases this

theorem filter_on_motion_of_ops (c : Cmd) (ops : List Op) :
    (ops_entries c ops).filter Entry.is_on_motion = [] := by
  induction ops with
  | nil => rfl
  | cons op rest ih =>
    cases op <;> simp [ops_entries, Op.entries, Entry.is_on_motion, ih]

/-- The trace of `on_motion`: the evaluation of the binding, then, when it
forwards, one `try_call` of its command and the state calls of that. -/
theorem on_motion_trace (env : Env) (b : Mouse_binding) (c : Cmd) (context : Command_context)
    (w : World) (hc : b.m_command = some c) :
    ∃ tail, (b.on_motion env c context w).1.log = w.log ++ Entry.on_motion b.m_id :: tail ∧
      tail.filter Entry.is_on_motion = [] ∧
      (∀ e ∈ tail, Entry.is_dispatcher e = false) ∧
      (∀ c1, (if b.is_motion_of c1 = true then 1 else 0) ≤ tail.count (Entry.try_call c1)) ∧
      (∀ c1, tail.count (Entry.try_call c1) ≤ if b.may_forward_to c1 = true then 1 else 0) := by
  have hforward : ∀ v : World, v.log = w.log ++ [Entry.on_motion b.m_id] →
      ∃ tail, (Command.try_call env c context v).1.log =
          w.log ++ Entry.on_motion b.m_id :: tail ∧
        tail.filter Entry.is_on_motion = [] ∧
        (∀ e ∈ tail, Entry.is_dispatcher e = false) ∧
        ∀ c1, tail.count (Entry.try_call c1) = if c = c1 then 1 else 0 := by
    intro v hv
    refine ⟨Entry.try_call c :: ops_entries c (env.try_call c context v).1, ?_, ?_, ?_, ?_⟩
    · rw [try_call_log, hv]
      simp
    · simp [List.filter_cons, Entry.is_on_motion, filter_on_motion_of_ops]
    · obtain ⟨t, ht, hdisp⟩ := try_call_callback env c context v
      rw [try_call_log] at ht
      have := List.append_cancel_left ht
      rw [this]
      exact hdisp
    · intro c1
      rw [List.count_cons, count_try_call_of_ops]
      by_cases h : c = c1
      · subst h
        simp
      · simp [h]
  have hquiet : ∃ tail, (w.logged (Entry.on_motion b.m_id), false).1.log =
        w.log ++ Entry.on_motion b.m_id :: tail ∧
      tail.filter Entry.is_on_motion = [] ∧
      (∀ e ∈ tail, Entry.is_dispatcher e = false) ∧
      ∀ c1, tail.count (Entry.try_call c1) = 0 :=
    ⟨[], rfl, rfl, by simp, by simp⟩
  cases hk : b.kind with
  | click m =>
    obtain ⟨tail, hlog, hf, hd, hcount⟩ := hquiet
    refine ⟨tail, ?_, hf, hd, fun c1 => ?_, fun c1 => ?_⟩
    · simp only [Mouse_binding.on_motion, hk]
      exact hlog
    · simp [Mouse_binding.is_motion_of, hk]
    · rw [hcount]
      exact Nat.zero_le _
  | motion =>
    obtain ⟨tail, hlog, hf, hd, hcount⟩ := hforward (w.logged (Entry.on_motion b.m_id)) rfl
    refine ⟨tail, ?_, hf, hd, fun c1 => ?_, fun c1 => ?_⟩
    · simp only [Mouse_binding.on_motion, hk]
      exact hlog
    · rw [hcount]
      by_cases h : c = c1 <;> simp [Mouse_binding.is_motion_of, hk, hc, h]
    · rw [hcount]
      by_cases h : c = c1 <;> simp [Mouse_binding.may_forward_to, hk, hc, h]
  | drag m =>
    by_cases hst : (w.logged (Entry.on_motion b.m_id)).command_state c = State.Ready ∨
        (w.logged (Entry.on_motion b.m_id)).command_state c = State.Active
    · obtain ⟨tail, hlog, hf, hd, hcount⟩ := hforward (w.logged (Entry.on_motion b.m_id)) rfl
      refine ⟨tail, ?_, hf, hd, fun c1 => ?_, fun c1 => ?_⟩
      · simp only [Mouse_binding.on_motion, hk]
        rw [if_pos hst]
        exact hlog
      · simp [Mouse_binding.is_motion_of, hk]
      · rw [hcount]
        by_cases h : c = c1 <;> simp [Mouse_binding.may_forward_to, hk, hc, h]
    · obtain ⟨tail, hlog, hf, hd, hcount⟩ := hquiet
      refine ⟨tail, ?_, hf, hd, fun c1 => ?_, fun c1 => ?_⟩
      · simp only [Mouse_binding.on_motion, hk]
        rw [if_neg hst]
        exact hlog
      · simp [Mouse_binding.is_motion_of, hk]
      · rw [hcount]
        exact Nat.zero_le _

theorem swept_no_try_call (swept : List Entry) (c1 : Cmd)
    (h : ∀ e ∈ swept, ∃ x, e = Entry.set_inactive x ∨ e = Entry.on_inactive x) :
    swept.count (Entry.try_call c1) = 0 := by
  apply List.count_eq_zero_of_not_mem
  intro hmem
  obtain ⟨x, hx | hx⟩ := h _ hmem <;> cases hx

theorem filter_on_motion_of_swept (swept : List Entry)
    (h : ∀ e ∈ swept, ∃ x, e = Entry.set_inactive x ∨ e = Entry.on_inactive x) :
    swept.filter Entry.is_on_motion = [] := by
  rw [List.filter_eq_nil_iff]
  intro e he
  obtain ⟨x, hx | hx⟩ := h e he <;> simp [hx, Entry.is_on_motion]

/-- The trace of the motion loop: the bindings evaluated are a front part of the
list; the loop stops before the end of the list only after a binding consumed;
each motion binding evaluated invokes `try_call` of its command once, each drag
binding at most once, a click binding never. -/
theorem on_mouse_move_loop_trace (env : Env) (context : Command_context)
    (l : List Mouse_binding) (w w1 : World)
    (h : on_mouse_move_loop env context l w = Except.ok w1) :
    ∃ evaluated rest added, l = evaluated ++ rest ∧ w1.log = w.log ++ added ∧
      added.filter Entry.is_on_motion = evaluated.map (fun b => Entry.on_motion b.m_id) ∧
      (∀ c, evaluated.countP (fun b => b.is_motion_of c) ≤ added.count (Entry.try_call c)) ∧
      (∀ c, added.count (Entry.try_call c) ≤ evaluated.countP (fun b => b.may_forward_to c)) ∧
      (rest ≠ [] → ∃ c, Entry.update_active_mouse_command c ∈ added) ∧
      ((∀ e ∈ added, Entry.is_dispatcher e = false) → rest = []) := by
  induction l generalizing w with
  | nil =>
    simp only [on_mouse_move_loop] at h
    cases h
    exact ⟨[], [], [], rfl, by simp, rfl, by simp, by simp, by simp, by simp⟩
  | cons b more ih =>
    cases hc : b.m_command with
    | none => simp [on_mouse_move_loop, hc] at h
    | some c =>
      simp only [on_mouse_move_loop, hc] at h
      obtain ⟨tail, hlog, hfm, hdisp, hlow, hup⟩ := on_motion_trace env b c context w hc
      split_ifs at h with hcons
      · obtain ⟨swept, hlog2, hswept⟩ := update_active_mouse_command_trace _ w1 c h
        refine ⟨[b], more, Entry.on_motion b.m_id :: tail ++
          Entry.update_active_mouse_command c :: Entry.inactivate_ready_commands :: swept,
          rfl, ?_, ?_, ?_, ?_, ?_, ?_⟩
        · rw [hlog2, hlog]
          simp
        · simp [List.filter_cons, Entry.is_on_motion, hfm,
            filter_on_motion_of_swept swept hswept]
        · intro c1
          have h1 := hlow c1
          simp only [List.countP_cons, List.countP_nil, Nat.zero_add, List.cons_append,
            List.count_cons, List.count_append, swept_no_try_call swept c1 hswept]
          simp only [reduceCtorEq, beq_iff_eq, if_false, Nat.add_zero]
          exact h1
        · intro c1
          have h1 := hup c1
          simp only [List.countP_cons, List.countP_nil, Nat.zero_add, List.cons_append,
            List.count_cons, List.count_append, swept_no_try_call swept c1 hswept]
          simp only [reduceCtorEq, beq_iff_eq, if_false, Nat.add_zero]
          exact h1
        · intro _
          exact ⟨c, by simp⟩
        · intro hnone
          have := hnone (Entry.update_active_mouse_command c) (by simp)
          cases this
      · obtain ⟨evaluated, rest, added, hl, hlog2, hfilter, hlow2, hup2, hstop, hall⟩ := ih _ h
        refine ⟨b :: evaluated, rest, Entry.on_motion b.m_id :: tail ++ added, ?_, ?_, ?_, ?_,
          ?_, ?_, ?_⟩
        · rw [hl]
          rfl
        · rw [hlog2, hlog]
          simp
        · simp [List.filter_cons, Entry.is_on_motion, hfm, hfilter]
        · intro c1
          have h1 := hlow c1
          have h2 := hlow2 c1
          simp only [List.countP_cons, List.cons_append, List.count_cons, List.count_append]
          simp only [reduceCtorEq, beq_iff_eq, if_false, Nat.add_zero]
          omega
        · intro c1
          have h1 := hup c1
          have h2 := hup2 c1
          simp only [List.countP_cons, List.cons_append, List.count_cons, List.count_append]
          simp only [reduceCtorEq, beq_iff_eq, if_false, Nat.add_zero]
          omega
        · intro hrest
          obtain ⟨cu, hcu⟩ := hstop hrest
          exact ⟨cu, by simp [hcu]⟩
        · intro hnone
          exact hall (fun e he => hnone e (by simp [he]))

/-- Counterexample to C14: in the map editor, at the first motion of a second
drag the drag binding of the brush command is stored before the motion binding
of the hover command; it consumes the motion, the loop stops, and `try_call` of
the hover command is not invoked for this `on_mouse_move`. -/
theorem C14_hover_not_invoked :
    (World.run_or map_editor_env second_drag_calls start_world).g_commands.m_mouse_bindings =
        [⟨some brush_command, 2, Mouse_kind.drag 0⟩,
          ⟨some hover_command, 1, Mouse_kind.motion⟩] ∧
      ∃ w1, (World.run_or map_editor_env second_drag_calls start_world).on_mouse_move
          map_editor_env 2 2 = Except.ok w1 ∧
        w1.log = (World.run_or map_editor_env second_drag_calls start_world).log ++
          [Entry.on_motion 2, Entry.try_call brush_command, Entry.set_active brush_command,
            Entry.update_active_mouse_command brush_command,
            Entry.inactivate_ready_commands] :=
  ⟨rfl, _, rfl, rfl⟩

/-! ## C16: Disabled commands -/

theorem call_ops_activations_other (c c1 : Cmd) (hne : c ≠ c1) (ops : List Op) (v : World) :
    (Command.call_ops c1 ops v).activations c = v.activations c := by
  induction ops generalizing v with
  | nil => rfl
  | cons op rest ih =>
    show (Command.call_ops c1 rest (Command.call_op c1 v op)).activations c = _
    rw [ih]
    cases op with
    | set_ready => exact activations_of_log v _ c [Entry.set_ready c1] rfl (by simp)
    | set_active =>
      refine activations_of_log v _ c [Entry.set_active c1] rfl ?_
      simp only [List.mem_singleton, Entry.set_active.injEq]
      exact hne
    | set_inactive =>
      exact activations_of_log v _ c [Entry.set_inactive c1, Entry.on_inactive c1]
        (by simp [Command.call_op, Command.set_inactive, World.set_state, World.logged])
        (by simp)

theorem try_call_activations_other (env : Env) (c c1 : Cmd) (hne : c ≠ c1)
    (context : Command_context) (v : World) :
    (Command.try_call env c1 context v).1.activations c = v.activations c := by
  unfold Command.try_call
  simp only []
  rw [call_ops_activations_other c c1 hne, activations_logged _ c _ (by simp)]

theorem call_ops_ready_only (c : Cmd) (ops : List Op) (v : World)
    (hops : Op.set_active ∉ ops) (hst : v.command_state c ≠ State.Active) :
    (Command.call_ops c ops v).command_state c ≠ State.Active ∧
      (Command.call_ops c ops v).activations c = v.activations c := by
  induction ops generalizing v with
  | nil => exact ⟨hst, rfl⟩
  | cons op rest ih =>
    have hrest : Op.set_active ∉ rest := fun h => hops (List.mem_cons_of_mem _ h)
    show (Command.call_ops c rest (Command.call_op c v op)).command_state c ≠ State.Active ∧
      (Command.call_ops c rest (Command.call_op c v op)).activations c = v.activations c
    cases op with
    | set_ready =>
      obtain ⟨h1, h2⟩ := ih (Command.call_op c v Op.set_ready) hrest
        (by simp [Command.call_op, set_ready_state])
      exact ⟨h1, by rw [h2]; exact activations_set_ready v c⟩
    | set_active => exact absurd (List.mem_cons_self _ _) hops
    | set_inactive =>
      obtain ⟨h1, h2⟩ := ih (Command.call_op c v Op.set_inactive) hrest
        (by simp [Command.call_op, set_inactive_state])
      exact ⟨h1, by rw [h2]; exact activations_set_inactive v c⟩

/-- Where `update_active_mouse_command` leaves the slot: claimed by the command,
which is then Active; empty; or as it was. -/
theorem update_active_mouse_command_slot (v v1 : World) (c : Cmd)
    (h : v.update_active_mouse_command c = Except.ok v1) :
    (v1.g_commands.m_active_mouse_command = some c ∧ v1.command_state c = State.Active) ∨
      v1.g_commands.m_active_mouse_command = none ∨
      v1.g_commands.m_active_mouse_command = v.g_commands.m_active_mouse_command := by
  have hq := quiet_step_trans (logged_quiet v (Entry.update_active_mouse_command c))
    (inactivate_ready_commands_quiet _)
  unfold World.update_active_mouse_command at h
  simp only [] at h
  split_ifs at h with h1 h2 h3
  · cases h
    exact Or.inl ⟨rfl, h1.1⟩
  · cases h
    exact Or.inr (Or.inl rfl)
  · cases h
    rcases hq.2.1 with h4 | h4
    · exact Or.inr (Or.inr h4)
    · exact Or.inr (Or.inl h4)

theorem update_active_mouse_command_ok (v : World) (c : Cmd)
    (hsafe : v.g_commands.m_active_mouse_command = none ∨
      v.g_commands.m_active_mouse_command = some c ∨ v.command_state c ≠ State.Active) :
    ∃ v1, v.update_active_mouse_command c = Except.ok v1 := by
  rcases update_active_mouse_command_cases v c with h1 | h1 | h1 | h1
  · exact ⟨_, h1⟩
  · exact ⟨_, h1⟩
  · exact ⟨_, h1⟩
  · exact absurd h1.1 (update_active_mouse_command_verified v c hsafe)

/-- `update_active_mouse_command` for the click command or the drag command,
while the drag command is not Active and the slot is empty or the click
command's. -/
theorem update_of_pair (x y : Cmd) (hne : x ≠ y) (c1 : Cmd) (hc1 : c1 = x ∨ c1 = y)
    (v : World) (hy : v.command_state y ≠ State.Active)
    (hslot : v.g_commands.m_active_mouse_command = none ∨
      v.g_commands.m_active_mouse_command = some x) :
    ∃ v1, v.update_active_mouse_command c1 = Except.ok v1 ∧
      v1.command_state y ≠ State.Active ∧
      (v1.g_commands.m_active_mouse_command = none ∨
        v1.g_commands.m_active_mouse_command = some x) ∧
      v1.activations y = v.activations y ∧
      ∃ tail, v1.log = v.log ++ tail := by
  have hsafe : v.g_commands.m_active_mouse_command = none ∨
      v.g_commands.m_active_mouse_command = some c1 ∨ v.command_state c1 ≠ State.Active := by
    rcases hc1 with h | h
    · subst h
      rcases hslot with hs | hs
      · exact Or.inl hs
      · exact Or.inr (Or.inl hs)
    · subst h
      exact Or.inr (Or.inr hy)
  obtain ⟨v1, hv1⟩ := update_active_mouse_command_ok v c1 hsafe
  have hst := update_active_mouse_command_state v v1 c1 hv1 y
  have hy1 : v1.command_state y ≠ State.Active := by
    rw [hst]
    split_ifs
    · decide
    · exact hy
  refine ⟨v1, hv1, hy1, ?_, update_active_mouse_command_activations v v1 c1 y hv1,
    (update_active_mouse_command_frame v v1 c1 hv1).2⟩
  rcases update_active_mouse_command_slot v v1 c1 hv1 with ⟨h1, h2⟩ | h1 | h1
  · rcases hc1 with h | h
    · subst h
      exact Or.inr h1
    · subst h
      exact absurd h2 hy1
  · exact Or.inl h1
  · rw [h1]
    exact hslot

theorem slot_pair_of_quiet {v v1 : World} (x : Cmd) (hq : v.quiet_step v1)
    (hslot : v.g_commands.m_active_mouse_command = none ∨
      v.g_commands.m_active_mouse_command = some x) :
    v1.g_commands.m_active_mouse_command = none ∨
      v1.g_commands.m_active_mouse_command = some x := by
  rcases hq.2.1 with h | h
  · rw [h]
    exact hslot
  · exact Or.inl h

/-- The click binding of `x` on its button: `try_call` of `x` is invoked, and
nothing of the other command `y` changes. -/
theorem click_of_pair (env : Env) (x y : Cmd) (hne : x ≠ y) (b : Mouse_binding)
    (button : Mouse_button) (count : Int) (context : Command_context) (v : World)
    (hk : b.kind = Mouse_kind.click button) :
    (b.on_button env x context button count v).1.command_state y = v.command_state y ∧
      (b.on_button env x context button count v).1.activations y = v.activations y ∧
      ∃ added, (b.on_button env x context button count v).1.log = v.log ++ added ∧
        Entry.try_call x ∈ added := by
  have hyx : y ≠ x := fun h => hne h.symm
  refine ⟨on_button_state_other env b x context button count v y hyx, ?_, ?_⟩
  · simp only [Mouse_binding.on_button, hk, if_true]
    split_ifs
    · rw [try_call_activations_other env y x hyx, activations_of_log _ _ y
        [Entry.set_ready x] rfl (by simp), activations_logged _ y _ (by simp)]
    · rw [try_call_activations_other env y x hyx, activations_logged _ y _ (by simp)]
  · simp only [Mouse_binding.on_button, hk, if_true]
    split_ifs
    · refine ⟨[Entry.on_button b.m_id, Entry.set_ready x] ++ Entry.try_call x ::
        ops_entries x (env.try_call x context
          (Command.set_ready x (v.logged (Entry.on_button b.m_id)))).1, ?_, by simp⟩
      rw [try_call_log]
      simp [Command.set_ready, World.set_state, World.logged]
    · refine ⟨[Entry.on_button b.m_id] ++ Entry.try_call x ::
        ops_entries x (env.try_call x context (v.logged (Entry.on_button b.m_id))).1, ?_,
        by simp⟩
      rw [try_call_log]
      simp [World.logged]

/-- The drag binding of `y` on its button, when `try_ready` of `y` never calls
`set_active`: `y` does not become Active, `set_active` is not called on it, and
a press is not consumed. -/
theorem drag_of_pair (env : Env) (y : Cmd) (hready : env.ready_only y) (b : Mouse_binding)
    (button : Mouse_button) (count : Int) (context : Command_context) (v : World)
    (hk : b.kind = Mouse_kind.drag button) (hy : v.command_state y ≠ State.Active) :
    (b.on_button env y context button count v).1.command_state y ≠ State.Active ∧
      (b.on_button env y context button count v).1.activations y = v.activations y ∧
      (env.pressed count = true → (b.on_button env y context button count v).2 = false) := by
  have hy1 : (v.logged (Entry.on_button b.m_id)).command_state y ≠ State.Active := hy
  have ha1 : (v.logged (Entry.on_button b.m_id)).activations y = v.activations y :=
    activations_logged _ y _ (by simp)
  simp only [Mouse_binding.on_button, hk, if_true]
  by_cases hp : env.pressed count = true
  · simp only [hp, if_true]
    split_ifs
    · have hy2 : ((v.logged (Entry.on_button b.m_id)).logged (Entry.try_ready y)
          ).command_state y ≠ State.Active := hy
      obtain ⟨h1, h2⟩ := call_ops_ready_only y
        (env.try_ready y context (v.logged (Entry.on_button b.m_id)))
        ((v.logged (Entry.on_button b.m_id)).logged (Entry.try_ready y))
        (hready context _) hy2
      refine ⟨h1, ?_, fun _ => rfl⟩
      show (Command.call_ops y _ _).activations y = _
      rw [h2, activations_logged _ y _ (by simp), ha1]
    · exact ⟨hy1, ha1, fun _ => rfl⟩
  · rw [if_neg hp]
    split_ifs
    · refine ⟨by simp [set_inactive_state], ?_, fun h => absurd h hp⟩
      show (Command.set_inactive y _).activations y = _
      rw [activations_set_inactive, ha1]
    · exact ⟨hy1, ha1, fun h => absurd h hp⟩

/-- The click loop over click bindings of `x` and drag bindings of `y`: it
returns, `y` is never made Active, and on a press `try_call` of `x` is invoked
when `x` has a binding in the list. -/
theorem click_loop_of_pair (env : Env) (x y : Cmd) (hne : x ≠ y) (hready : env.ready_only y)
    (button : Mouse_button) (count : Int) (context : Command_context)
    (l : List Mouse_binding) (htable : click_drag_table x y button l) (v : World)
    (hy : v.command_state y ≠ State.Active)
    (hslot : v.g_commands.m_active_mouse_command = none ∨
      v.g_commands.m_active_mouse_command = some x) :
    ∃ v1 added, on_mouse_click_loop env context button count l v = Except.ok v1 ∧
      v1.command_state y ≠ State.Active ∧
      (v1.g_commands.m_active_mouse_command = none ∨
        v1.g_commands.m_active_mouse_command = some x) ∧
      v1.activations y = v.activations y ∧
      v1.log = v.log ++ added ∧
      (env.pressed count = true → (∃ b ∈ l, b.m_command = some x) →
        Entry.try_call x ∈ added) := by
  induction l generalizing v with
  | nil =>
    refine ⟨v, [], rfl, hy, hslot, rfl, by simp, ?_⟩
    rintro - ⟨b, hb, -⟩
    cases hb
  | cons b rest ih =>
    have hrest : click_drag_table x y button rest :=
      fun k hk => htable k (List.mem_cons_of_mem _ hk)
    rcases htable b (List.mem_cons_self _ _) with ⟨hc, hk⟩ | ⟨hc, hk⟩
    · obtain ⟨hst, hact, added1, hlog1, hfire⟩ :=
        click_of_pair env x y hne b button count context v hk
      have hq := on_button_quiet env b x context button count v
      have hy1 : (b.on_button env x context button count v).1.command_state y ≠ State.Active := by
        rw [hst]
        exact hy
      have hslot1 := slot_pair_of_quiet x hq hslot
      simp only [on_mouse_click_loop, hc]
      split_ifs
      · obtain ⟨v1, hv1, hy2, hslot2, hact2, tail, hlog2⟩ :=
          update_of_pair x y hne x (Or.inl rfl) _ hy1 hslot1
        refine ⟨v1, added1 ++ tail, hv1, hy2, hslot2, by rw [hact2, hact], ?_, ?_⟩
        · rw [hlog2, hlog1, List.append_assoc]
        · intro _ _
          exact List.mem_append_left _ hfire
      · obtain ⟨v1, added2, hv1, hy2, hslot2, hact2, hlog2, -⟩ := ih hrest _ hy1 hslot1
        refine ⟨v1, added1 ++ added2, hv1, hy2, hslot2, by rw [hact2, hact], ?_, ?_⟩
        · rw [hlog2, hlog1, List.append_assoc]
        · intro _ _
          exact List.mem_append_left _ hfire
    · obtain ⟨hy1, hact, hnot⟩ := drag_of_pair env y hready b button count context v hk hy
      have hq := on_button_quiet env b y context button count v
      have hslot1 := slot_pair_of_quiet x hq hslot
      obtain ⟨added1, hlog1⟩ := hq.2.2
      simp only [on_mouse_click_loop, hc]
      split_ifs with hcons
      · obtain ⟨v1, hv1, hy2, hslot2, hact2, tail, hlog2⟩ :=
          update_of_pair x y hne y (Or.inr rfl) _ hy1 hslot1
        refine ⟨v1, added1 ++ tail, hv1, hy2, hslot2, by rw [hact2, hact], ?_, ?_⟩
        · rw [hlog2, hlog1, List.append_assoc]
        · intro hp _
          rw [hnot hp] at hcons
          cases hcons
      · obtain ⟨v1, added2, hv1, hy2, hslot2, hact2, hlog2, hfire⟩ := ih hrest _ hy1 hslot1
        refine ⟨v1, added1 ++ added2, hv1, hy2, hslot2, by rw [hact2, hact], ?_, ?_⟩
        · rw [hlog2, hlog1, List.append_assoc]
        · intro hp hex
          refine List.mem_append_right _ (hfire hp ?_)
          obtain ⟨k, hk1, hk2⟩ := hex
          rcases List.mem_cons.mp hk1 with hkb | hkr
          · subst hkb
            rw [hc] at hk2
            exact absurd (Option.some.inj hk2).symm hne
          · exact ⟨k, hkr, hk2⟩

theorem click_event_of_pair (env : Env) (x y : Cmd) (hne : x ≠ y) (hready : env.ready_only y)
    (button : Mouse_button) (count : Int) (v : World)
    (htable : click_drag_table x y button v.g_commands.m_mouse_bindings)
    (hy : v.command_state y ≠ State.Active)
    (hslot : v.g_commands.m_active_mouse_command = none ∨
      v.g_commands.m_active_mouse_command = some x) :
    ∃ v1 added, v.on_mouse_click env button count = Except.ok v1 ∧
      v1.command_state y ≠ State.Active ∧
      (v1.g_commands.m_active_mouse_command = none ∨
        v1.g_commands.m_active_mouse_command = some x) ∧
      v1.activations y = v.activations y ∧
      v1.log = v.log ++ added ∧
      click_drag_table x y button v1.g_commands.m_mouse_bindings ∧
      (env.pressed count = true →
        (∃ b ∈ v.g_commands.m_mouse_bindings, b.m_command = some x) →
        Entry.try_call x ∈ added) := by
  have hsome : ∀ b ∈ v.g_commands.m_mouse_bindings, b.m_command.isSome = true := by
    intro b hb
    rcases htable b hb with ⟨hc, -⟩ | ⟨hc, -⟩ <;> rw [hc] <;> rfl
  obtain ⟨sorted, hperm, hsort⟩ := sort_mouse_bindings_ok env v hsome
  have htable1 : click_drag_table x y button sorted :=
    fun b hb => htable b (hperm.mem_iff.mp hb)
  obtain ⟨v1, added, hv1, hy1, hslot1, hact, hlog, hfire⟩ := click_loop_of_pair env x y hne
    hready button count ⟨v.g_commands.m_last_mouse_position, ⟨0, 0⟩⟩ sorted htable1
    { v with g_commands := { v.g_commands with m_mouse_bindings := sorted } } hy hslot
  have hframe := (on_mouse_click_loop_step env _ _ _ _ _ _ hv1).1
  have hb := frame_m_mouse_bindings hframe
  refine ⟨v1, added, ?_, hy1, hslot1, hact, hlog, ?_, ?_⟩
  · unfold World.on_mouse_click
    rw [hsort]
    exact hv1
  · rw [hb]
    exact htable1
  · intro hp hex
    obtain ⟨b, hb1, hb2⟩ := hex
    exact hfire hp ⟨b, hperm.mem_iff.mpr hb1, hb2⟩

theorem not_mem_of_activations (v v1 : World) (c : Cmd) (added : List Entry)
    (hlog : v1.log = v.log ++ added) (hact : v1.activations c = v.activations c) :
    Entry.set_active c ∉ added := by
  unfold World.activations at hact
  rw [hlog, List.count_append] at hact
  have hzero : added.count (Entry.set_active c) = 0 := by omega
  exact List.count_eq_zero.mp hzero

/-- Counterexample to C12: in the eager environment `try_ready` calls
`set_active`; with command 3 on a click binding and command 4 on a drag binding
of button 0, the press of button 0 leaves command 4 Active. -/
theorem C12_drag_command_active_on_press :
    ∃ w1, (World.run_or eager_env click_drag_calls start_world).on_mouse_click eager_env 0 1 =
        Except.ok w1 ∧
      w1.command_state 4 = State.Active :=
  ⟨_, rfl, rfl⟩

/-- C12 (amended): with click bindings of X and drag bindings of a different
command Y on button B, in any order, Y not Active, the slot empty, and a
`try_ready` of Y that never calls `set_active`: the press of B returns and
invokes `try_call` of X, the click of B that follows (the release) returns, Y is
not Active after either, and `set_active` is called on Y at no point of the two
events. -/
theorem C12_click_and_drag (env : Env) (x y : Cmd) (button : Mouse_button)
    (press_count release_count : Int) (w : World) (hne : x ≠ y)
    (hready : env.ready_only y) (hpress : env.pressed press_count = true)
    (htable : click_drag_table x y button w.g_commands.m_mouse_bindings)
    (hclick : ∃ b ∈ w.g_commands.m_mouse_bindings, b.m_command = some x)
    (hy : w.command_state y ≠ State.Active)
    (hslot : w.g_commands.m_active_mouse_command = none) :
    ∃ w1 w2 on_press on_release,
      w.on_mouse_click env button press_count = Except.ok w1 ∧
      w1.log = w.log ++ on_press ∧
      Entry.try_call x ∈ on_press ∧
      w1.command_state y ≠ State.Active ∧
      w1.on_mouse_click env button release_count = Except.ok w2 ∧
      w2.log = w1.log ++ on_release ∧
      w2.command_state y ≠ State.Active ∧
      Entry.set_active y ∉ on_press ++ on_release := by
  obtain ⟨w1, on_press, hw1, hy1, hslot1, hact1, hlog1, htable1, hfire⟩ :=
    click_event_of_pair env x y hne hready button press_count w htable hy (Or.inl hslot)
  obtain ⟨w2, on_release, hw2, hy2, -, hact2, hlog2, -, -⟩ :=
    click_event_of_pair env x y hne hready button release_count w1 htable1 hy1 hslot1
  refine ⟨w1, w2, on_press, on_release, hw1, hlog1, hfire hpress hclick, hy1, hw2, hlog2, hy2,
    ?_⟩
  intro hmem
  rcases List.mem_append.mp hmem with h | h
  · exact not_mem_of_activations w w1 y on_press hlog1 hact1 h
  · exact not_mem_of_activations w1 w2 y on_release hlog2 hact2 h

theorem map_editor_env_ready_only : map_editor_env.ready_only brush_command := by
  intro context w
  rw [map_editor_env_is_brush.2 context w]
  unfold Map_primary_brush_command.try_ready
  split_ifs <;> simp

/-- Witness of C12 (amended): the hover command on a click binding and the
brush command on a drag binding of the left button. -/
theorem C12_click_and_drag_witness :
    ∃ w1 w2 on_press on_release,
      (World.run_or map_editor_env hover_click_calls start_world).on_mouse_click
        map_editor_env 0 1 = Except.ok w1 ∧
      w1.log = (World.run_or map_editor_env hover_click_calls start_world).log ++ on_press ∧
      Entry.try_call hover_command ∈ on_press ∧
      w1.command_state brush_command ≠ State.Active ∧
      w1.on_mouse_click map_editor_env 0 0 = Except.ok w2 ∧
      w2.log = w1.log ++ on_release ∧
      w2.command_state brush_command ≠ State.Active ∧
      Entry.set_active brush_command ∉ on_press ++ on_release :=
  C12_click_and_drag map_editor_env hover_command brush_command 0 1 0
    (World.run_or map_editor_env hover_click_calls start_world) (by decide)
    map_editor_env_ready_only (by decide)
    (by
      intro b hb
      have hlist : (World.run_or map_editor_env hover_click_calls start_world
          ).g_commands.m_mouse_bindings =
          [⟨some hover_command, 1, Mouse_kind.click 0⟩,
            ⟨some brush_command, 2, Mouse_kind.drag 0⟩] := rfl
      rw [hlist] at hb
      simp only [List.mem_cons, List.mem_singleton, List.not_mem_nil, or_false] at hb
      rcases hb with hb | hb
      · subst hb
        exact Or.inl ⟨rfl, rfl⟩
      · subst hb
        exact Or.inr ⟨rfl, rfl⟩)
    ⟨⟨some hover_command, 1, Mouse_kind.click 0⟩, by decide, rfl⟩ (by decide) rfl

/-! ## The notification of `set_inactive` -/

/-- C25: `command_inactivated(c)` empties the slot when the slot holds `c`,
leaves the slot as it is when it holds another command or is empty, and changes
no binding table, not the list of registered commands, no stored mouse value
and not the input sink. -/
theorem C25_command_inactivated_frame (g : Commands) (command : Option Cmd) :
    (g.m_active_mouse_command = command →
      (g.command_inactivated command).m_active_mouse_command = none) ∧
    (g.m_active_mouse_command ≠ command →
      (g.command_inactivated command).m_active_mouse_command = g.m_active_mouse_command) ∧
    (g.m_active_mouse_command = none →
      (g.command_inactivated command).m_active_mouse_command = none) ∧
    (g.command_inactivated command).m_key_bindings = g.m_key_bindings ∧
    (g.command_inactivated command).m_mouse_bindings = g.m_mouse_bindings ∧
    (g.command_inactivated command).m_mouse_wheel_bindings = g.m_mouse_wheel_bindings ∧
    (g.command_inactivated command).m_commands = g.m_commands ∧
    (g.command_inactivated command).m_last_mouse_position = g.m_last_mouse_position ∧
    (g.command_inactivated command).m_last_mouse_position_delta =
      g.m_last_mouse_position_delta ∧
    (g.command_inactivated command).m_last_mouse_wheel_delta = g.m_last_mouse_wheel_delta ∧
    (g.command_inactivated command).m_mouse_input_sink = g.m_mouse_input_sink := by
  unfold Commands.command_inactivated
  by_cases h : g.m_active_mouse_command = command
  · rw [if_pos h]
    exact ⟨fun _ => rfl, fun hne => absurd h hne, fun _ => rfl, rfl, rfl, rfl, rfl, rfl, rfl,
      rfl, rfl⟩
  · rw [if_neg h]
    exact ⟨fun heq => absurd heq h, fun _ => rfl, fun hnone => hnone, rfl, rfl, rfl, rfl, rfl,
      rfl, rfl, rfl⟩

/-! ## The stored mouse values -/

/-- C29: after an `on_mouse_move(x, y)` that returns, `last_mouse_position()`
is `(x, y)`, `last_mouse_position_delta()` is the previous position minus
`(x, y)`, componentwise, `last_mouse_wheel_delta()` is what it was, and the
bindings were evaluated with these two vectors as the absolute and the relative
value of the context. -/
theorem C29_on_mouse_move_position (env : Env) (w w1 : World) (x y : Int)
    (h : w.on_mouse_move env x y = Except.ok w1) :
    w1.g_commands.last_mouse_position = ⟨x, y⟩ ∧
    w1.g_commands.last_mouse_position_delta =
      ⟨w.g_commands.last_mouse_position.x - x, w.g_commands.last_mouse_position.y - y⟩ ∧
    w1.g_commands.last_mouse_wheel_delta = w.g_commands.last_mouse_wheel_delta ∧
    ∃ v : World,
      on_mouse_move_loop env
        ⟨w1.g_commands.last_mouse_position, w1.g_commands.last_mouse_position_delta⟩
        w.g_commands.m_mouse_bindings v = Except.ok w1 ∧
      v.command_state = w.command_state ∧ v.log = w.log ∧
      v.g_commands.m_active_mouse_command = w.g_commands.m_active_mouse_command := by
  unfold World.on_mouse_move at h
  have hframe := (on_mouse_move_loop_step env _ _ _ _ h).1
  unfold World.frame at hframe
  simp only [Prod.mk.injEq] at hframe
  obtain ⟨-, hpos, hdelta, hwheel, -⟩ := hframe
  have hpos1 : w1.g_commands.last_mouse_position = ⟨x, y⟩ := hpos
  have hdelta1 : w1.g_commands.last_mouse_position_delta =
      ⟨w.g_commands.last_mouse_position.x - x, w.g_commands.last_mouse_position.y - y⟩ :=
    hdelta
  refine ⟨hpos1, hdelta1, hwheel, ?_⟩
  rw [hpos1, hdelta1]
  exact ⟨_, h, rfl, rfl, rfl⟩

/-- Witness of C29: in the map editor with the brush command armed, the mouse
moves from the origin to (3, 4). -/
theorem C29_on_mouse_move_position_witness :
    ∃ w1, (World.run_or map_editor_env armed_calls start_world).on_mouse_move
        map_editor_env 3 4 = Except.ok w1 ∧
      w1.g_commands.last_mouse_position = ⟨3, 4⟩ ∧
      w1.g_commands.last_mouse_position_delta = ⟨-3, -4⟩ ∧
      w1.g_commands.last_mouse_wheel_delta = ⟨0, 0⟩ :=
  ⟨_, rfl,
    (C29_on_mouse_move_position map_editor_env
      (World.run_or map_editor_env armed_calls start_world) _ 3 4 rfl).1,
    rfl, rfl⟩

/-! ## The buffer size of an image -/

theorem size_t_cast_of_int32 (v : Int) (h1 : 1 ≤ v) (h2 : v < 2 ^ 31) :
    size_t_cast v = v.toNat ∧ v.toNat < 2 ^ 31 := by
  unfold size_t_cast
  have h3 : v % 2 ^ 64 = v := Int.emod_eq_of_lt (by omega) (by omega)
  rw [h3]
  exact ⟨rfl, by omega⟩

theorem pixel_size_le (format : Image_format) : pixel_size format ≤ 4 := by
  unfold pixel_size
  split_ifs <;> omega

/-- C30: for an `Image_info` whose width and height are 32-bit ints of at
least 1, `get_buffer_size` returns width * height * bpp exactly, no
multiplication wrapping around in the 64-bit `size_t`, where bpp is 3 for
srgb8, 4 for srgb8_alpha8 and 0 for every other format value. -/
theorem C30_get_buffer_size (info : Image_info)
    (hwidth : 1 ≤ info.width) (hwidth32 : info.width < 2 ^ 31)
    (hheight : 1 ≤ info.height) (hheight32 : info.height < 2 ^ 31) :
    get_buffer_size info =
        some (info.width.toNat * info.height.toNat * pixel_size info.format) ∧
      info.width.toNat * info.height.toNat * pixel_size info.format < 2 ^ 64 ∧
      (info.format = Image_format.srgb8 → pixel_size info.format = 3) ∧
      (info.format = Image_format.srgb8_alpha8 → pixel_size info.format = 4) ∧
      (info.format ≠ Image_format.srgb8 → info.format ≠ Image_format.srgb8_alpha8 →
        pixel_size info.format = 0 ∧ get_buffer_size info = some 0) := by
  obtain ⟨hw, hwlt⟩ := size_t_cast_of_int32 info.width hwidth hwidth32
  obtain ⟨hh, hhlt⟩ := size_t_cast_of_int32 info.height hheight hheight32
  have hp := pixel_size_le info.format
  have hprod : info.width.toNat * info.height.toNat < 2 ^ 62 := by
    calc info.width.toNat * info.height.toNat
        < 2 ^ 31 * 2 ^ 31 := Nat.mul_lt_mul'' hwlt hhlt
      _ = 2 ^ 62 := by norm_num
  have hfull : info.width.toNat * info.height.toNat * pixel_size info.format < 2 ^ 64 := by
    calc info.width.toNat * info.height.toNat * pixel_size info.format
        ≤ info.width.toNat * info.height.toNat * 4 := Nat.mul_le_mul_left _ hp
      _ < 2 ^ 62 * 4 := Nat.mul_lt_mul_of_pos_right hprod (by norm_num)
      _ = 2 ^ 64 := by norm_num
  have hvalue : get_buffer_size info =
      some (info.width.toNat * info.height.toNat * pixel_size info.format) := by
    unfold get_buffer_size
    rw [if_pos (show info.width ≥ 1 from hwidth), if_pos (show info.height ≥ 1 from hheight),
      hw, hh, Nat.mod_eq_of_lt (lt_trans hprod (by norm_num)), Nat.mod_eq_of_lt hfull]
  refine ⟨hvalue, hfull, ?_, ?_, ?_⟩
  · intro hf
    unfold pixel_size
    rw [if_pos hf]
  · intro hf
    have hne : ¬ info.format = Image_format.srgb8 := by
      rw [hf]
      decide
    unfold pixel_size
    rw [if_neg hne, if_pos hf]
  · intro h1 h2
    have hzero : pixel_size info.format = 0 := by
      unfold pixel_size
      rw [if_neg h1, if_neg h2]
    refine ⟨hzero, ?_⟩
    rw [hvalue, hzero, Nat.mul_zero]

/-- Witness of C30: the largest 32-bit width and height with four bytes per
pixel. -/
theorem C30_get_buffer_size_witness :
    get_buffer_size ⟨2147483647, 2147483647, 1, 1, 0, Image_format.srgb8_alpha8⟩ =
      some (2147483647 * 2147483647 * 4) :=
  (C30_get_buffer_size ⟨2147483647, 2147483647, 1, 1, 0, Image_format.srgb8_alpha8⟩
    (by norm_num) (by norm_num) (by norm_num) (by norm_num)).1

/-! ## The Ready sweep and the slot update, in full -/

theorem sweep_fold_slot (cs : List Cmd) (acc : World) :
    (cs.foldl
      (fun acc command =>
        if acc.command_state command = State.Ready then Command.set_inactive command acc else acc)
      acc).g_commands.m_active_mouse_command =
      match acc.g_commands.m_active_mouse_command with
      | none => none
      | some d => if d ∈ cs ∧ acc.command_state d = State.Ready then none else some d := by
  induction cs generalizing acc with
  | nil =>
    cases hs : acc.g_commands.m_active_mouse_command with
    | none => simp [hs]
    | some d => simp [hs]
  | cons c cs ih =>
    rw [List.foldl_cons]
    by_cases hr : acc.command_state c = State.Ready
    · rw [if_pos hr, ih, set_inactive_slot]
      cases hs : acc.g_commands.m_active_mouse_command with
      | none => simp
      | some d =>
        by_cases hdc : d = c
        · subst hdc
          simp [hr]
        · have hne : ¬ (some d : Option Cmd) = some c := fun h => hdc (Option.some.inj h)
          rw [if_neg hne]
          simp only [set_inactive_state, if_neg hdc, List.mem_cons, hdc, false_or, if_false]
    · rw [if_neg hr, ih]
      cases hs : acc.g_commands.m_active_mouse_command with
      | none => rfl
      | some d =>
        by_cases hdc : d = c
        · subst hdc
          simp [hr]
        · simp only [List.mem_cons, hdc, false_or]

theorem sweep_fold_count (cs : List Cmd) (acc : World) (x : Cmd) :
    ∃ tail, (cs.foldl
      (fun acc command =>
        if acc.command_state command = State.Ready then Command.set_inactive command acc else acc)
      acc).log = acc.log ++ tail ∧
      tail.count (Entry.set_inactive x) =
        (if x ∈ cs ∧ acc.command_state x = State.Ready then 1 else 0) ∧
      tail.count (Entry.on_inactive x) =
        (if x ∈ cs ∧ acc.command_state x = State.Ready then 1 else 0) := by
  induction cs generalizing acc with
  | nil => exact ⟨[], by simp, by simp, by simp⟩
  | cons c cs ih =>
    rw [List.foldl_cons]
    by_cases hr : acc.command_state c = State.Ready
    · rw [if_pos hr]
      obtain ⟨tail, hlog, h1, h2⟩ := ih (Command.set_inactive c acc)
      have hl : (Command.set_inactive c acc).log =
          acc.log ++ [Entry.set_inactive c, Entry.on_inactive c] := by
        simp [Command.set_inactive, World.logged, World.set_state]
      refine ⟨[Entry.set_inactive c, Entry.on_inactive c] ++ tail, ?_, ?_, ?_⟩
      · rw [hlog, hl, List.append_assoc]
      · rw [List.count_append, h1, set_inactive_state]
        by_cases hxc : x = c
        · subst hxc
          simp [hr]
        · have hcx : ¬ c = x := fun h => hxc h.symm
          simp [hxc, hcx, List.count_cons]
      · rw [List.count_append, h2, set_inactive_state]
        by_cases hxc : x = c
        · subst hxc
          simp [hr]
        · have hcx : ¬ c = x := fun h => hxc h.symm
          simp [hxc, hcx, List.count_cons]
    · rw [if_neg hr]
      obtain ⟨tail, hlog, h1, h2⟩ := ih acc
      refine ⟨tail, hlog, ?_, ?_⟩
      · rw [h1]
        by_cases hxc : x = c
        · subst hxc
          simp [hr]
        · simp [hxc]
      · rw [h2]
        by_cases hxc : x = c
        · subst hxc
          simp [hr]
        · simp [hxc]

theorem inactivate_ready_commands_count (w : World) (x : Cmd) :
    ∃ swept, w.inactivate_ready_commands.log =
        w.log ++ Entry.inactivate_ready_commands :: swept ∧
      swept.count (Entry.set_inactive x) =
        (if x ∈ w.g_commands.m_commands ∧ w.command_state x = State.Ready then 1 else 0) ∧
      swept.count (Entry.on_inactive x) =
        (if x ∈ w.g_commands.m_commands ∧ w.command_state x = State.Ready then 1 else 0) := by
  obtain ⟨tail, hlog, h1, h2⟩ := sweep_fold_count w.g_commands.m_commands
    (w.logged Entry.inactivate_ready_commands) x
  refine ⟨tail, ?_, h1, h2⟩
  unfold World.inactivate_ready_commands
  rw [hlog]
  simp [World.logged]

theorem inactivate_ready_commands_slot (w : World) :
    w.inactivate_ready_commands.g_commands.m_active_mouse_command =
      match w.g_commands.m_active_mouse_command with
      | none => none
      | some d =>
        if d ∈ w.g_commands.m_commands ∧ w.command_state d = State.Ready then none
        else some d := by
  unfold World.inactivate_ready_commands
  rw [sweep_fold_slot]
  rfl

theorem call_m_commands (env : Env) (w w1 : World) (call : Call)
    (hcall : w.call env call = Except.ok w1) :
    w1.g_commands.m_commands = w.g_commands.m_commands ++ registered_by [call] := by
  have hsame : w1.frame = w.frame → registered_by [call] = [] →
      w1.g_commands.m_commands = w.g_commands.m_commands ++ registered_by [call] := by
    intro hf hnil
    rw [hnil, List.append_nil]
    exact frame_m_commands hf
  cases call with
  | register_command command =>
    simp only [World.call, Except.ok.injEq] at hcall
    subst hcall
    rfl
  | bind_command_to_key command code pressed modifier_mask =>
    simp only [World.call, Except.ok.injEq] at hcall
    subst hcall
    simp [registered_by, World.bind_command_to_key]
  | bind_command_to_mouse_click command button =>
    simp only [World.call, Except.ok.injEq] at hcall
    subst hcall
    simp [registered_by, World.bind_command_to_mouse_click, World.push_mouse_binding]
  | bind_command_to_mouse_wheel command =>
    simp only [World.call, Except.ok.injEq] at hcall
    subst hcall
    simp [registered_by, World.bind_command_to_mouse_wheel]
  | bind_command_to_mouse_motion command =>
    simp only [World.call, Except.ok.injEq] at hcall
    subst hcall
    simp [registered_by, World.bind_command_to_mouse_motion, World.push_mouse_binding]
  | bind_command_to_mouse_drag command button =>
    simp only [World.call, Except.ok.injEq] at hcall
    subst hcall
    simp [registered_by, World.bind_command_to_mouse_drag, World.push_mouse_binding]
  | remove_command_binding binding_id =>
    simp only [World.call, Except.ok.injEq] at hcall
    subst hcall
    simp [registered_by, World.remove_command_binding]
  | on_key code modifier_mask pressed =>
    exact hsame (on_key_loop_quiet env _ _ _ _ _ _ _ hcall).1 rfl
  | on_mouse_move x y =>
    have hs := on_mouse_move_loop_step env _ _ _ _ hcall
    have hm := frame_m_commands hs.1
    rw [hm]
    simp [registered_by]
  | on_mouse_click button count =>
    simp only [World.call, World.on_mouse_click] at hcall
    rcases sort_mouse_bindings_cases env w with hs | ⟨sorted, hperm, hs⟩
    · rw [hs] at hcall
      cases hcall
    · rw [hs] at hcall
      simp only [] at hcall
      have hstep := on_mouse_click_loop_step env _ _ _ _ _ _ hcall
      have hm := frame_m_commands hstep.1
      rw [hm]
      simp [registered_by]
  | on_mouse_wheel x y =>
    simp only [World.call, World.on_mouse_wheel] at hcall
    rcases sort_mouse_bindings_cases env w with hs | ⟨sorted, hperm, hs⟩
    · rw [hs] at hcall
      cases hcall
    · rw [hs] at hcall
      simp only [] at hcall
      have hstep := on_mouse_wheel_loop_quiet env _ _ _ _ hcall
      have hm := frame_m_commands hstep.1
      rw [hm]
      simp [registered_by]

theorem registered_by_cons (call : Call) (rest : List Call) :
    registered_by (call :: rest) = registered_by [call] ++ registered_by rest := by
  cases call <;> simp [registered_by]

theorem mem_registered_by (calls : List Call) (x : Cmd) :
    x ∈ registered_by calls ↔ Call.register_command x ∈ calls := by
  induction calls with
  | nil => simp [registered_by]
  | cons call rest ih =>
    rw [registered_by_cons, List.mem_append, ih, List.mem_cons]
    cases call <;> simp [registered_by]

theorem run_m_commands (env : Env) (calls : List Call) (w w1 : World)
    (hrun : World.run env calls w = Except.ok w1) :
    w1.g_commands.m_commands = w.g_commands.m_commands ++ registered_by calls := by
  induction calls generalizing w with
  | nil =>
    simp only [World.run, Except.ok.injEq] at hrun
    subst hrun
    simp [registered_by]
  | cons call rest ih =>
    simp only [World.run] at hrun
    cases hc : w.call env call with
    | error e => simp [hc] at hrun
    | ok w2 =>
      simp only [hc] at hrun
      rw [ih w2 hrun, call_m_commands env w w2 call hc, registered_by_cons call rest,
        List.append_assoc]

theorem iterate_sweep_state (w : World) (x : Cmd) (hx : x ∉ w.g_commands.m_commands)
    (n : Nat) :
    (World.inactivate_ready_commands^[n] w).g_commands.m_commands = w.g_commands.m_commands ∧
      (World.inactivate_ready_commands^[n] w).command_state x = w.command_state x := by
  induction n generalizing w with
  | zero => exact ⟨rfl, rfl⟩
  | succ n ih =>
    rw [Function.iterate_succ_apply]
    have hm := frame_m_commands (inactivate_ready_commands_quiet w).1
    have hx1 : x ∉ w.inactivate_ready_commands.g_commands.m_commands := by
      rw [hm]
      exact hx
    obtain ⟨h1, h2⟩ := ih w.inactivate_ready_commands hx1
    refine ⟨h1.trans hm, h2.trans ?_⟩
    rw [inactivate_ready_commands_state]
    have hno : ¬ (x ∈ w.g_commands.m_commands ∧ w.command_state x = State.Ready) :=
      fun h => hx h.1
    rw [if_neg hno]

/-- C23: when `update_active_mouse_command(c)` returns, with `s` the world
right after its Ready sweep: if `c` is Active afterwards the slot holds `c`, and
it was claimed only from an empty slot; if `c` is not Active and the slot held
`c` the slot is empty; in every other case the slot is as the sweep left it.
The sweep empties the slot exactly when its holder is a registered Ready
command, and the update itself changes no command state. -/
theorem C23_update_active_mouse_command_post (w w1 : World) (c : Cmd)
    (h : w.update_active_mouse_command c = Except.ok w1) :
    (w1.command_state c = State.Active →
      w1.g_commands.m_active_mouse_command = some c ∧
      ((w.after_sweep c).g_commands.m_active_mouse_command = none ∨
        (w.after_sweep c).g_commands.m_active_mouse_command = some c)) ∧
    (w1.command_state c ≠ State.Active → w.g_commands.m_active_mouse_command = some c →
      w1.g_commands.m_active_mouse_command = none) ∧
    (w1.command_state c ≠ State.Active → w.g_commands.m_active_mouse_command ≠ some c →
      w1.g_commands.m_active_mouse_command =
        (w.after_sweep c).g_commands.m_active_mouse_command) ∧
    (w.after_sweep c).g_commands.m_active_mouse_command =
      (match w.g_commands.m_active_mouse_command with
       | none => none
       | some d =>
         if d ∈ w.g_commands.m_commands ∧ w.command_state d = State.Ready then none
         else some d) ∧
    w1.command_state =
      (w.after_sweep c).command_state := by
  have hsweep := inactivate_ready_commands_slot (w.logged (Entry.update_active_mouse_command c))
  have hsweep1 : (w.after_sweep c).g_commands.m_active_mouse_command =
      (match w.g_commands.m_active_mouse_command with
       | none => none
       | some d =>
         if d ∈ w.g_commands.m_commands ∧ w.command_state d = State.Ready then none
         else some d) := hsweep
  have hs : (w.logged (Entry.update_active_mouse_command c)).inactivate_ready_commands =
      w.after_sweep c := rfl
  generalize w.after_sweep c = s at hs hsweep1 ⊢
  have hheld : w.g_commands.m_active_mouse_command ≠ some c →
      s.g_commands.m_active_mouse_command ≠ some c := by
    intro hne heq
    rw [hsweep1] at heq
    cases hw : w.g_commands.m_active_mouse_command with
    | none => simp [hw] at heq
    | some d =>
      rw [hw] at heq hne
      simp only [] at heq
      split_ifs at heq
      exact hne heq
  unfold World.update_active_mouse_command at h
  simp only [hs] at h
  by_cases h1 : s.command_state c = State.Active ∧
      s.g_commands.m_active_mouse_command ≠ some c
  · rw [if_pos h1] at h
    by_cases h2 : s.g_commands.m_active_mouse_command = none
    · rw [if_pos h2] at h
      cases h
      refine ⟨fun _ => ⟨rfl, Or.inl h2⟩, fun hna => absurd h1.1 hna,
        fun hna => absurd h1.1 hna, hsweep1, rfl⟩
    · rw [if_neg h2] at h
      cases h
  · rw [if_neg h1] at h
    by_cases h3 : s.command_state c ≠ State.Active ∧
        s.g_commands.m_active_mouse_command = some c
    · rw [if_pos h3] at h
      cases h
      refine ⟨fun ha => absurd ha h3.1, fun _ _ => rfl, ?_, hsweep1, rfl⟩
      intro _ hne
      exact absurd h3.2 (hheld hne)
    · rw [if_neg h3] at h
      cases h
      refine ⟨?_, ?_, fun _ _ => rfl, hsweep1, rfl⟩
      · intro ha
        have hslot : w1.g_commands.m_active_mouse_command = some c := by
          by_contra hne
          exact h1 ⟨ha, hne⟩
        exact ⟨hslot, Or.inr hslot⟩
      · intro hna hw
        by_contra hne
        rw [hsweep1, hw] at hne
        simp only [] at hne
        split_ifs at hne with hreg
        · exact hne rfl
        · apply h3
          refine ⟨hna, ?_⟩
          rw [hsweep1, hw]
          simp only [if_neg hreg]

/-- Witness of C23: a command that is Active while the slot is empty claims the
slot. -/
theorem C23_update_active_mouse_command_post_witness :
    ∃ w1, (Command.set_active 3 start_world).update_active_mouse_command 3 = Except.ok w1 ∧
      w1.g_commands.m_active_mouse_command = some 3 :=
  ⟨_, rfl,
    ((C23_update_active_mouse_command_post (Command.set_active 3 start_world) _ 3 rfl).1
      rfl).1⟩

/-- Counterexample to C24: the brush command, bound to a drag but never
registered, is Ready after a press and still Ready after the sweep. -/
theorem C24_unregistered_stays_ready :
    (World.run_or map_editor_env unregistered_calls start_world).command_state brush_command =
        State.Ready ∧
      World.command_state
        (World.run_or map_editor_env unregistered_calls start_world).inactivate_ready_commands
        brush_command = State.Ready :=
  ⟨rfl, rfl⟩

/-- C24 (amended): after `inactivate_ready_commands` every registered command
that was Ready is Inactive, demoted by one `set_inactive` whose `on_inactive`
hook runs once; every command that was Active, Inactive or Disabled has the
state it had and gets no `set_inactive`; a command that is not registered keeps
its state, Ready included. -/
theorem C24_sweep_demotes_registered (w : World) (x : Cmd) :
    ∃ swept, w.inactivate_ready_commands.log =
        w.log ++ Entry.inactivate_ready_commands :: swept ∧
      (x ∈ w.g_commands.m_commands → w.command_state x = State.Ready →
        w.inactivate_ready_commands.command_state x = State.Inactive ∧
        swept.count (Entry.set_inactive x) = 1 ∧ swept.count (Entry.on_inactive x) = 1) ∧
      (w.command_state x ≠ State.Ready →
        w.inactivate_ready_commands.command_state x = w.command_state x ∧
        swept.count (Entry.set_inactive x) = 0 ∧ swept.count (Entry.on_inactive x) = 0) ∧
      (x ∉ w.g_commands.m_commands →
        w.inactivate_ready_commands.command_state x = w.command_state x ∧
        swept.count (Entry.set_inactive x) = 0 ∧ swept.count (Entry.on_inactive x) = 0) := by
  obtain ⟨swept, hlog, h1, h2⟩ := inactivate_ready_commands_count w x
  have hstate := inactivate_ready_commands_state w x
  refine ⟨swept, hlog, ?_, ?_, ?_⟩
  · intro hreg hready
    rw [hstate, h1, h2, if_pos ⟨hreg, hready⟩, if_pos ⟨hreg, hready⟩]
    exact ⟨rfl, rfl, rfl⟩
  · intro hnr
    have hno : ¬ (x ∈ w.g_commands.m_commands ∧ w.command_state x = State.Ready) :=
      fun h => hnr h.2
    rw [hstate, h1, h2, if_neg hno, if_neg hno]
    exact ⟨rfl, rfl, rfl⟩
  · intro hnreg
    have hno : ¬ (x ∈ w.g_commands.m_commands ∧ w.command_state x = State.Ready) :=
      fun h => hnreg h.1
    rw [hstate, h1, h2, if_neg hno, if_neg hno]
    exact ⟨rfl, rfl, rfl⟩

/-- C28: in a world reached from the constructed dispatcher, a sweep changes
the state of a command only if the command was passed to `register_command`; a
command never registered keeps its state, Ready included, through any number of
sweeps, whatever bindings it has; and in one sweep a command gets at most one
`set_inactive` and one run of `on_inactive`, however often it was registered. -/
theorem C28_sweep_reaches_registered_only (env : Env) (command_state : Cmd → State)
    (first_id : Nat) (cursor : dvec2) (calls : List Call) (w : World) (x : Cmd)
    (hrun : World.run env calls (World.initial command_state first_id cursor) = Except.ok w) :
    (w.inactivate_ready_commands.command_state x ≠ w.command_state x →
      Call.register_command x ∈ calls) ∧
    (Call.register_command x ∉ calls →
      ∀ n, (World.inactivate_ready_commands^[n] w).command_state x = w.command_state x) ∧
    ∃ swept, w.inactivate_ready_commands.log =
        w.log ++ Entry.inactivate_ready_commands :: swept ∧
      swept.count (Entry.set_inactive x) ≤ 1 ∧ swept.count (Entry.on_inactive x) ≤ 1 := by
  have hm := run_m_commands env calls _ w hrun
  have hreg : x ∈ w.g_commands.m_commands ↔ Call.register_command x ∈ calls := by
    rw [hm, ← mem_registered_by]
    simp [World.initial]
  refine ⟨?_, ?_, ?_⟩
  · intro hchange
    by_contra hno
    apply hchange
    rw [inactivate_ready_commands_state]
    have hno1 : ¬ (x ∈ w.g_commands.m_commands ∧ w.command_state x = State.Ready) :=
      fun h => hno (hreg.mp h.1)
    rw [if_neg hno1]
  · intro hno n
    exact (iterate_sweep_state w x (fun h => hno (hreg.mp h)) n).2
  · obtain ⟨swept, hlog, h1, h2⟩ := inactivate_ready_commands_count w x
    refine ⟨swept, hlog, ?_, ?_⟩
    · rw [h1]
      split_ifs <;> omega
    · rw [h2]
      split_ifs <;> omega

/-- Witness of C28: the brush command bound to a drag and armed but never
registered stays Ready through three sweeps. -/
theorem C28_sweep_reaches_registered_only_witness :
    World.run map_editor_env unregistered_calls (World.initial (fun _ => State.Inactive) 1 ⟨0, 0⟩)
        = Except.ok (World.run_or map_editor_env unregistered_calls start_world) ∧
      (World.run_or map_editor_env unregistered_calls start_world).command_state
        brush_command = State.Ready ∧
      (World.inactivate_ready_commands^[3]
        (World.run_or map_editor_env unregistered_calls start_world)).command_state
          brush_command =
        (World.run_or map_editor_env unregistered_calls start_world).command_state
          brush_command :=
  ⟨rfl, rfl,
    (C28_sweep_reaches_registered_only map_editor_env (fun _ => State.Inactive) 1 ⟨0, 0⟩
      unregistered_calls (World.run_or map_editor_env unregistered_calls start_world)
      brush_command rfl).2.1 (by simp [unregistered_calls]) 3⟩

/-! ## The owner of the slot is Active -/

theorem call_ops_owner (c : Cmd) (ops : List Op) (w : World)
    (hg : ops_guarded (w.command_state c) ops = true) (h : w.slot_owner_active) :
    (Command.call_ops c ops w).slot_owner_active := by
  induction ops generalizing w with
  | nil => exact h
  | cons op rest ih =>
    unfold Command.call_ops
    rw [List.foldl_cons]
    cases op with
    | set_ready =>
      simp only [ops_guarded, Bool.and_eq_true, decide_eq_true_eq] at hg
      apply ih (Command.set_ready c w)
      · rw [set_ready_state, if_pos rfl]
        exact hg.2
      · intro d hd
        have hd1 : w.g_commands.m_active_mouse_command = some d := hd
        have hda := h d hd1
        have hdc : d ≠ c := by
          intro heq
          rw [heq, hg.1] at hda
          cases hda
        rw [set_ready_state, if_neg hdc]
        exact hda
    | set_active =>
      simp only [ops_guarded] at hg
      apply ih (Command.set_active c w)
      · rw [set_active_state, if_pos rfl]
        exact hg
      · intro d hd
        have hd1 : w.g_commands.m_active_mouse_command = some d := hd
        rw [set_active_state]
        split_ifs
        · rfl
        · exact h d hd1
    | set_inactive =>
      simp only [ops_guarded] at hg
      apply ih (Command.set_inactive c w)
      · rw [set_inactive_state, if_pos rfl]
        exact hg
      · intro d hd
        rw [set_inactive_slot] at hd
        split_ifs at hd with hs
        have hdc : d ≠ c := by
          intro heq
          apply hs
          rw [hd, heq]
        rw [set_inactive_state, if_neg hdc]
        exact h d hd

theorem try_call_owner (env : Env) (hguard : env.ready_from_inactive) (c : Cmd)
    (context : Command_context) (w : World) (h : w.slot_owner_active) :
    (Command.try_call env c context w).1.slot_owner_active :=
  call_ops_owner c _ (w.logged (Entry.try_call c)) (hguard c context w).1 h

theorem try_ready_owner (env : Env) (hguard : env.ready_from_inactive) (c : Cmd)
    (context : Command_context) (w : World) (h : w.slot_owner_active) :
    (Command.try_ready env c context w).slot_owner_active :=
  call_ops_owner c _ (w.logged (Entry.try_ready c)) (hguard c context w).2 h

theorem set_inactive_owner (c : Cmd) (w : World) (h : w.slot_owner_active) :
    (Command.set_inactive c w).slot_owner_active :=
  call_ops_owner c [Op.set_inactive] w rfl h

theorem set_ready_owner (c : Cmd) (w : World) (hi : w.command_state c = State.Inactive)
    (h : w.slot_owner_active) : (Command.set_ready c w).slot_owner_active :=
  call_ops_owner c [Op.set_ready] w (by simp [ops_guarded, hi]) h

theorem on_button_owner (env : Env) (hguard : env.ready_from_inactive) (b : Mouse_binding)
    (c : Cmd) (context : Command_context) (button : Mouse_button) (count : Int) (w : World)
    (h : w.slot_owner_active) :
    (b.on_button env c context button count w).1.slot_owner_active := by
  have h1 : (w.logged (Entry.on_button b.m_id)).slot_owner_active := h
  cases hk : b.kind with
  | click m =>
    simp only [Mouse_binding.on_button, hk]
    split_ifs with hm hi
    · exact try_call_owner env hguard c context _ (set_ready_owner c _ hi h1)
    · exact try_call_owner env hguard c context _ h1
    · exact h1
  | motion =>
    simp only [Mouse_binding.on_button, hk]
    exact h1
  | drag m =>
    simp only [Mouse_binding.on_button, hk]
    split_ifs
    · exact try_ready_owner env hguard c context _ h1
    · exact h1
    · exact set_inactive_owner c _ h1
    · exact h1
    · exact h1

theorem on_motion_owner (env : Env) (hguard : env.ready_from_inactive) (b : Mouse_binding)
    (c : Cmd) (context : Command_context) (w : World) (h : w.slot_owner_active) :
    (b.on_motion env c context w).1.slot_owner_active := by
  have h1 : (w.logged (Entry.on_motion b.m_id)).slot_owner_active := h
  cases hk : b.kind with
  | click m =>
    simp only [Mouse_binding.on_motion, hk]
    exact h1
  | motion =>
    simp only [Mouse_binding.on_motion, hk]
    exact try_call_owner env hguard c context _ h1
  | drag m =>
    simp only [Mouse_binding.on_motion, hk]
    split_ifs
    · exact try_call_owner env hguard c context _ h1
    · exact h1

theorem on_wheel_owner (env : Env) (hguard : env.ready_from_inactive)
    (b : Mouse_wheel_binding) (c : Cmd) (context : Command_context) (w : World)
    (h : w.slot_owner_active) : (b.on_wheel env c context w).1.slot_owner_active :=
  try_call_owner env hguard c context (w.logged (Entry.on_wheel b.m_id)) h

theorem on_key_owner (env : Env) (hguard : env.ready_from_inactive) (b : Key_binding)
    (context : Command_context) (pressed : Bool) (code : Keycode) (modifier_mask : Nat)
    (w w1 : World) (consumed : Bool)
    (hk : b.on_key env context pressed code modifier_mask w = Except.ok (w1, consumed))
    (h : w.slot_owner_active) : w1.slot_owner_active := by
  have h1 : (w.logged (Entry.on_key b.m_id)).slot_owner_active := h
  unfold Key_binding.on_key at hk
  simp only [] at hk
  split_ifs at hk
  · split at hk
    · cases hk
    · cases hk
      exact try_call_owner env hguard _ context _ h1
  · cases hk
    exact h1

theorem update_active_mouse_command_owner (w w1 : World) (c : Cmd)
    (hu : w.update_active_mouse_command c = Except.ok w1) (h : w.slot_owner_active) :
    w1.slot_owner_active := by
  intro d hd
  rcases update_active_mouse_command_slot w w1 c hu with ⟨hs, ha⟩ | hs | hs
  · rw [hs] at hd
    cases hd
    exact ha
  · rw [hs] at hd
    cases hd
  · rw [hs] at hd
    have hda := h d hd
    rw [update_active_mouse_command_state w w1 c hu d]
    have hno : ¬ (d ∈ w.g_commands.m_commands ∧ w.command_state d = State.Ready) := by
      rw [hda]
      rintro ⟨-, h2⟩
      cases h2
    rw [if_neg hno]
    exact hda

theorem on_mouse_click_loop_owner (env : Env) (hguard : env.ready_from_inactive)
    (context : Command_context) (button : Mouse_button) (count : Int)
    (l : List Mouse_binding) (w w1 : World)
    (hl : on_mouse_click_loop env context button count l w = Except.ok w1)
    (h : w.slot_owner_active) : w1.slot_owner_active := by
  induction l generalizing w with
  | nil =>
    simp only [on_mouse_click_loop] at hl
    cases hl
    exact h
  | cons b rest ih =>
    cases hc : b.m_command with
    | none => simp [on_mouse_click_loop, hc] at hl
    | some c =>
      simp only [on_mouse_click_loop, hc] at hl
      have h1 := on_button_owner env hguard b c context button count w h
      split_ifs at hl
      · exact update_active_mouse_command_owner _ w1 c hl h1
      · exact ih _ hl h1

theorem on_mouse_move_loop_owner (env : Env) (hguard : env.ready_from_inactive)
    (context : Command_context) (l : List Mouse_binding) (w w1 : World)
    (hl : on_mouse_move_loop env context l w = Except.ok w1)
    (h : w.slot_owner_active) : w1.slot_owner_active := by
  induction l generalizing w with
  | nil =>
    simp only [on_mouse_move_loop] at hl
    cases hl
    exact h
  | cons b rest ih =>
    cases hc : b.m_command with
    | none => simp [on_mouse_move_loop, hc] at hl
    | some c =>
      simp only [on_mouse_move_loop, hc] at hl
      have h1 := on_motion_owner env hguard b c context w h
      split_ifs at hl
      · exact update_active_mouse_command_owner _ w1 c hl h1
      · exact ih _ hl h1

theorem on_mouse_wheel_loop_owner (env : Env) (hguard : env.ready_from_inactive)
    (context : Command_context) (l : List Mouse_wheel_binding) (w w1 : World)
    (hl : on_mouse_wheel_loop env context l w = Except.ok w1)
    (h : w.slot_owner_active) : w1.slot_owner_active := by
  induction l generalizing w with
  | nil =>
    simp only [on_mouse_wheel_loop] at hl
    cases hl
    exact h
  | cons b rest ih =>
    cases hc : b.m_command with
    | none => simp [on_mouse_wheel_loop, hc] at hl
    | some c =>
      simp only [on_mouse_wheel_loop, hc] at hl
      exact ih _ hl (on_wheel_owner env hguard b c context w h)

theorem on_key_loop_owner (env : Env) (hguard : env.ready_from_inactive)
    (context : Command_context) (pressed : Bool) (code : Keycode) (modifier_mask : Nat)
    (l : List Key_binding) (w w1 : World)
    (hl : on_key_loop env context pressed code modifier_mask l w = Except.ok w1)
    (h : w.slot_owner_active) : w1.slot_owner_active := by
  induction l generalizing w with
  | nil =>
    simp only [on_key_loop] at hl
    cases hl
    exact h
  | cons b rest ih =>
    simp only [on_key_loop] at hl
    cases hb : b.on_key env context pressed code modifier_mask w with
    | error e => simp [hb] at hl
    | ok r =>
      obtain ⟨w2, consumed⟩ := r
      simp only [hb] at hl
      have h2 := on_key_owner env hguard b context pressed code modifier_mask w w2 consumed hb h
      split_ifs at hl
      · cases hl
        exact h2
      · exact ih _ hl h2

theorem call_owner (env : Env) (hguard : env.ready_from_inactive) (w w1 : World)
    (call : Call) (hcall : w.call env call = Except.ok w1) (h : w.slot_owner_active) :
    w1.slot_owner_active := by
  cases call with
  | register_command command =>
    simp only [World.call, Except.ok.injEq] at hcall
    subst hcall
    exact h
  | bind_command_to_key command code pressed modifier_mask =>
    simp only [World.call, Except.ok.injEq] at hcall
    subst hcall
    exact h
  | bind_command_to_mouse_click command button =>
    simp only [World.call, Except.ok.injEq] at hcall
    subst hcall
    exact h
  | bind_command_to_mouse_wheel command =>
    simp only [World.call, Except.ok.injEq] at hcall
    subst hcall
    exact h
  | bind_command_to_mouse_motion command =>
    simp only [World.call, Except.ok.injEq] at hcall
    subst hcall
    exact h
  | bind_command_to_mouse_drag command button =>
    simp only [World.call, Except.ok.injEq] at hcall
    subst hcall
    exact h
  | remove_command_binding binding_id =>
    simp only [World.call, Except.ok.injEq] at hcall
    subst hcall
    exact h
  | on_key code modifier_mask pressed =>
    exact on_key_loop_owner env hguard _ _ _ _ _ w w1 hcall h
  | on_mouse_move x y =>
    exact on_mouse_move_loop_owner env hguard _ _ _ w1 hcall h
  | on_mouse_click button count =>
    simp only [World.call, World.on_mouse_click] at hcall
    rcases sort_mouse_bindings_cases env w with hs | ⟨sorted, hperm, hs⟩
    · rw [hs] at hcall
      cases hcall
    · rw [hs] at hcall
      simp only [] at hcall
      exact on_mouse_click_loop_owner env hguard _ _ _ _ _ w1 hcall h
  | on_mouse_wheel x y =>
    simp only [World.call, World.on_mouse_wheel] at hcall
    rcases sort_mouse_bindings_cases env w with hs | ⟨sorted, hperm, hs⟩
    · rw [hs] at hcall
      cases hcall
    · rw [hs] at hcall
      simp only [] at hcall
      exact on_mouse_wheel_loop_owner env hguard _ _ _ w1 hcall h

theorem run_owner (env : Env) (hguard : env.ready_from_inactive) (calls : List Call)
    (w w1 : World) (hrun : World.run env calls w = Except.ok w1)
    (h : w.slot_owner_active) : w1.slot_owner_active := by
  induction calls generalizing w with
  | nil =>
    simp only [World.run, Except.ok.injEq] at hrun
    subst hrun
    exact h
  | cons call rest ih =>
    simp only [World.run] at hrun
    cases hc : w.call env call with
    | error e => simp [hc] at hrun
    | ok w2 =>
      simp only [hc] at hrun
      exact ih w2 hrun (call_owner env hguard w w2 call hc h)

theorem map_editor_env_ready_from_inactive : map_editor_env.ready_from_inactive := by
  intro c context w
  by_cases hc : c = brush_command
  · have h1 : map_editor_env.try_call c context w = Map_primary_brush_command.try_call c w := by
      simp [map_editor_env, hc]
    have h2 : map_editor_env.try_ready c context w =
        Map_primary_brush_command.try_ready c w := by
      simp [map_editor_env, hc]
    rw [h1, h2]
    constructor
    · unfold Map_primary_brush_command.try_call
      simp only []
      split_ifs <;> simp [ops_guarded]
    · unfold Map_primary_brush_command.try_ready
      split_ifs with hi
      · rfl
      · have hi1 : w.command_state c = State.Inactive := not_not.mp hi
        simp [ops_guarded, hi1]
  · have h1 : map_editor_env.try_call c context w = ([], false) := by
      simp [map_editor_env, hc, Map_hover_command.try_call]
    have h2 : map_editor_env.try_ready c context w = [] := by
      simp [map_editor_env, hc]
    rw [h1, h2]
    exact ⟨rfl, rfl⟩

/-- C26: when every `try_call` and `try_ready` calls `set_ready` only on an
Inactive command (state changes being the calls of `set_ready`, `set_active`
and `set_inactive`, the last notifying `command_inactivated`), every call of
the dispatcher that returns, `on_key`, `on_mouse_click`, `on_mouse_move`
and `on_mouse_wheel` among them, keeps the invariant that a non-empty slot
holds an Active command; it holds in the constructed dispatcher, whose slot is
empty, and so after every run of calls from it. -/
theorem C26_slot_owner_active (env : Env) (hguard : env.ready_from_inactive)
    (calls : List Call) (w0 w : World) (hinv : w0.slot_owner_active)
    (hrun : World.run env calls w0 = Except.ok w) :
    (∀ c, w.g_commands.m_active_mouse_command = some c → w.command_state c = State.Active) ∧
      ∀ (command_state : Cmd → State) (first_id : Nat) (cursor : dvec2),
        (World.initial command_state first_id cursor).slot_owner_active :=
  ⟨run_owner env hguard calls w0 w hrun hinv, fun _ _ _ _ hslot => by cases hslot⟩

/-- Witness of C26: the map editor while the brush command drags; the slot
holds the brush command, which is Active. -/
theorem C26_slot_owner_active_witness :
    map_editor_env.ready_from_inactive ∧
      (World.run_or map_editor_env dragging_calls start_world).g_commands.m_active_mouse_command
        = some brush_command ∧
      (World.run_or map_editor_env dragging_calls start_world).command_state brush_command
        = State.Active :=
  ⟨map_editor_env_ready_from_inactive, rfl,
    (C26_slot_owner_active map_editor_env map_editor_env_ready_from_inactive dragging_calls
      start_world (World.run_or map_editor_env dragging_calls start_world)
      (fun _ hslot => by cases hslot) rfl).1 brush_command rfl⟩

/-! ## The stored order of the mouse bindings -/

theorem call_stored_order (env : Env) (w w1 : World) (call : Call)
    (hsorts : call.sorts = false) (hcall : w.call env call = Except.ok w1) :
    w.next_id ≤ w1.next_id ∧
      ∃ appended, w1.g_commands.m_mouse_bindings.Sublist
          (w.g_commands.m_mouse_bindings ++ appended) ∧
        (appended.map (fun b => b.m_id)).Pairwise (fun i j => i < j) ∧
        ∀ b ∈ appended, w.next_id ≤ b.m_id ∧ b.m_id < w1.next_id := by
  have hsame : w1.g_commands.m_mouse_bindings = w.g_commands.m_mouse_bindings →
      w1.next_id = w.next_id →
      w.next_id ≤ w1.next_id ∧
      ∃ appended, w1.g_commands.m_mouse_bindings.Sublist
          (w.g_commands.m_mouse_bindings ++ appended) ∧
        (appended.map (fun b => b.m_id)).Pairwise (fun i j => i < j) ∧
        ∀ b ∈ appended, w.next_id ≤ b.m_id ∧ b.m_id < w1.next_id := by
    intro hb hn
    refine ⟨le_of_eq hn.symm, [], ?_, List.Pairwise.nil, ?_⟩
    · rw [hb, List.append_nil]
    · intro b hb
      cases hb
  have hpush : ∀ (command : Option Cmd) (kind : Mouse_kind),
      w1 = (w.push_mouse_binding command kind).1 →
      w.next_id ≤ w1.next_id ∧
      ∃ appended, w1.g_commands.m_mouse_bindings.Sublist
          (w.g_commands.m_mouse_bindings ++ appended) ∧
        (appended.map (fun b => b.m_id)).Pairwise (fun i j => i < j) ∧
        ∀ b ∈ appended, w.next_id ≤ b.m_id ∧ b.m_id < w1.next_id := by
    intro command kind heq
    subst heq
    refine ⟨Nat.le_succ _, [⟨command, w.next_id, kind⟩], List.Sublist.refl _,
      List.pairwise_singleton _ _, ?_⟩
    intro b hb
    rw [List.mem_singleton.mp hb]
    exact ⟨le_refl _, Nat.lt_succ_self _⟩
  cases call with
  | register_command command =>
    simp only [World.call, Except.ok.injEq] at hcall
    subst hcall
    exact hsame rfl rfl
  | bind_command_to_key command code pressed modifier_mask =>
    simp only [World.call, Except.ok.injEq] at hcall
    subst hcall
    refine ⟨Nat.le_succ _, [], ?_, List.Pairwise.nil, ?_⟩
    · rw [List.append_nil]
      exact List.Sublist.refl _
    · intro b hb
      cases hb
  | bind_command_to_mouse_click command button =>
    simp only [World.call, Except.ok.injEq] at hcall
    exact hpush command (Mouse_kind.click button) hcall.symm
  | bind_command_to_mouse_wheel command =>
    simp only [World.call, Except.ok.injEq] at hcall
    subst hcall
    refine ⟨Nat.le_succ _, [], ?_, List.Pairwise.nil, ?_⟩
    · rw [List.append_nil]
      exact List.Sublist.refl _
    · intro b hb
      cases hb
  | bind_command_to_mouse_motion command =>
    simp only [World.call, Except.ok.injEq] at hcall
    exact hpush command Mouse_kind.motion hcall.symm
  | bind_command_to_mouse_drag command button =>
    simp only [World.call, Except.ok.injEq] at hcall
    exact hpush command (Mouse_kind.drag button) hcall.symm
  | remove_command_binding binding_id =>
    simp only [World.call, Except.ok.injEq] at hcall
    subst hcall
    refine ⟨le_refl _, [], ?_, List.Pairwise.nil, ?_⟩
    · rw [List.append_nil]
      exact List.filter_sublist _
    · intro b hb
      cases hb
  | on_key code modifier_mask pressed =>
    have hf := (on_key_loop_quiet env _ _ _ _ _ _ _ hcall).1
    exact hsame (frame_m_mouse_bindings hf) (frame_next_id hf)
  | on_mouse_move x y =>
    have hf := (on_mouse_move_loop_step env _ _ _ _ hcall).1
    have hb := frame_m_mouse_bindings hf
    have hn := frame_next_id hf
    exact hsame hb hn
  | on_mouse_click button count => cases hsorts
  | on_mouse_wheel x y => cases hsorts

theorem run_stored_order (env : Env) (calls : List Call) (w w1 : World)
    (hsorts : ∀ call ∈ calls, call.sorts = false)
    (hrun : World.run env calls w = Except.ok w1) :
    w.next_id ≤ w1.next_id ∧
      ∃ appended, w1.g_commands.m_mouse_bindings.Sublist
          (w.g_commands.m_mouse_bindings ++ appended) ∧
        (appended.map (fun b => b.m_id)).Pairwise (fun i j => i < j) ∧
        ∀ b ∈ appended, w.next_id ≤ b.m_id ∧ b.m_id < w1.next_id := by
  induction calls generalizing w with
  | nil =>
    simp only [World.run, Except.ok.injEq] at hrun
    subst hrun
    refine ⟨le_refl _, [], ?_, List.Pairwise.nil, ?_⟩
    · rw [List.append_nil]
    · intro b hb
      cases hb
  | cons call rest ih =>
    simp only [World.run] at hrun
    cases hc : w.call env call with
    | error e => simp [hc] at hrun
    | ok w2 =>
      simp only [hc] at hrun
      obtain ⟨hn1, app1, hsub1, hpair1, hid1⟩ :=
        call_stored_order env w w2 call (hsorts call (List.mem_cons_self _ _)) hc
      obtain ⟨hn2, app2, hsub2, hpair2, hid2⟩ :=
        ih w2 (fun c hcm => hsorts c (List.mem_cons_of_mem _ hcm)) hrun
      refine ⟨le_trans hn1 hn2, app1 ++ app2, ?_, ?_, ?_⟩
      · rw [← List.append_assoc]
        exact hsub2.trans (List.Sublist.append hsub1 (List.Sublist.refl _))
      · rw [List.map_append, List.pairwise_append]
        refine ⟨hpair1, hpair2, ?_⟩
        intro i hi j hj
        obtain ⟨b1, hb1, rfl⟩ := List.mem_map.mp hi
        obtain ⟨b2, hb2, rfl⟩ := List.mem_map.mp hj
        exact lt_of_lt_of_le (hid1 b1 hb1).2 (hid2 b2 hb2).1
      · intro b hb
        rcases List.mem_append.mp hb with hb1 | hb2
        · exact ⟨(hid1 b hb1).1, lt_of_lt_of_le (hid1 b hb1).2 hn2⟩
        · exact ⟨le_trans hn1 (hid2 b hb2).1, (hid2 b hb2).2⟩

/-- C27: an `on_mouse_move` that returns leaves the mouse binding list
identical, element for element, and has evaluated a prefix of it in stored
order.  The stored order is the order of an earlier world (such as the one an
`on_mouse_click` or `on_mouse_wheel` left after its sort) followed by the
bindings appended since, in registration order, less the bindings removed, as
long as no call in between sorts. -/
theorem C27_on_mouse_move_keeps_order (env : Env) (calls : List Call) (w0 w w1 : World)
    (x y : Int) (hcalls : ∀ call ∈ calls, call.sorts = false)
    (hrun : World.run env calls w0 = Except.ok w)
    (h : w.on_mouse_move env x y = Except.ok w1) :
    w1.g_commands.m_mouse_bindings = w.g_commands.m_mouse_bindings ∧
    (∃ evaluated rest added,
      w.g_commands.m_mouse_bindings = evaluated ++ rest ∧
      w1.log = w.log ++ added ∧
      added.filter Entry.is_on_motion = evaluated.map (fun b => Entry.on_motion b.m_id)) ∧
    ∃ appended,
      w.g_commands.m_mouse_bindings.Sublist (w0.g_commands.m_mouse_bindings ++ appended) ∧
      (appended.map (fun b => b.m_id)).Pairwise (fun i j => i < j) ∧
      ∀ b ∈ appended, w0.next_id ≤ b.m_id := by
  refine ⟨?_, ?_, ?_⟩
  · have hb := frame_m_mouse_bindings (on_mouse_move_loop_step env _ _ _ _ h).1
    exact hb
  · unfold World.on_mouse_move at h
    have ht := on_mouse_move_loop_trace env _ _ _ w1 h
    obtain ⟨evaluated, rest, added, h1, h2, h3, -⟩ := ht
    exact ⟨evaluated, rest, added, h1, h2, h3⟩
  · obtain ⟨-, appended, hsub, hpair, hid⟩ := run_stored_order env calls w0 w hcalls hrun
    exact ⟨appended, hsub, hpair, fun b hb => (hid b hb).1⟩

/-- Witness of C27: after a whole drag in the map editor the release has sorted
the brush command's binding before the hover command's; a motion binding of
command 5 is then appended and the mouse moved. -/
theorem C27_on_mouse_move_keeps_order_witness :
    (World.run_or map_editor_env drag_done_calls start_world).g_commands.m_mouse_bindings =
      [⟨some brush_command, 2, Mouse_kind.drag 0⟩, ⟨some hover_command, 1, Mouse_kind.motion⟩] ∧
    ∃ w w1,
      World.run map_editor_env [Call.bind_command_to_mouse_motion (some 5)]
        (World.run_or map_editor_env drag_done_calls start_world) = Except.ok w ∧
      w.on_mouse_move map_editor_env 2 2 = Except.ok w1 ∧
      w1.g_commands.m_mouse_bindings = w.g_commands.m_mouse_bindings ∧
      w1.g_commands.m_mouse_bindings =
        [⟨some brush_command, 2, Mouse_kind.drag 0⟩, ⟨some hover_command, 1, Mouse_kind.motion⟩,
          ⟨some 5, 3, Mouse_kind.motion⟩] :=
  ⟨rfl, _, _, rfl, rfl,
    (C27_on_mouse_move_keeps_order map_editor_env [Call.bind_command_to_mouse_motion (some 5)]
      (World.run_or map_editor_env drag_done_calls start_world) _ _ 2 2
      (by
        intro call hcall
        rw [List.mem_singleton.mp hcall]
        rfl)
      rfl rfl).1,
    rfl⟩

/-! ## The pass stops at the first consumer -/

theorem on_motion_command_trace (env : Env) (b : Mouse_binding) (c : Cmd)
    (context : Command_context) (w : World) :
    ∃ tail, (b.on_motion env c context w).1.log = w.log ++ Entry.on_motion b.m_id :: tail ∧
      ∀ e ∈ tail, Entry.is_command e = true := by
  have key : (w.logged (Entry.on_motion b.m_id)).command_step
      (b.on_motion env c context w).1 := by
    unfold Mouse_binding.on_motion
    simp only []
    split
    · exact command_step_refl _
    · exact try_call_command_step env c context _
    · split
      · exact try_call_command_step env c context _
      · exact command_step_refl _
  obtain ⟨tail, hlog, htail⟩ := key
  refine ⟨tail, ?_, htail⟩
  rw [hlog]
  simp [World.logged]

theorem filter_on_motion_of_command (tail : List Entry)
    (h : ∀ e ∈ tail, Entry.is_command e = true) : tail.filter Entry.is_on_motion = [] := by
  rw [List.filter_eq_nil_iff]
  intro e he
  have hc := h e he
  cases e <;> simp [Entry.is_command, Entry.is_on_motion] at hc ⊢

theorem filter_update_of_command (tail : List Entry)
    (h : ∀ e ∈ tail, Entry.is_command e = true) : tail.filter Entry.is_update = [] := by
  rw [List.filter_eq_nil_iff]
  intro e he
  have hc := h e he
  cases e <;> simp [Entry.is_command, Entry.is_update] at hc ⊢

theorem filter_update_of_swept (swept : List Entry)
    (h : ∀ e ∈ swept, ∃ x, e = Entry.set_inactive x ∨ e = Entry.on_inactive x) :
    swept.filter Entry.is_update = [] := by
  rw [List.filter_eq_nil_iff]
  intro e he
  obtain ⟨x, hx | hx⟩ := h e he <;> simp [hx, Entry.is_update]

theorem on_mouse_click_loop_first_consumer (env : Env) (context : Command_context)
    (button : Mouse_button) (count : Int) (l : List Mouse_binding) (w w1 : World)
    (h : on_mouse_click_loop env context button count l w = Except.ok w1) :
    ∃ added, w1.log = w.log ++ added ∧
      stops_at_first_consumer (fun b c v => b.on_button env c context button count v)
        (fun b => Entry.on_button b.m_id) Entry.is_on_button l w w1 added := by
  induction l generalizing w with
  | nil =>
    simp only [on_mouse_click_loop] at h
    cases h
    exact ⟨[], by simp, Or.inl ⟨rfl, rfl, rfl, rfl⟩⟩
  | cons b more ih =>
    cases hc : b.m_command with
    | none => simp [on_mouse_click_loop, hc] at h
    | some c =>
      simp only [on_mouse_click_loop, hc] at h
      obtain ⟨tail, hlog, htail⟩ := on_button_trace env b c context button count w
      split_ifs at h with hcons
      · obtain ⟨swept, hlog2, hswept⟩ := update_active_mouse_command_trace _ w1 c h
        refine ⟨Entry.on_button b.m_id :: tail ++
          Entry.update_active_mouse_command c :: Entry.inactivate_ready_commands :: swept,
          ?_, Or.inr ⟨[], b, c, more, rfl, hc, rfl, hcons, h, ?_, ?_⟩⟩
        · rw [hlog2, hlog]
          simp
        · simp [List.filter_cons, Entry.is_on_button, filter_on_button_of_command tail htail,
            filter_on_button_of_swept swept hswept]
        · simp [List.filter_cons, Entry.is_update, filter_update_of_command tail htail,
            filter_update_of_swept swept hswept]
      · have hfalse : (b.on_button env c context button count w).2 = false :=
          Bool.eq_false_iff.mpr hcons
        obtain ⟨added, hlog2, hcase⟩ := ih _ h
        refine ⟨Entry.on_button b.m_id :: tail ++ added, ?_, ?_⟩
        · rw [hlog2, hlog]
          simp
        · rcases hcase with ⟨hd, hw1, hf1, hf2⟩ | ⟨pre, b1, c1, post, hl, hc1, hd, hr, hu, hf1, hf2⟩
          · refine Or.inl ⟨?_, ?_, ?_, ?_⟩
            · simp only [declined, hc, hfalse, Bool.not_false, Bool.true_and]
              exact hd
            · simp only [after_declined, hc]
              exact hw1
            · simp [List.filter_cons, Entry.is_on_button,
                filter_on_button_of_command tail htail, hf1]
            · simp [List.filter_cons, Entry.is_update, filter_update_of_command tail htail,
                hf2]
          · refine Or.inr ⟨b :: pre, b1, c1, post, ?_, hc1, ?_, ?_, ?_, ?_, ?_⟩
            · rw [hl]
              rfl
            · simp only [declined, hc, hfalse, Bool.not_false, Bool.true_and]
              exact hd
            · simp only [after_declined, hc]
              exact hr
            · simp only [after_declined, hc]
              exact hu
            · simp [List.filter_cons, Entry.is_on_button,
                filter_on_button_of_command tail htail, hf1]
            · simp [List.filter_cons, Entry.is_update, filter_update_of_command tail htail,
                hf2]

theorem on_mouse_move_loop_first_consumer (env : Env) (context : Command_context)
    (l : List Mouse_binding) (w w1 : World)
    (h : on_mouse_move_loop env context l w = Except.ok w1) :
    ∃ added, w1.log = w.log ++ added ∧
      stops_at_first_consumer (fun b c v => b.on_motion env c context v)
        (fun b => Entry.on_motion b.m_id) Entry.is_on_motion l w w1 added := by
  induction l generalizing w with
  | nil =>
    simp only [on_mouse_move_loop] at h
    cases h
    exact ⟨[], by simp, Or.inl ⟨rfl, rfl, rfl, rfl⟩⟩
  | cons b more ih =>
    cases hc : b.m_command with
    | none => simp [on_mouse_move_loop, hc] at h
    | some c =>
      simp only [on_mouse_move_loop, hc] at h
      obtain ⟨tail, hlog, htail⟩ := on_motion_command_trace env b c context w
      split_ifs at h with hcons
      · obtain ⟨swept, hlog2, hswept⟩ := update_active_mouse_command_trace _ w1 c h
        refine ⟨Entry.on_motion b.m_id :: tail ++
          Entry.update_active_mouse_command c :: Entry.inactivate_ready_commands :: swept,
          ?_, Or.inr ⟨[], b, c, more, rfl, hc, rfl, hcons, h, ?_, ?_⟩⟩
        · rw [hlog2, hlog]
          simp
        · simp [List.filter_cons, Entry.is_on_motion, filter_on_motion_of_command tail htail,
            filter_on_motion_of_swept swept hswept]
        · simp [List.filter_cons, Entry.is_update, filter_update_of_command tail htail,
            filter_update_of_swept swept hswept]
      · have hfalse : (b.on_motion env c context w).2 = false :=
          Bool.eq_false_iff.mpr hcons
        obtain ⟨added, hlog2, hcase⟩ := ih _ h
        refine ⟨Entry.on_motion b.m_id :: tail ++ added, ?_, ?_⟩
        · rw [hlog2, hlog]
          simp
        · rcases hcase with ⟨hd, hw1, hf1, hf2⟩ | ⟨pre, b1, c1, post, hl, hc1, hd, hr, hu, hf1, hf2⟩
          · refine Or.inl ⟨?_, ?_, ?_, ?_⟩
            · simp only [declined, hc, hfalse, Bool.not_false, Bool.true_and]
              exact hd
            · simp only [after_declined, hc]
              exact hw1
            · simp [List.filter_cons, Entry.is_on_motion,
                filter_on_motion_of_command tail htail, hf1]
            · simp [List.filter_cons, Entry.is_update, filter_update_of_command tail htail,
                hf2]
          · refine Or.inr ⟨b :: pre, b1, c1, post, ?_, hc1, ?_, ?_, ?_, ?_, ?_⟩
            · rw [hl]
              rfl
            · simp only [declined, hc, hfalse, Bool.not_false, Bool.true_and]
              exact hd
            · simp only [after_declined, hc]
              exact hr
            · simp only [after_declined, hc]
              exact hu
            · simp [List.filter_cons, Entry.is_on_motion,
                filter_on_motion_of_command tail htail, hf1]
            · simp [List.filter_cons, Entry.is_update, filter_update_of_command tail htail,
                hf2]

/-- C22: an `on_mouse_click` that returns has sorted the bindings and then
stopped at the first binding whose `on_button` returned true, and an
`on_mouse_move` that returns has stopped at the first stored binding whose
`on_motion` returned true: the bindings before it were evaluated in order and
returned false, no binding after it was evaluated, and
`update_active_mouse_command` was called exactly once, with the command of that
binding; when no predicate returned true every binding was evaluated and
`update_active_mouse_command` was not called. -/
theorem C22_stop_at_first_consumer (env : Env) (w w1 : World) :
    (∀ button count, w.on_mouse_click env button count = Except.ok w1 →
      ∃ sorted added, sorted.Perm w.g_commands.m_mouse_bindings ∧
        w1.log = w.log ++ added ∧
        stops_at_first_consumer
          (fun b c v => b.on_button env c ⟨w.g_commands.m_last_mouse_position, ⟨0, 0⟩⟩
            button count v)
          (fun b => Entry.on_button b.m_id) Entry.is_on_button
          sorted (w.sorted_as sorted) w1 added) ∧
    (∀ x y, w.on_mouse_move env x y = Except.ok w1 →
      ∃ added, w1.log = w.log ++ added ∧
        stops_at_first_consumer
          (fun b c v => b.on_motion env c
            ⟨⟨x, y⟩, w.g_commands.m_last_mouse_position.sub ⟨x, y⟩⟩ v)
          (fun b => Entry.on_motion b.m_id) Entry.is_on_motion
          w.g_commands.m_mouse_bindings (w.moved_to x y) w1 added) := by
  constructor
  · intro button count h
    unfold World.on_mouse_click at h
    rcases sort_mouse_bindings_cases env w with hs | ⟨sorted, hperm, hs⟩
    · rw [hs] at h
      cases h
    · rw [hs] at h
      simp only [] at h
      have ht := on_mouse_click_loop_first_consumer env _ _ _ _ _ w1 h
      obtain ⟨added, hlog, hstop⟩ := ht
      exact ⟨sorted, added, hperm, hlog, hstop⟩
  · intro x y h
    unfold World.on_mouse_move at h
    have ht := on_mouse_move_loop_first_consumer env _ _ _ w1 h
    obtain ⟨added, hlog, hstop⟩ := ht
    exact ⟨added, hlog, hstop⟩

/-- Witness of C22: the release that ends a drag in the map editor; the brush
command's binding is evaluated first and consumes, the hover command's binding
is not evaluated, and `update_active_mouse_command` is called once. -/
theorem C22_stop_at_first_consumer_witness :
    (World.run_or map_editor_env drag_done_calls start_world).log =
      (World.run_or map_editor_env dragging_calls start_world).log ++
        [Entry.on_button 2, Entry.set_inactive brush_command, Entry.on_inactive brush_command,
          Entry.update_active_mouse_command brush_command, Entry.inactivate_ready_commands] ∧
    ∃ sorted added,
      sorted.Perm
        (World.run_or map_editor_env dragging_calls start_world).g_commands.m_mouse_bindings ∧
      (World.run_or map_editor_env drag_done_calls start_world).log =
        (World.run_or map_editor_env dragging_calls start_world).log ++ added ∧
      stops_at_first_consumer
        (fun b c v => b.on_button map_editor_env c
          ⟨(World.run_or map_editor_env dragging_calls start_world).g_commands
            |>.m_last_mouse_position, ⟨0, 0⟩⟩ 0 0 v)
        (fun b => Entry.on_button b.m_id) Entry.is_on_button
        sorted ((World.run_or map_editor_env dragging_calls start_world).sorted_as sorted)
        (World.run_or map_editor_env drag_done_calls start_world) added :=
  ⟨rfl,
    (C22_stop_at_first_consumer map_editor_env
      (World.run_or map_editor_env dragging_calls start_world)
      (World.run_or map_editor_env drag_done_calls start_world)).1 0 0 rfl⟩

/-! ## Ties between bindings of equal priority -/

theorem insertionSort_keeps_ties (key : Mouse_binding → Int) (l : List Mouse_binding)
    (k : Int) :
    (List.insertionSort (fun a b => key a ≤ key b) l).filter (fun b => decide (key b = k)) =
      l.filter (fun b => decide (key b = k)) := by
  have hpair : (l.filter (fun b => decide (key b = k))).Pairwise
      (fun a b => key a ≤ key b) := by
    apply List.pairwise_of_forall_mem_list
    intro a ha b hb
    have h1 : key a = k := of_decide_eq_true (List.mem_filter.mp ha).2
    have h2 : key b = k := of_decide_eq_true (List.mem_filter.mp hb).2
    rw [h1, h2]
  have hsub := List.sublist_insertionSort hpair (List.filter_sublist l)
  have hsub2 := hsub.filter (fun b => decide (key b = k))
  have hidem : (l.filter (fun b => decide (key b = k))).filter (fun b => decide (key b = k)) =
      l.filter (fun b => decide (key b = k)) := by
    rw [List.filter_filter]
    simp
  rw [hidem] at hsub2
  have hlen := ((List.perm_insertionSort (fun a b => key a ≤ key b) l).filter
    (fun b => decide (key b = k))).length_eq
  exact (hsub2.eq_of_length hlen.symm).symm

theorem map_editor_env_sort_is_stable : map_editor_env.sort_is_stable :=
  fun key l k => insertionSort_keeps_ties key l k

theorem sort_mouse_bindings_keeps_ties (env : Env) (hstable : env.sort_is_stable)
    (w w1 : World) (h : w.sort_mouse_bindings env = Except.ok w1) (k : Int) :
    w1.g_commands.m_mouse_bindings.filter (fun b => decide (w.binding_priority b = k)) =
      w.g_commands.m_mouse_bindings.filter (fun b => decide (w.binding_priority b = k)) := by
  unfold World.sort_mouse_bindings at h
  split_ifs at h
  · cases h
    rfl
  · cases h
    exact hstable w.binding_priority w.g_commands.m_mouse_bindings k

/-- Counterexample to C21: two first dispatches in which the hover command's
binding (id 1, registered first) and the brush command's binding (id 2) have
equal priority and the binding registered second is evaluated first.  With the
stable sort of `map_editor_env`, after a whole drag: the release sorted the
brush command's binding to the front, and the next press, with both commands
Inactive, keeps it there.  With the sort of `reversing_env`, at the first press
after the set-up. -/
theorem C21_ties_not_in_registration_order :
    ((World.run_or map_editor_env drag_done_calls start_world).get_command_priority
        hover_command =
      (World.run_or map_editor_env drag_done_calls start_world).get_command_priority
        brush_command ∧
      ∃ w1, (World.run_or map_editor_env drag_done_calls start_world).on_mouse_click
          map_editor_env 0 1 = Except.ok w1 ∧
        w1.log = (World.run_or map_editor_env drag_done_calls start_world).log ++
          [Entry.on_button 2, Entry.try_ready brush_command, Entry.set_ready brush_command,
            Entry.on_button 1]) ∧
    ((World.run_or reversing_env map_editor_setup start_world).g_commands.m_mouse_bindings =
        [⟨some hover_command, 1, Mouse_kind.motion⟩,
          ⟨some brush_command, 2, Mouse_kind.drag 0⟩] ∧
      (World.run_or reversing_env map_editor_setup start_world).get_command_priority
        hover_command =
      (World.run_or reversing_env map_editor_setup start_world).get_command_priority
        brush_command ∧
      ∃ w1, (World.run_or reversing_env map_editor_setup start_world).on_mouse_click
          reversing_env 0 1 = Except.ok w1 ∧
        w1.log = [Entry.on_button 2, Entry.try_ready brush_command,
          Entry.set_ready brush_command, Entry.on_button 1]) :=
  ⟨⟨rfl, _, rfl, rfl⟩, rfl, rfl, _, rfl, rfl⟩

/-- C21 (amended): when the sort keeps ties in place (a stable sort, which
`std::sort` need not be), bindings of equal priority are evaluated by
`on_mouse_click` in the order in which they are stored at the start of the
event, which is the order left by the previous sort and not in general the
order of registration: for every priority, the bindings of that priority that
are evaluated are a front part of the stored bindings of that priority. -/
theorem C21_ties_keep_stored_order (env : Env) (hstable : env.sort_is_stable)
    (w w1 : World) (button : Mouse_button) (count : Int)
    (h : w.on_mouse_click env button count = Except.ok w1) :
    ∃ evaluated rest added,
      w1.g_commands.m_mouse_bindings = evaluated ++ rest ∧
      w1.log = w.log ++ added ∧
      added.filter Entry.is_on_button = evaluated.map (fun b => Entry.on_button b.m_id) ∧
      ∀ k : Int, evaluated.filter (fun b => decide (w.binding_priority b = k)) <+:
        w.g_commands.m_mouse_bindings.filter (fun b => decide (w.binding_priority b = k)) := by
  unfold World.on_mouse_click at h
  rcases sort_mouse_bindings_cases env w with hs | ⟨sorted, -, hs⟩
  · rw [hs] at h
    cases h
  · rw [hs] at h
    simp only [] at h
    have hties := sort_mouse_bindings_keeps_ties env hstable w _ hs
    have hb := frame_m_mouse_bindings (on_mouse_click_loop_step env _ _ _ _ _ _ h).1
    have ht := on_mouse_click_loop_trace env _ _ _ _ _ w1 h
    obtain ⟨evaluated, rest, added, hl, hlog, hfilter, -⟩ := ht
    have hl1 : sorted = evaluated ++ rest := hl
    have hb1 : w1.g_commands.m_mouse_bindings = sorted := hb
    have hties1 : ∀ k : Int, sorted.filter (fun b => decide (w.binding_priority b = k)) =
        w.g_commands.m_mouse_bindings.filter
          (fun b => decide (w.binding_priority b = k)) := hties
    refine ⟨evaluated, rest, added, hb1.trans hl1, hlog, hfilter, ?_⟩
    intro k
    rw [← hties1 k, hl1, List.filter_append]
    exact List.prefix_append _ _

/-- Witness of C21 (amended): the press that begins a second drag in the map
editor, whose insertion sort is stable. -/
theorem C21_ties_keep_stored_order_witness :
    map_editor_env.sort_is_stable ∧
    (World.run_or map_editor_env drag_done_calls start_world).on_mouse_click
        map_editor_env 0 1 =
      Except.ok (World.run_or map_editor_env second_drag_calls start_world) ∧
    ∃ evaluated rest added,
      (World.run_or map_editor_env second_drag_calls start_world).g_commands.m_mouse_bindings =
        evaluated ++ rest ∧
      (World.run_or map_editor_env second_drag_calls start_world).log =
        (World.run_or map_editor_env drag_done_calls start_world).log ++ added ∧
      added.filter Entry.is_on_button = evaluated.map (fun b => Entry.on_button b.m_id) ∧
      ∀ k : Int,
        evaluated.filter (fun b => decide
          ((World.run_or map_editor_env drag_done_calls start_world).binding_priority b = k)) <+:
        List.filter (fun b => decide
            ((World.run_or map_editor_env drag_done_calls start_world).binding_priority b = k))
          (World.run_or map_editor_env drag_done_calls start_world).g_commands.m_mouse_bindings :=
  ⟨map_editor_env_sort_is_stable, rfl,
    C21_ties_keep_stored_order map_editor_env map_editor_env_sort_is_stable
      (World.run_or map_editor_env drag_done_calls start_world)
      (World.run_or map_editor_env second_drag_calls start_world) 0 1 rfl⟩

/-! ## How the slot changes hands -/

theorem release_step_refl (w : World) : w.release_step w :=
  ⟨[], by simp, Or.inl rfl⟩

theorem release_step_trans {a b c : World} (h1 : a.release_step b) (h2 : b.release_step c) :
    a.release_step c := by
  obtain ⟨t1, hl1, hs1⟩ := h1
  obtain ⟨t2, hl2, hs2⟩ := h2
  refine ⟨t1 ++ t2, by rw [hl2, hl1, List.append_assoc], ?_⟩
  rcases hs1 with hk1 | ⟨hn1, hr1⟩
  · rcases hs2 with hk2 | ⟨hn2, hr2⟩
    · exact Or.inl (hk2.trans hk1)
    · exact Or.inr ⟨hn2, fun x hx => List.mem_append_right _ (hr2 x (hk1.trans hx))⟩
  · refine Or.inr ⟨?_, fun x hx => List.mem_append_left _ (hr1 x hx)⟩
    rcases hs2 with hk2 | ⟨hn2, -⟩
    · exact hk2.trans hn1
    · exact hn2

theorem logged_release (w : World) (e : Entry) : w.release_step (w.logged e) :=
  ⟨[e], rfl, Or.inl rfl⟩

theorem set_ready_release (c : Cmd) (w : World) : w.release_step (Command.set_ready c w) :=
  ⟨[Entry.set_ready c], rfl, Or.inl rfl⟩

theorem set_active_release (c : Cmd) (w : World) : w.release_step (Command.set_active c w) :=
  ⟨[Entry.set_active c], rfl, Or.inl rfl⟩

theorem set_inactive_release (c : Cmd) (w : World) :
    w.release_step (Command.set_inactive c w) := by
  refine ⟨[Entry.set_inactive c, Entry.on_inactive c], ?_, ?_⟩
  · simp [Command.set_inactive, World.logged, World.set_state]
  · rw [set_inactive_slot]
    by_cases hs : w.g_commands.m_active_mouse_command = some c
    · rw [if_pos hs]
      refine Or.inr ⟨rfl, fun a ha => ?_⟩
      have hac : a = c := Option.some.inj (ha.symm.trans hs)
      rw [hac]
      exact List.mem_cons_self _ _
    · rw [if_neg hs]
      exact Or.inl rfl

theorem call_op_release (c : Cmd) (w : World) (op : Op) :
    w.release_step (Command.call_op c w op) := by
  cases op
  · exact set_ready_release c w
  · exact set_active_release c w
  · exact set_inactive_release c w

theorem call_ops_release (c : Cmd) (ops : List Op) (w : World) :
    w.release_step (Command.call_ops c ops w) := by
  induction ops generalizing w with
  | nil => exact release_step_refl w
  | cons op rest ih =>
    exact release_step_trans (call_op_release c w op) (ih (Command.call_op c w op))

theorem try_call_release (env : Env) (c : Cmd) (context : Command_context) (w : World) :
    w.release_step (Command.try_call env c context w).1 :=
  release_step_trans (logged_release w _) (call_ops_release c _ _)

theorem try_ready_release (env : Env) (c : Cmd) (context : Command_context) (w : World) :
    w.release_step (Command.try_ready env c context w) :=
  release_step_trans (logged_release w _) (call_ops_release c _ _)

theorem sweep_fold_release (cs : List Cmd) (acc : World) :
    acc.release_step (cs.foldl
      (fun acc command =>
        if acc.command_state command = State.Ready then Command.set_inactive command acc else acc)
      acc) := by
  induction cs generalizing acc with
  | nil => exact release_step_refl acc
  | cons c rest ih =>
    simp only [List.foldl_cons]
    refine release_step_trans ?_ (ih _)
    split
    · exact set_inactive_release c acc
    · exact release_step_refl acc

theorem inactivate_ready_commands_release (w : World) :
    w.release_step w.inactivate_ready_commands :=
  release_step_trans (logged_release w _) (sweep_fold_release _ _)

theorem on_button_release (env : Env) (b : Mouse_binding) (c : Cmd)
    (context : Command_context) (button : Mouse_button) (count : Int) (w : World) :
    w.release_step (b.on_button env c context button count w).1 := by
  have hl := logged_release w (Entry.on_button b.m_id)
  unfold Mouse_binding.on_button
  simp only []
  split
  · split
    · split
      · exact release_step_trans hl
          (release_step_trans (set_ready_release c _) (try_call_release env c context _))
      · exact release_step_trans hl (try_call_release env c context _)
    · exact hl
  · exact hl
  · split
    · split
      · split
        · exact release_step_trans hl (try_ready_release env c context _)
        · exact hl
      · split
        · exact release_step_trans hl (set_inactive_release c _)
        · exact hl
    · exact hl

theorem on_motion_release (env : Env) (b : Mouse_binding) (c : Cmd)
    (context : Command_context) (w : World) :
    w.release_step (b.on_motion env c context w).1 := by
  have hl := logged_release w (Entry.on_motion b.m_id)
  unfold Mouse_binding.on_motion
  simp only []
  split
  · exact hl
  · exact release_step_trans hl (try_call_release env c context _)
  · split
    · exact release_step_trans hl (try_call_release env c context _)
    · exact hl

theorem on_wheel_release (env : Env) (b : Mouse_wheel_binding) (c : Cmd)
    (context : Command_context) (w : World) :
    w.release_step (b.on_wheel env c context w).1 :=
  release_step_trans (logged_release w _) (try_call_release env c context _)

theorem on_key_release (env : Env) (b : Key_binding) (context : Command_context)
    (pressed : Bool) (code : Keycode) (modifier_mask : Nat) (w w1 : World) (consumed : Bool)
    (h : b.on_key env context pressed code modifier_mask w = Except.ok (w1, consumed)) :
    w.release_step w1 := by
  have hl := logged_release w (Entry.on_key b.m_id)
  unfold Key_binding.on_key at h
  simp only [] at h
  split at h
  · split at h
    · cases h
    · cases h
      exact release_step_trans hl (try_call_release env _ context _)
  · cases h
    exact hl

theorem on_mouse_wheel_loop_release (env : Env) (context : Command_context)
    (l : List Mouse_wheel_binding) (w w1 : World)
    (h : on_mouse_wheel_loop env context l w = Except.ok w1) :
    w.release_step w1 := by
  induction l generalizing w with
  | nil =>
    simp only [on_mouse_wheel_loop] at h
    cases h
    exact release_step_refl _
  | cons b rest ih =>
    cases hc : b.m_command with
    | none => simp [on_mouse_wheel_loop, hc] at h
    | some c =>
      simp only [on_mouse_wheel_loop, hc] at h
      exact release_step_trans (on_wheel_release env b c context w) (ih _ h)

theorem on_key_loop_release (env : Env) (context : Command_context) (pressed : Bool)
    (code : Keycode) (modifier_mask : Nat) (l : List Key_binding) (w w1 : World)
    (h : on_key_loop env context pressed code modifier_mask l w = Except.ok w1) :
    w.release_step w1 := by
  induction l generalizing w with
  | nil =>
    simp only [on_key_loop] at h
    cases h
    exact release_step_refl _
  | cons b rest ih =>
    simp only [on_key_loop] at h
    cases hb : b.on_key env context pressed code modifier_mask w with
    | error e => simp [hb] at h
    | ok r =>
      obtain ⟨w2, consumed⟩ := r
      simp only [hb] at h
      have hq := on_key_release env b context pressed code modifier_mask w w2 consumed hb
      split_ifs at h
      · cases h
        exact hq
      · exact release_step_trans hq (ih _ h)

theorem claim_step_of_release {w v : World} (hr : w.release_step v) : w.claim_step v := by
  obtain ⟨added, hlog, hslot⟩ := hr
  refine ⟨added, hlog, fun b hb hne => ?_⟩
  rcases hslot with hk | ⟨hn, -⟩
  · exact absurd (hk.symm.trans hb) hne
  · rw [hn] at hb
    cases hb

theorem after_sweep_log (v : World) (c : Cmd) :
    ∃ swept, (v.after_sweep c).log =
      v.log ++ Entry.update_active_mouse_command c :: Entry.inactivate_ready_commands :: swept := by
  obtain ⟨swept, hlog, -⟩ :=
    inactivate_ready_commands_count (v.logged (Entry.update_active_mouse_command c)) c
  refine ⟨swept, ?_⟩
  unfold World.after_sweep
  rw [hlog]
  simp [World.logged]

/-- The slot passes to a command only in `update_active_mouse_command`, only to
its Active argument and only from empty. -/
theorem update_active_mouse_command_claim (w v v1 : World) (c : Cmd)
    (hr : w.release_step v) (h : v.update_active_mouse_command c = Except.ok v1) :
    w.claim_step v1 := by
  have hvs : v.release_step (v.after_sweep c) :=
    release_step_trans (logged_release v _) (inactivate_ready_commands_release _)
  obtain ⟨swept, hsl⟩ := after_sweep_log v c
  have hws := release_step_trans hr hvs
  obtain ⟨t, ht, -⟩ := hr
  obtain ⟨added1, hlog1, hslot2⟩ := hws
  have hmem : Entry.update_active_mouse_command c ∈ added1 := by
    have heq : w.log ++ added1 = w.log ++ (t ++ Entry.update_active_mouse_command c ::
        Entry.inactivate_ready_commands :: swept) := by
      rw [← hlog1, hsl, ht, List.append_assoc]
    rw [List.append_cancel_left heq]
    exact List.mem_append_right _ (List.mem_cons_self _ _)
  have hs : (v.logged (Entry.update_active_mouse_command c)).inactivate_ready_commands =
      v.after_sweep c := rfl
  unfold World.update_active_mouse_command at h
  simp only [hs] at h
  generalize v.after_sweep c = s at h hlog1 hslot2
  by_cases h1 : s.command_state c = State.Active ∧
      s.g_commands.m_active_mouse_command ≠ some c
  · rw [if_pos h1] at h
    by_cases h2 : s.g_commands.m_active_mouse_command = none
    · rw [if_pos h2] at h
      cases h
      refine ⟨added1, hlog1, fun b hb _ => ?_⟩
      have hbc : c = b := Option.some.inj hb
      subst hbc
      refine ⟨h1.1, hmem, fun a ha => ?_⟩
      rcases hslot2 with hk | ⟨-, hrel⟩
      · rw [h2] at hk
        rw [← hk] at ha
        cases ha
      · exact hrel a ha
    · rw [if_neg h2] at h
      cases h
  · rw [if_neg h1] at h
    by_cases h3 : s.command_state c ≠ State.Active ∧
        s.g_commands.m_active_mouse_command = some c
    · rw [if_pos h3] at h
      cases h
      refine ⟨added1, hlog1, fun b hb _ => ?_⟩
      cases hb
    · rw [if_neg h3] at h
      cases h
      exact claim_step_of_release ⟨added1, hlog1, hslot2⟩

theorem on_mouse_click_loop_claim (env : Env) (context : Command_context)
    (button : Mouse_button) (count : Int) (l : List Mouse_binding) (w v v1 : World)
    (hr : w.release_step v)
    (h : on_mouse_click_loop env context button count l v = Except.ok v1) :
    w.claim_step v1 := by
  induction l generalizing v with
  | nil =>
    simp only [on_mouse_click_loop] at h
    cases h
    exact claim_step_of_release hr
  | cons b rest ih =>
    cases hc : b.m_command with
    | none => simp [on_mouse_click_loop, hc] at h
    | some c =>
      simp only [on_mouse_click_loop, hc] at h
      have hr1 := release_step_trans hr (on_button_release env b c context button count v)
      split_ifs at h
      · exact update_active_mouse_command_claim w _ v1 c hr1 h
      · exact ih _ hr1 h

theorem on_mouse_move_loop_claim (env : Env) (context : Command_context)
    (l : List Mouse_binding) (w v v1 : World) (hr : w.release_step v)
    (h : on_mouse_move_loop env context l v = Except.ok v1) :
    w.claim_step v1 := by
  induction l generalizing v with
  | nil =>
    simp only [on_mouse_move_loop] at h
    cases h
    exact claim_step_of_release hr
  | cons b rest ih =>
    cases hc : b.m_command with
    | none => simp [on_mouse_move_loop, hc] at h
    | some c =>
      simp only [on_mouse_move_loop, hc] at h
      have hr1 := release_step_trans hr (on_motion_release env b c context v)
      split_ifs at h
      · exact update_active_mouse_command_claim w _ v1 c hr1 h
      · exact ih _ hr1 h

theorem call_claim (env : Env) (w w1 : World) (call : Call)
    (hcall : w.call env call = Except.ok w1) : w.claim_step w1 := by
  cases call with
  | register_command command =>
    simp only [World.call, Except.ok.injEq] at hcall
    subst hcall
    exact claim_step_of_release ⟨[], (List.append_nil _).symm, Or.inl rfl⟩
  | bind_command_to_key command code pressed modifier_mask =>
    simp only [World.call, Except.ok.injEq] at hcall
    subst hcall
    exact claim_step_of_release ⟨[], (List.append_nil _).symm, Or.inl rfl⟩
  | bind_command_to_mouse_click command button =>
    simp only [World.call, Except.ok.injEq] at hcall
    subst hcall
    exact claim_step_of_release ⟨[], (List.append_nil _).symm, Or.inl rfl⟩
  | bind_command_to_mouse_wheel command =>
    simp only [World.call, Except.ok.injEq] at hcall
    subst hcall
    exact claim_step_of_release ⟨[], (List.append_nil _).symm, Or.inl rfl⟩
  | bind_command_to_mouse_motion command =>
    simp only [World.call, Except.ok.injEq] at hcall
    subst hcall
    exact claim_step_of_release ⟨[], (List.append_nil _).symm, Or.inl rfl⟩
  | bind_command_to_mouse_drag command button =>
    simp only [World.call, Except.ok.injEq] at hcall
    subst hcall
    exact claim_step_of_release ⟨[], (List.append_nil _).symm, Or.inl rfl⟩
  | remove_command_binding binding_id =>
    simp only [World.call, Except.ok.injEq] at hcall
    subst hcall
    exact claim_step_of_release ⟨[], (List.append_nil _).symm, Or.inl rfl⟩
  | on_key code modifier_mask pressed =>
    exact claim_step_of_release (on_key_loop_release env _ _ _ _ _ _ _ hcall)
  | on_mouse_move x y =>
    have hmoved : w.release_step (w.moved_to x y) :=
      ⟨[], (List.append_nil _).symm, Or.inl rfl⟩
    exact on_mouse_move_loop_claim env _ _ w (w.moved_to x y) w1 hmoved hcall
  | on_mouse_click button count =>
    simp only [World.call, World.on_mouse_click] at hcall
    rcases sort_mouse_bindings_cases env w with hs | ⟨sorted, -, hs⟩
    · rw [hs] at hcall
      cases hcall
    · rw [hs] at hcall
      simp only [] at hcall
      have hsorted : w.release_step (w.sorted_as sorted) :=
        ⟨[], (List.append_nil _).symm, Or.inl rfl⟩
      exact on_mouse_click_loop_claim env _ _ _ _ w (w.sorted_as sorted) w1 hsorted hcall
  | on_mouse_wheel x y =>
    simp only [World.call, World.on_mouse_wheel] at hcall
    rcases sort_mouse_bindings_cases env w with hs | ⟨sorted, -, hs⟩
    · rw [hs] at hcall
      cases hcall
    · rw [hs] at hcall
      simp only [] at hcall
      have hstart : w.release_step
          { w with g_commands := { w.g_commands with
            m_mouse_bindings := sorted, m_last_mouse_wheel_delta := ⟨x, y⟩ } } :=
        ⟨[], (List.append_nil _).symm, Or.inl rfl⟩
      exact claim_step_of_release
        (release_step_trans hstart (on_mouse_wheel_loop_release env _ _ _ _ hcall))

theorem call_owner_consumed (env : Env) (w w1 : World) (call : Call)
    (hcall : w.call env call = Except.ok w1) (h : w.owner_consumed) : w1.owner_consumed := by
  obtain ⟨added, hlog, hclaim⟩ := call_claim env w w1 call hcall
  intro c hc
  rw [hlog]
  by_cases hw : w.g_commands.m_active_mouse_command = some c
  · exact List.mem_append_left _ (h c hw)
  · exact List.mem_append_right _ (hclaim c hc hw).2.1

theorem run_owner_consumed (env : Env) (calls : List Call) (w w1 : World)
    (hrun : World.run env calls w = Except.ok w1) (h : w.owner_consumed) :
    w1.owner_consumed := by
  induction calls generalizing w with
  | nil =>
    simp only [World.run, Except.ok.injEq] at hrun
    subst hrun
    exact h
  | cons call rest ih =>
    simp only [World.run] at hrun
    cases hc : w.call env call with
    | error e => simp [hc] at hrun
    | ok w2 =>
      simp only [hc] at hrun
      exact ih w2 hrun (call_owner_consumed env w w2 call hc h)

/-! ## C3: at most one active mouse command -/

/-- C3: in a world reached from the constructed dispatcher, whose slot is
empty, by any sequence of calls, `on_mouse_click` and `on_mouse_move` among
them, and after one more call: two Active commands that own the slot are the
same command; a command that holds the slot without having held it before the
call is Active, was passed to `update_active_mouse_command` during the call,
and the command that held the slot before, if there was one, got its
`set_inactive` during the call, so the slot passes from one command to another
only through empty; and the holder of the slot was passed to
`update_active_mouse_command` at some point of the sequence. -/
theorem C3_at_most_one_active_mouse_command (env : Env) (command_state : Cmd → State)
    (first_id : Nat) (cursor : dvec2) (calls : List Call) (w w1 : World) (event : Call)
    (hrun : World.run env calls (World.initial command_state first_id cursor) = Except.ok w)
    (hevent : w.call env event = Except.ok w1) :
    (∀ a b,
      (w1.g_commands.m_active_mouse_command = some a ∧ w1.command_state a = State.Active) →
      (w1.g_commands.m_active_mouse_command = some b ∧ w1.command_state b = State.Active) →
      a = b) ∧
    (∀ b, w1.g_commands.m_active_mouse_command = some b →
      w.g_commands.m_active_mouse_command ≠ some b →
      w1.command_state b = State.Active ∧
      ∃ added, w1.log = w.log ++ added ∧
        Entry.update_active_mouse_command b ∈ added ∧
        ∀ a, w.g_commands.m_active_mouse_command = some a → Entry.set_inactive a ∈ added) ∧
    (∀ c, w1.g_commands.m_active_mouse_command = some c →
      Entry.update_active_mouse_command c ∈ w1.log) := by
  have hinit : (World.initial command_state first_id cursor).owner_consumed := by
    intro c hc
    cases hc
  have hw := run_owner_consumed env calls _ w hrun hinit
  obtain ⟨added, hlog, hclaim⟩ := call_claim env w w1 event hevent
  refine ⟨fun a b ha hb => Option.some.inj (ha.1.symm.trans hb.1), ?_, ?_⟩
  · intro b hb hne
    obtain ⟨hactive, hmem, hrel⟩ := hclaim b hb hne
    exact ⟨hactive, added, hlog, hmem, hrel⟩
  · exact call_owner_consumed env w w1 event hevent hw

/-- Witness of C3: in the map editor with the left button pressed the slot is
empty; the first motion hands it to the brush command, which is Active and was
passed to `update_active_mouse_command` by that motion. -/
theorem C3_at_most_one_active_mouse_command_witness :
    (World.run_or map_editor_env armed_calls start_world).g_commands.m_active_mouse_command =
      none ∧
    (World.run_or map_editor_env dragging_calls start_world).g_commands.m_active_mouse_command =
      some brush_command ∧
    (World.run_or map_editor_env dragging_calls start_world).command_state brush_command =
      State.Active ∧
    ∃ added,
      (World.run_or map_editor_env dragging_calls start_world).log =
        (World.run_or map_editor_env armed_calls start_world).log ++ added ∧
      Entry.update_active_mouse_command brush_command ∈ added ∧
      ∀ a, (World.run_or map_editor_env armed_calls start_world
          ).g_commands.m_active_mouse_command = some a → Entry.set_inactive a ∈ added :=
  ⟨rfl, rfl,
    (C3_at_most_one_active_mouse_command map_editor_env (fun _ => State.Inactive) 1 ⟨0, 0⟩
      armed_calls (World.run_or map_editor_env armed_calls start_world)
      (World.run_or map_editor_env dragging_calls start_world) (Call.on_mouse_move 1 1)
      rfl rfl).2.1 brush_command rfl
      (fun h => Option.noConfusion (h : (none : Option Cmd) = some brush_command))⟩

/-! ## C9 and C14: the amended statements -/

theorem on_mouse_wheel_loop_slot_kept_of (env : Env) (context : Command_context)
    (l : List Mouse_wheel_binding) (w w1 : World)
    (hkeep : ∀ b ∈ l, ∀ c, b.m_command = some c →
      ∀ (context : Command_context) (v : World), Op.set_inactive ∉ (env.try_call c context v).1)
    (h : on_mouse_wheel_loop env context l w = Except.ok w1) :
    w1.g_commands.m_active_mouse_command = w.g_commands.m_active_mouse_command := by
  induction l generalizing w with
  | nil =>
    simp only [on_mouse_wheel_loop] at h
    cases h
    rfl
  | cons b rest ih =>
    cases hc : b.m_command with
    | none => simp [on_mouse_wheel_loop, hc] at h
    | some c =>
      simp only [on_mouse_wheel_loop, hc] at h
      rw [ih _ (fun k hk => hkeep k (List.mem_cons_of_mem _ hk)) h]
      exact call_ops_slot_kept c _ _ (hkeep b (List.mem_cons_self _ _) c hc context _)

/-- C9 (amended): `on_mouse_wheel` never claims the slot.  After the call the
slot is the one before the call or empty, and it is the one before the call
whenever no `try_call` of a command that has a wheel binding calls
`set_inactive`. -/
theorem C9_on_mouse_wheel_slot (env : Env) (w w1 : World) (x y : Int)
    (h : w.on_mouse_wheel env x y = Except.ok w1) :
    (w1.g_commands.m_active_mouse_command = w.g_commands.m_active_mouse_command ∨
        w1.g_commands.m_active_mouse_command = none) ∧
      ((∀ b ∈ w.g_commands.m_mouse_wheel_bindings, ∀ c, b.m_command = some c →
          ∀ (context : Command_context) (v : World),
            Op.set_inactive ∉ (env.try_call c context v).1) →
        w1.g_commands.m_active_mouse_command = w.g_commands.m_active_mouse_command) := by
  unfold World.on_mouse_wheel at h
  rcases sort_mouse_bindings_cases env w with hs | ⟨sorted, -, hs⟩
  · rw [hs] at h
    cases h
  · rw [hs] at h
    simp only [] at h
    have hq := on_mouse_wheel_loop_quiet env _ _ _ _ h
    have hk := fun hkeep => on_mouse_wheel_loop_slot_kept_of env _ _ _ w1 hkeep h
    refine ⟨?_, fun hkeep => ?_⟩
    · exact hq.2.1
    · exact hk hkeep

/-- Witness of C9 (amended): in the map editor the brush command, dragging and
bound to the wheel as well, still owns the slot after a wheel event. -/
theorem C9_on_mouse_wheel_slot_witness :
    (World.run_or map_editor_env brush_wheel_calls start_world).on_mouse_wheel
        map_editor_env 0 1 =
      Except.ok (World.run_or map_editor_env (brush_wheel_calls ++ [Call.on_mouse_wheel 0 1])
        start_world) ∧
    (World.run_or map_editor_env brush_wheel_calls start_world
      ).g_commands.m_mouse_wheel_bindings = [⟨some brush_command, 3⟩] ∧
    (World.run_or map_editor_env (brush_wheel_calls ++ [Call.on_mouse_wheel 0 1])
      start_world).g_commands.m_active_mouse_command = some brush_command :=
  ⟨rfl, rfl,
    (C9_on_mouse_wheel_slot map_editor_env
      (World.run_or map_editor_env brush_wheel_calls start_world)
      (World.run_or map_editor_env (brush_wheel_calls ++ [Call.on_mouse_wheel 0 1]) start_world)
      0 1 rfl).2
      (fun _ _ c _ context v => map_editor_env_try_call_keeps_active c context v)⟩

/-- C14 (amended): an `on_mouse_move` that returns evaluates the stored mouse
bindings in stored order up to and including the first whose `on_motion`
returns true, and no binding stored after that one: either every `on_motion`
returned false and every binding was evaluated, or the bindings evaluated are
`pre` followed by `b`, where every `on_motion` of `pre` returned false and that
of `b` returned true.  For every command, `try_call` is invoked once for each
of its motion bindings evaluated, at most once more for each of its drag
bindings evaluated, and not at all by click bindings. -/
theorem C14_motion_bindings_until_consumed (env : Env) (w w1 : World) (x y : Int)
    (h : w.on_mouse_move env x y = Except.ok w1) :
    ∃ evaluated rest added,
      w.g_commands.m_mouse_bindings = evaluated ++ rest ∧
      w1.log = w.log ++ added ∧
      added.filter Entry.is_on_motion = evaluated.map (fun b => Entry.on_motion b.m_id) ∧
      (∀ c, evaluated.countP (fun b => b.is_motion_of c) ≤ added.count (Entry.try_call c)) ∧
      (∀ c, added.count (Entry.try_call c) ≤ evaluated.countP (fun b => b.may_forward_to c)) ∧
      ((rest = [] ∧
          declined (fun b c v => b.on_motion env c
              ⟨⟨x, y⟩, w.g_commands.m_last_mouse_position.sub ⟨x, y⟩⟩ v)
            w.g_commands.m_mouse_bindings (w.moved_to x y) = true ∧
          added.filter Entry.is_update = []) ∨
        ∃ pre b c, evaluated = pre ++ [b] ∧ b.m_command = some c ∧
          declined (fun b c v => b.on_motion env c
              ⟨⟨x, y⟩, w.g_commands.m_last_mouse_position.sub ⟨x, y⟩⟩ v)
            pre (w.moved_to x y) = true ∧
          (b.on_motion env c ⟨⟨x, y⟩, w.g_commands.m_last_mouse_position.sub ⟨x, y⟩⟩
            (after_declined (fun b c v => b.on_motion env c
                ⟨⟨x, y⟩, w.g_commands.m_last_mouse_position.sub ⟨x, y⟩⟩ v)
              pre (w.moved_to x y))).2 = true ∧
          added.filter Entry.is_update = [Entry.update_active_mouse_command c]) := by
  unfold World.on_mouse_move at h
  simp only [] at h
  have ht := on_mouse_move_loop_trace env _ _ _ w1 h
  have hf := on_mouse_move_loop_first_consumer env _ _ _ w1 h
  obtain ⟨evaluated, rest, added, hl, hlog, hfilter, hmin, hmax, -, -⟩ := ht
  obtain ⟨added2, hlog2, hstop⟩ := hf
  have hadd : added2 = added := List.append_cancel_left (hlog2.symm.trans hlog)
  rw [hadd] at hstop
  have hl1 : w.g_commands.m_mouse_bindings = evaluated ++ rest := hl
  have hlog1 : w1.log = w.log ++ added := hlog
  refine ⟨evaluated, rest, added, hl1, hlog1, hfilter, hmin, hmax, ?_⟩
  rcases hstop with ⟨hd, -, hf1, hf2⟩ | ⟨pre, b, c, post, hlist, hc, hd, hr, -, hf1, hf2⟩
  · left
    have h1 : evaluated.map (fun b => Entry.on_motion b.m_id) =
        w.g_commands.m_mouse_bindings.map (fun b => Entry.on_motion b.m_id) :=
      hfilter.symm.trans hf1
    have h2 := congrArg List.length h1
    rw [List.length_map, List.length_map, hl1, List.length_append] at h2
    have hrest : rest = [] := List.length_eq_zero.mp (by omega)
    exact ⟨hrest, hd, hf2⟩
  · right
    have h1 : evaluated.map (fun b => Entry.on_motion b.m_id) =
        (pre ++ [b]).map (fun b => Entry.on_motion b.m_id) := hfilter.symm.trans hf1
    have h2 := congrArg List.length h1
    rw [List.length_map, List.length_map] at h2
    have hlist0 : w.g_commands.m_mouse_bindings = pre ++ b :: post := hlist
    have hlist1 : evaluated ++ rest = (pre ++ [b]) ++ post := by
      rw [← hl1, hlist0]
      simp
    exact ⟨pre, b, c, List.append_inj_left hlist1 h2, hc, hd, hr, hf2⟩

/-- Witness of C14 (amended): the first motion of the second drag in the map
editor. -/
theorem C14_motion_bindings_until_consumed_witness :
    (World.run_or map_editor_env second_drag_calls start_world).on_mouse_move
        map_editor_env 2 2 =
      Except.ok (World.run_or map_editor_env (second_drag_calls ++ [Call.on_mouse_move 2 2])
        start_world) ∧
    ∃ evaluated rest added,
      (World.run_or map_editor_env second_drag_calls start_world).g_commands.m_mouse_bindings
        = evaluated ++ rest ∧
      (World.run_or map_editor_env (second_drag_calls ++ [Call.on_mouse_move 2 2])
          start_world).log =
        (World.run_or map_editor_env second_drag_calls start_world).log ++ added ∧
      added.filter Entry.is_on_motion = evaluated.map (fun b => Entry.on_motion b.m_id) ∧
      (∀ c, evaluated.countP (fun b => b.is_motion_of c) ≤ added.count (Entry.try_call c)) ∧
      (∀ c, added.count (Entry.try_call c) ≤ evaluated.countP (fun b => b.may_forward_to c)) :=
  ⟨rfl, by
    obtain ⟨evaluated, rest, added, h1, h2, h3, h4, h5, -⟩ :=
      C14_motion_bindings_until_consumed map_editor_env
        (World.run_or map_editor_env second_drag_calls start_world)
        (World.run_or map_editor_env (second_drag_calls ++ [Call.on_mouse_move 2 2])
          start_world) 2 2 rfl
    exact ⟨evaluated, rest, added, h1, h2, h3, h4, h5⟩⟩

end Erhe
